import Mathlib

/-!
# A verification of the tXml parsing and serialization library

This file embeds the library's source (`src/tXml.ts`, `src/transformStream.ts`)
into Lean. Strings are modelled as `List Char` and cursor positions as `Int`,
so that the JavaScript `-1` results of `indexOf` and the clamping behaviour of
`substring`/`slice` are reproduced exactly. Every loop of the source is given
an explicit fuel parameter; fuel exhaustion is a distinguished outcome (`oof`)
that the real code cannot produce as a value, and termination statements are
phrased as "enough fuel exists".
-/

namespace TXml

/-- The model of a JavaScript string: a list of characters. -/
abbrev Str := List Char

/-- Shorthand turning a Lean string literal into the model type. -/
def lit (s : String) : Str := s.data

/-- `S[i]` for an `Int` index: the character, if the index is in range. -/
def getC (S : Str) (i : Int) : Option Char :=
  if 0 ≤ i then S.get? i.toNat else none

/-- Truthiness of the JavaScript expression `S[pos]`: a one-character string is
truthy whenever the index is in range (even for NUL). -/
def truthyAt (S : Str) (i : Int) : Bool :=
  (getC S i).isSome

/-- `S.charCodeAt(i) === c`: `NaN` (out of range) compares unequal to every code. -/
def codeIs (S : Str) (i : Int) (c : Char) : Bool :=
  getC S i == some c

/-- Truthiness of `S.charCodeAt(i)`: `NaN` out of range and code 0 are falsy. -/
def codeTruthy (S : Str) (i : Int) : Bool :=
  match getC S i with
  | some c => c != '\x00'
  | none => false

/-- The ASCII-letter test `(c > 64 && c < 91) || (c > 96 && c < 123)` of the source. -/
def isLetterCode (c : Char) : Bool :=
  (64 < c.toNat && c.toNat < 91) || (96 < c.toNat && c.toNat < 123)

/-- `isLetterCode` lifted to the optional character at a position. -/
def letterAt (S : Str) (i : Int) : Bool :=
  match getC S i with
  | some c => isLetterCode c
  | none => false

/-- The source's `NAME_END_CHARS = "\r\n\t>/= "`. -/
def nameEndChars : Str := ['\r', '\n', '\t', '>', '/', '=', ' ']

/-- The source's `DEFAULT_SELF_CLOSING` list. -/
def defaultSelfClosing : List Str :=
  [lit "img", lit "br", lit "input", lit "meta", lit "link", lit "hr"]

/-- Does `needle` occur in `S` starting exactly at index `i`? -/
def matchAtB (S needle : Str) (i : Nat) : Bool :=
  needle.isPrefixOf (S.drop i)

/-- Search step for `findFrom`, structurally recursive on the remaining
search budget so that it evaluates by kernel reduction. -/
def findFromAux (S needle : Str) : Nat → Nat → Option Nat
  | 0, _ => none
  | fuel + 1, start =>
    if start + needle.length ≤ S.length then
      if needle.isPrefixOf (S.drop start) then some start
      else findFromAux S needle fuel (start + 1)
    else none

/-- First index `≥ start` at which `needle` occurs in `S`. -/
def findFrom (S needle : Str) (start : Nat) : Option Nat :=
  findFromAux S needle (S.length + 1 - start) start

/-- JavaScript `S.indexOf(needle, from)`: `-1` when there is no occurrence,
with a negative `from` clamped to `0`. -/
def jsIndexOf (S needle : Str) (from_ : Int) : Int :=
  match findFrom S needle (max from_ 0).toNat with
  | some i => (i : Int)
  | none => -1

/-- Largest index `≤ i` at which `needle` occurs (fitting inside `S`). -/
def findUpTo (S needle : Str) : Nat → Option Nat
  | 0 => if needle.length ≤ S.length && matchAtB S needle 0 then some 0 else none
  | i + 1 =>
    if i + 1 + needle.length ≤ S.length && matchAtB S needle (i + 1) then some (i + 1)
    else findUpTo S needle i

/-- JavaScript `S.lastIndexOf(needle, from)`. -/
def jsLastIndexOf (S needle : Str) (from_ : Int) : Int :=
  match findUpTo S needle (min (max from_ 0).toNat S.length) with
  | some i => (i : Int)
  | none => -1

/-- JavaScript `hay.includes(needle)`. -/
def includesStr (hay needle : Str) : Bool :=
  (findFrom hay needle 0).isSome

/-- `needle` occurs somewhere in `S`. -/
def hasInfix (S needle : Str) : Bool :=
  (findFrom S needle 0).isSome

/-- JavaScript `S.substring(a, b)`: both endpoints clamped into `[0, length]`
and swapped when out of order. -/
def jsSubstring (S : Str) (a b : Int) : Str :=
  let len : Int := S.length
  let a' := min (max a 0) len
  let b' := min (max b 0) len
  (S.take (max a' b').toNat).drop (min a' b').toNat

/-- JavaScript `S.substring(a)` (one-argument form). -/
def jsSubstringFrom (S : Str) (a : Int) : Str :=
  jsSubstring S a S.length

/-- JavaScript `S.slice(a, b)`: negative endpoints count from the end; no swap. -/
def jsSlice (S : Str) (a b : Int) : Str :=
  let len : Int := S.length
  let norm := fun (x : Int) => if x < 0 then max (len + x) 0 else min x len
  (S.take (norm b).toNat).drop (norm a).toNat

/-- JavaScript `S.slice(a)` (one-argument form). -/
def jsSliceFrom (S : Str) (a : Int) : Str :=
  jsSlice S a S.length

/-- The whitespace set of JavaScript `trim` and of the regex class `\s`. -/
def isJsWs (c : Char) : Bool :=
  c == ' ' || c == '\t' || c == '\n' || c == '\r' ||
  c.toNat == 11 || c.toNat == 12 || c.toNat == 0xa0 || c.toNat == 0x1680 ||
  (0x2000 ≤ c.toNat && c.toNat ≤ 0x200a) ||
  c.toNat == 0x2028 || c.toNat == 0x2029 || c.toNat == 0x202f ||
  c.toNat == 0x205f || c.toNat == 0x3000 || c.toNat == 0xfeff

/-- JavaScript `S.trim()`. -/
def jsTrim (s : Str) : Str :=
  ((s.dropWhile isJsWs).reverse.dropWhile isJsWs).reverse

/-- ASCII lower-casing, as `toLowerCase` acts on the inputs at hand. -/
def toLowerStr (s : Str) : Str :=
  s.map Char.toLower

/-- `prefix.split("\n")`: always at least one (possibly empty) segment. -/
def splitNl : Str → List Str
  | [] => [[]]
  | c :: cs =>
    match splitNl cs with
    | [] => [[c]]
    | s :: rest => if c = '\n' then [] :: s :: rest else (c :: s) :: rest

/-- The last segment of a split (the text after the last newline). -/
def lastD (l : List Str) : Str :=
  (l.getLast?).getD []

/-- Decimal rendering of a natural number, as string interpolation does. -/
def natToStr (n : Nat) : Str :=
  (toString n).data

/-- `parts.join(" ")`. -/
def joinSp : List Str → Str
  | [] => []
  | [s] => s
  | s :: rest => s ++ ' ' :: joinSp rest

/-! ## The data model (`TNode` and the child union `TNode | string`) -/

/-- A child node: an element (`TNode`) or a text string, exactly the source's
`TNode | string` union.  An element holds its tag name, its attribute record
(`string | null` values become `Option Str`, `null` being `none`), and its
ordered children. -/
inductive Node where
  | text (s : Str)
  | elem (tagName : Str) (attributes : List (Str × Option Str)) (children : List Node)

mutual

/-- Decidable equality on nodes, written by hand because the nested
inductive blocks the derive handler. -/
def nodeDecEq : (x y : Node) → Decidable (x = y)
  | .text s, .text t =>
    if h : s = t then .isTrue (h ▸ rfl)
    else .isFalse (fun hh => h (Node.text.inj hh))
  | .text _, .elem _ _ _ => .isFalse Node.noConfusion
  | .elem _ _ _, .text _ => .isFalse Node.noConfusion
  | .elem n a c, .elem n' a' c' =>
    if h1 : n = n' then
      if h2 : a = a' then
        match nodeListDecEq c c' with
        | .isTrue h3 => .isTrue (by rw [h1, h2, h3])
        | .isFalse h3 => .isFalse (fun hh => h3 (by injection hh))
      else .isFalse (fun hh => h2 (by injection hh))
    else .isFalse (fun hh => h1 (by injection hh))

/-- Decidable equality on node lists. -/
def nodeListDecEq : (xs ys : List Node) → Decidable (xs = ys)
  | [], [] => .isTrue rfl
  | [], _ :: _ => .isFalse (by simp)
  | _ :: _, [] => .isFalse (by simp)
  | x :: xs, y :: ys =>
    match nodeDecEq x y, nodeListDecEq xs ys with
    | .isTrue h1, .isTrue h2 => .isTrue (by rw [h1, h2])
    | .isFalse h1, _ => .isFalse (fun hh => h1 (by injection hh))
    | .isTrue _, .isFalse h2 => .isFalse (fun hh => h2 (by injection hh))

end

instance : DecidableEq Node := nodeDecEq

/-- JavaScript object assignment `attributes[name] = value`: an existing key is
updated in place, a new key is appended. -/
def recSet (m : List (Str × Option Str)) (k : Str) (v : Option Str) :
    List (Str × Option Str) :=
  match m with
  | [] => [(k, v)]
  | (k', v') :: rest => if k' = k then (k, v) :: rest else (k', v') :: recSet rest k v

/-- The structured content of the error thrown at a close-tag mismatch. -/
structure ParseError where
  line : Nat
  column : Nat
  char : Option Char
deriving DecidableEq, Repr

/-- The error constructed at the throw site:
`lines = S.substring(0, pos).split("\n")`, line `lines.length - 1`,
column `lines[lines.length - 1].length + 1`, character `S[pos]`. -/
def mkCloseError (S : Str) (pos : Int) : ParseError :=
  let lines := splitNl (jsSubstring S 0 pos)
  { line := lines.length - 1
    column := (lastD lines).length + 1
    char := getC S pos }

/-- The message string interpolated into the thrown `Error`. -/
def errMessage (e : ParseError) : Str :=
  lit "Unexpected close tag\nLine: " ++ natToStr e.line ++
  lit "\nColumn: " ++ natToStr e.column ++
  lit "\nChar: " ++ (match e.char with | some c => [c] | none => lit "undefined")

/-- Outcome of a fueled computation: a value, a thrown error, or out of fuel
(`oof`, a modelling artefact that the unfueled source cannot produce). -/
inductive PR (α : Type) where
  | ok (a : α)
  | err (e : ParseError)
  | oof
deriving DecidableEq, Repr

/-- The parsing context distilled from the options at the top of `parse`:
`keepComments`, `keepWhitespace`, and the resolved self-closing tag list. -/
structure Ctx where
  keepComments : Bool
  keepWhitespace : Bool
  selfClosing : List Str
deriving DecidableEq, Repr

/-- The context produced by `parse(S)` with no options. -/
def dCtx : Ctx :=
  { keepComments := false, keepWhitespace := false, selfClosing := defaultSelfClosing }

/-! ## The scanning helpers of `parse` -/

/-- `parseText`: text up to the first `<`; returns the text and the new cursor
(one before the `<`, or the length of `S` when there is none). -/
def parseText (S : Str) (pos : Int) : Str × Int :=
  let start := pos
  let pos1 := jsIndexOf S (lit "<") pos - 1
  let pos2 := if pos1 = -2 then (S.length : Int) else pos1
  (jsSlice S start (pos2 + 1), pos2)

/-- `parseName`: advances while the character is not in `NAME_END_CHARS`
(and in range), returning the scanned name and the new cursor. -/
def parseName (S : Str) (pos : Int) : Str × Int :=
  let rest := if 0 ≤ pos then S.drop pos.toNat else []
  let name := rest.takeWhile (fun c => !(nameEndChars.contains c))
  (name, pos + name.length)

/-- `parseString`: the quote character at `pos` opens the value; the value runs
to the next occurrence of the same quote.  The returned cursor is the index of
the closing quote, or `-1` when the quote is unterminated (and then the JS
`slice(start, -1)` drops the final character). -/
def parseString (S : Str) (pos : Int) : Str × Int :=
  let quote := match getC S pos with | some c => [c] | none => []
  let start := pos + 1
  let pos1 := jsIndexOf S quote start
  (jsSlice S start pos1, pos1)

/-- The close-tag step of `parseChildren`: capture the text between `</` and
the next `>`, require it to contain the tag name being closed, and step the
cursor past the `>` (the test `if (pos + 1) pos++` keeps a `-1` cursor). -/
def closeTagResult (S : Str) (pos : Int) (tagName : Str) : Except ParseError Int :=
  let closeStart := pos + 2
  let pos1 := jsIndexOf S (lit ">") pos
  let closeTag := jsSubstring S closeStart pos1
  if includesStr closeTag tagName then
    Except.ok (if pos1 + 1 ≠ 0 then pos1 + 1 else pos1)
  else
    Except.error (mkCloseError S pos1)

/-- The comment scan: hop between `>` characters until one is preceded by
`--`; an exhausted search (`-1`) is fixed up to the end of the input. -/
def scanCommentEndF : Nat → Str → Int → Option Int
  | 0, _, _ => none
  | fuel + 1, S, pos =>
    if pos ≠ -1 ∧
        ¬(codeIs S pos '>' ∧ codeIs S (pos - 1) '-' ∧ codeIs S (pos - 2) '-') then
      scanCommentEndF fuel S (jsIndexOf S (lit ">") (pos + 1))
    else
      some (if pos = -1 then (S.length : Int) else pos)

/-- The CDATA step: content between `<![CDATA[` and `]]>`; an unterminated
section takes everything to the end of the input. -/
def cdataResult (S : Str) (pos : Int) : Node × Int :=
  let cdataEndIndex := jsIndexOf S (lit "]]>") pos
  if cdataEndIndex = -1 then
    (Node.text (jsSubstringFrom S (pos + 9)), (S.length : Int))
  else
    (Node.text (jsSubstring S (pos + 9) cdataEndIndex), cdataEndIndex + 3)

/-- The doctype scan: from `pos`, advance to the first `>` that is not inside
a `[` `]` section (or to the end of the input), tracking the `encapsulated`
flag exactly as the source does. -/
def scanDoctypeF : Nat → Str → Int → Bool → Option Int
  | 0, _, _, _ => none
  | fuel + 1, S, pos, encapsulated =>
    if (¬ codeIs S pos '>' ∨ encapsulated) ∧ truthyAt S pos then
      let enc' :=
        if codeIs S pos '[' then true
        else if encapsulated ∧ codeIs S pos ']' then false
        else encapsulated
      scanDoctypeF fuel S (pos + 1) enc'
    else some pos

/-- The doctype step of `parseChildren`: the pushed child is
`S.substring(pos + 1, end)` — the text from the `!` up to (excluding) the
terminating `>` — and the cursor steps past the `>`. -/
def doctypeResultF (fuel : Nat) (S : Str) (pos : Int) : Option (Node × Int) :=
  match scanDoctypeF fuel S (pos + 2) false with
  | none => none
  | some e => some (Node.text (jsSubstring S (pos + 1) e), e + 1)

/-- The `script` special case of `parseNode`: the children become the single
verbatim text `S.slice(pos + 1, S.indexOf("</script>", pos))` and the cursor
jumps nine characters past the found index. -/
def scriptResult (S : Str) (pos : Int) : List Node × Int :=
  let start := pos + 1
  let pos1 := jsIndexOf S (lit "</script>") pos
  ([Node.text (jsSlice S start pos1)], pos1 + 9)

/-- The `style` special case of `parseNode`, with `</style>` and offset eight. -/
def styleResult (S : Str) (pos : Int) : List Node × Int :=
  let start := pos + 1
  let pos1 := jsIndexOf S (lit "</style>") pos
  ([Node.text (jsSlice S start pos1)], pos1 + 8)

/-- The inner skip of the attribute loop: advance while the character code is
truthy and is neither a quote, nor an ASCII letter, nor `>`. -/
def skipAttrSepF : Nat → Str → Int → Option Int
  | 0, _, _ => none
  | fuel + 1, S, pos =>
    if codeTruthy S pos ∧ ¬ codeIs S pos '\'' ∧ ¬ codeIs S pos '"' ∧
        ¬ letterAt S pos ∧ ¬ codeIs S pos '>' then
      skipAttrSepF fuel S (pos + 1)
    else some pos

/-- Result of the attribute loop: the attribute record, the cursor, and
whether the loop returned early out of `parseNode` (unterminated quote). -/
inductive AttrRes where
  | ok (attributes : List (Str × Option Str)) (pos : Int) (early : Bool)
  | oof
deriving DecidableEq, Repr

/-- The attribute loop of `parseNode`: while the character is not `>` and in
range, a letter starts an attribute (name, separator skip, then either a
quoted value or the `null` no-value sentinel with `pos--`), anything else is
skipped; each pass ends with `pos++`.  An unterminated quoted value returns
early without recording the attribute. -/
def attrLoopF : Nat → Str → Int → List (Str × Option Str) → AttrRes
  | 0, _, _, _ => .oof
  | fuel + 1, S, pos, attributes =>
    if ¬ codeIs S pos '>' ∧ truthyAt S pos then
      if letterAt S pos then
        let (name, p1) := parseName S pos
        match skipAttrSepF fuel S p1 with
        | none => .oof
        | some p2 =>
          if codeIs S p2 '\'' ∨ codeIs S p2 '"' then
            let (value, p3) := parseString S p2
            if p3 = -1 then .ok attributes p3 true
            else attrLoopF fuel S (p3 + 1) (recSet attributes name (some value))
          else
            attrLoopF fuel S ((p2 - 1) + 1) (recSet attributes name none)
      else attrLoopF fuel S (pos + 1) attributes
    else .ok attributes pos false

/-! ## `parseChildren` and `parseNode` -/

mutual

/-- `parseChildren(tagName)`: the scanning loop over one children list.
`acc` is the `children` array built so far. -/
def parseChildrenF : Nat → Ctx → Str → Str → Int → List Node → PR (List Node × Int)
  | 0, _, _, _, _, _ => .oof
  | fuel + 1, ctx, tagName, S, pos, acc =>
    if truthyAt S pos then
      if codeIs S pos '<' then
        if codeIs S (pos + 1) '/' then
          match closeTagResult S pos tagName with
          | Except.error e => .err e
          | Except.ok pos2 => .ok (acc, pos2)
        else if codeIs S (pos + 1) '!' then
          if codeIs S (pos + 2) '-' then
            match scanCommentEndF fuel S pos with
            | none => .oof
            | some p =>
              let acc' :=
                if ctx.keepComments then acc ++ [Node.text (jsSubstring S pos (p + 1))]
                else acc
              parseChildrenF fuel ctx tagName S (p + 1) acc'
          else if codeIs S (pos + 2) '[' ∧ codeIs S (pos + 8) '[' ∧
              toLowerStr (jsSubstring S (pos + 3) (pos + 8)) = lit "cdata" then
            let (child, p) := cdataResult S pos
            parseChildrenF fuel ctx tagName S p (acc ++ [child])
          else
            match doctypeResultF fuel S pos with
            | none => .oof
            | some (child, p) => parseChildrenF fuel ctx tagName S p (acc ++ [child])
        else
          match parseNodeF fuel ctx S pos with
          | .oof => .oof
          | .err e => .err e
          | .ok (node, p) =>
            let acc' :=
              match node with
              | Node.elem tn at_ ch =>
                if tn.head? = some '?' then acc ++ [Node.elem tn at_ []] ++ ch
                else acc ++ [node]
              | _ => acc ++ [node]
            parseChildrenF fuel ctx tagName S p acc'
      else
        let (text, p1) := parseText S pos
        let acc' :=
          if ctx.keepWhitespace then
            if text.length > 0 then acc ++ [Node.text text] else acc
          else
            let trimmed := jsTrim text
            if trimmed.length > 0 then acc ++ [Node.text trimmed] else acc
        parseChildrenF fuel ctx tagName S (p1 + 1) acc'
    else .ok (acc, pos)

/-- `parseNode`: tag name, attribute loop, then the children block
(`/>` short form, `script`/`style` verbatim capture, the self-closing set,
or a recursive `parseChildren`). -/
def parseNodeF : Nat → Ctx → Str → Int → PR (Node × Int)
  | 0, _, _, _ => .oof
  | fuel + 1, ctx, S, pos =>
    let pos0 := pos + 1
    let (tagName, p1) := parseName S pos0
    match attrLoopF fuel S p1 [] with
    | AttrRes.oof => .oof
    | AttrRes.ok attributes p2 early =>
      if early then .ok (Node.elem tagName attributes [], p2)
      else
        if ¬ codeIs S (p2 - 1) '/' then
          if tagName = lit "script" then
            let (children, p3) := scriptResult S p2
            .ok (Node.elem tagName attributes children, p3)
          else if tagName = lit "style" then
            let (children, p3) := styleResult S p2
            .ok (Node.elem tagName attributes children, p3)
          else if ¬ ctx.selfClosing.contains tagName then
            match parseChildrenF fuel ctx tagName S (p2 + 1) [] with
            | .oof => .oof
            | .err e => .err e
            | .ok (children, p3) => .ok (Node.elem tagName attributes children, p3)
          else .ok (Node.elem tagName attributes [], p2 + 1)
        else .ok (Node.elem tagName attributes [], p2 + 1)

end

/-! ## Attribute-search mode (`findElements` and the main-loop of `parse`) -/

/-- Position after the `\s*` run starting at `j`. -/
def dropWsFrom (S : Str) (j : Nat) : Nat :=
  j + ((S.drop j).takeWhile isJsWs).length

/-- Is the optional character one of the two quote characters (`['"]`)? -/
def isQuoteO (c : Option Char) : Bool :=
  c == some '\'' || c == some '"'

/-- One match of the search regex
`` `\s${attrName}\s*=['"]${attrValue}['"]` `` at index `i`, for a literal
`attrValue` pattern (no metacharacters), which is how the claims use it. -/
def matchAttrAt (attrName attrValue S : Str) (i : Nat) : Bool :=
  match S.get? i with
  | none => false
  | some c =>
    isJsWs c && attrName.isPrefixOf (S.drop (i + 1)) &&
    (let j := dropWsFrom S (i + 1 + attrName.length)
     (S.get? j == some '=') && isQuoteO (S.get? (j + 1)) &&
     attrValue.isPrefixOf (S.drop (j + 2)) &&
     isQuoteO (S.get? (j + 2 + attrValue.length)))

/-- Search step for `firstAttrMatch`, structurally recursive on the budget. -/
def firstAttrMatchAux (attrName attrValue S : Str) : Nat → Nat → Option Nat
  | 0, _ => none
  | fuel + 1, start =>
    if start ≤ S.length then
      if matchAttrAt attrName attrValue S start then some start
      else firstAttrMatchAux attrName attrValue S fuel (start + 1)
    else none

/-- Leftmost match of the search regex at or after `start`. -/
def firstAttrMatch (attrName attrValue S : Str) (start : Nat) : Option Nat :=
  firstAttrMatchAux attrName attrValue S (S.length + 1 - start) start

/-- `findElements()`: `-1` when either search part is missing (falsy) or there
is no match, else the match index. -/
def findElements (attrName attrValue S : Str) : Int :=
  if attrName = [] ∨ attrValue = [] then -1
  else
    match firstAttrMatch attrName attrValue S 0 with
    | some i => (i : Int)
    | none => -1

/-- The attribute-search loop of `parse`: find a match, back up to the nearest
preceding `<`, parse one node there, then truncate the working text with
`S = S.substring(pos)` and restart from offset zero. -/
def attrModeLoopF : Nat → Ctx → Str → Str → Str → List Node → PR (List Node)
  | 0, _, _, _, _, _ => .oof
  | fuel + 1, ctx, attrName, attrValue, S, out =>
    let posI := findElements attrName attrValue S
    if posI = -1 then .ok out
    else
      let pos := jsLastIndexOf S (lit "<") posI
      if pos ≠ -1 then
        match parseNodeF fuel ctx S pos with
        | .oof => .oof
        | .err e => .err e
        | .ok (node, p) =>
          attrModeLoopF fuel ctx attrName attrValue (jsSubstringFrom S p) (out ++ [node])
      else
        attrModeLoopF fuel ctx attrName attrValue (jsSubstringFrom S pos) out

/-! ## The tree transforms, filter and content extractor -/

/-- A JavaScript value as produced by `simplify`: a string, an array, an
object with insertion-ordered keys, or `null` (attribute no-value). -/
inductive JVal where
  | str (s : Str)
  | arr (l : List JVal)
  | obj (entries : List (Str × JVal))
  | nullv

mutual

/-- Decidable equality on `JVal`, written by hand (nested inductive). -/
def jvalDecEq : (x y : JVal) → Decidable (x = y)
  | .str s, .str t =>
    if h : s = t then .isTrue (h ▸ rfl)
    else .isFalse (fun hh => h (JVal.str.inj hh))
  | .str _, .arr _ => .isFalse JVal.noConfusion
  | .str _, .obj _ => .isFalse JVal.noConfusion
  | .str _, .nullv => .isFalse JVal.noConfusion
  | .arr _, .str _ => .isFalse JVal.noConfusion
  | .arr l, .arr m =>
    match jvalListDecEq l m with
    | .isTrue h => .isTrue (by rw [h])
    | .isFalse h => .isFalse (fun hh => h (by injection hh))
  | .arr _, .obj _ => .isFalse JVal.noConfusion
  | .arr _, .nullv => .isFalse JVal.noConfusion
  | .obj _, .str _ => .isFalse JVal.noConfusion
  | .obj _, .arr _ => .isFalse JVal.noConfusion
  | .obj l, .obj m =>
    match jvalObjDecEq l m with
    | .isTrue h => .isTrue (by rw [h])
    | .isFalse h => .isFalse (fun hh => h (by injection hh))
  | .obj _, .nullv => .isFalse JVal.noConfusion
  | .nullv, .str _ => .isFalse JVal.noConfusion
  | .nullv, .arr _ => .isFalse JVal.noConfusion
  | .nullv, .obj _ => .isFalse JVal.noConfusion
  | .nullv, .nullv => .isTrue rfl

/-- Decidable equality on `JVal` lists. -/
def jvalListDecEq : (xs ys : List JVal) → Decidable (xs = ys)
  | [], [] => .isTrue rfl
  | [], _ :: _ => .isFalse (by simp)
  | _ :: _, [] => .isFalse (by simp)
  | x :: xs, y :: ys =>
    match jvalDecEq x y, jvalListDecEq xs ys with
    | .isTrue h1, .isTrue h2 => .isTrue (by rw [h1, h2])
    | .isFalse h1, _ => .isFalse (fun hh => h1 (by injection hh))
    | .isTrue _, .isFalse h2 => .isFalse (fun hh => h2 (by injection hh))

/-- Decidable equality on `JVal` object entry lists. -/
def jvalObjDecEq : (xs ys : List (Str × JVal)) → Decidable (xs = ys)
  | [], [] => .isTrue rfl
  | [], _ :: _ => .isFalse (by simp)
  | _ :: _, [] => .isFalse (by simp)
  | (k, x) :: xs, (k', y) :: ys =>
    if hk : k = k' then
      match jvalDecEq x y, jvalObjDecEq xs ys with
      | .isTrue h1, .isTrue h2 => .isTrue (by rw [hk, h1, h2])
      | .isFalse h1, _ =>
        .isFalse (fun hh => h1 (by
          injection hh with hp hl
          exact congrArg Prod.snd hp))
      | .isTrue _, .isFalse h2 => .isFalse (fun hh => h2 (by injection hh))
    else
      .isFalse (fun hh => hk (by
        injection hh with hp hl
        exact congrArg Prod.fst hp))

end

instance : DecidableEq JVal := jvalDecEq

/-- The attribute record as the object stored under `_attributes`. -/
def attrsToJVal (attributes : List (Str × Option Str)) : JVal :=
  .obj (attributes.map (fun kv => (kv.1, match kv.2 with | some s => JVal.str s | none => JVal.nullv)))

/-- `typeof kids === "object" && !Array.isArray(kids)`. -/
def isObjJ : JVal → Bool
  | .obj _ => true
  | .nullv => true
  | _ => false

/-- Entry-list update for `objSet`. -/
def objSetEntries (entries : List (Str × JVal)) (k : Str) (w : JVal) : List (Str × JVal) :=
  match entries with
  | [] => [(k, w)]
  | (k', v') :: rest => if k' = k then (k, w) :: rest else (k', v') :: objSetEntries rest k w

/-- Property assignment on an object value: update in place or append. -/
def objSet (v : JVal) (k : Str) (w : JVal) : JVal :=
  match v with
  | .obj entries => .obj (objSetEntries entries k w)
  | other => other

/-- `if (!out[tagName]) out[tagName] = []; out[tagName].push(kids)`. -/
def groupPush (out : List (Str × List JVal)) (k : Str) (v : JVal) : List (Str × List JVal) :=
  match out with
  | [] => [(k, [v])]
  | (k', vs) :: rest => if k' = k then (k, vs ++ [v]) :: rest else (k', vs) :: groupPush rest k v

/-- The final pass of `simplify`: collapse each tag's single-element list. -/
def collapseGroups (out : List (Str × List JVal)) : List (Str × JVal) :=
  out.map (fun kv => (kv.1, match kv.2 with | [v] => v | vs => JVal.arr vs))

mutual

/-- `kids = simplify(child.children)` for one element child: the body of
`simplify` applied to the child's own children list. -/
def simplifyKidsOf : Node → JVal
  | Node.text s => .str s
  | Node.elem _ _ ch =>
    match ch with
    | [] => .str []
    | [Node.text s] => .str s
    | a :: rest => .obj (collapseGroups (simplifyGroup (a :: rest) []))

/-- The `for (const child of children)` body of `simplify`: strings are
skipped; each element contributes its recursively simplified children, with
`_attributes` attached when the element has attributes and the result is an
object, pushed into its tag-name group. -/
def simplifyGroup : List Node → List (Str × List JVal) → List (Str × List JVal)
  | [], out => out
  | Node.text _ :: rest, out => simplifyGroup rest out
  | Node.elem tagName attributes ch :: rest, out =>
    let kids := simplifyKidsOf (Node.elem tagName attributes ch)
    let kids' :=
      if attributes.length ≠ 0 ∧ isObjJ kids then
        objSet kids (lit "_attributes") (attrsToJVal attributes)
      else kids
    simplifyGroup rest (groupPush out tagName kids')

end

/-- `simplify(children)`: empty list to `""`, a single string child verbatim,
otherwise group element children by tag name (strings skipped), recursively
simplify, attach `_attributes` to object results of attributed elements, and
collapse single-element groups. -/
def simplifyV (children : List Node) : JVal :=
  match children with
  | [] => .str []
  | [Node.text s] => .str s
  | a :: rest => .obj (collapseGroups (simplifyGroup (a :: rest) []))

mutual

/-- `filter`'s `forEach` body for one child: a matching element is collected,
and every element's children are then searched at depth + 1 with the extended
path; text children are inert. -/
def filterNodeGo (f : Node → Nat → Nat → Str → Bool) :
    Node → Nat → Str → Nat → List Node
  | Node.elem tagName attributes ch, depth, path, i =>
    (if f (Node.elem tagName attributes ch) i depth path
     then [Node.elem tagName attributes ch] else []) ++
    (let newPath :=
       (if path ≠ [] then path ++ lit "." else []) ++ natToStr i ++ lit "." ++ tagName
     filterGo f ch (depth + 1) newPath 0)
  | Node.text _, _, _, _ => []

/-- `filter`'s `forEach` over a children list; `i` is the sibling index. -/
def filterGo (f : Node → Nat → Nat → Str → Bool) :
    List Node → Nat → Str → Nat → List Node
  | [], _, _, _ => []
  | child :: rest, depth, path, i =>
    filterNodeGo f child depth path i ++ filterGo f rest depth path (i + 1)

end

/-- `filter(children, f, depth = 0, path = "")`. -/
def filterF (f : Node → Nat → Nat → Str → Bool) (children : List Node)
    (depth : Nat := 0) (path : Str := []) : List Node :=
  filterGo f children depth path 0

mutual

/-- `toContentString` on a single child: a text leaf is a leading space plus
the raw text; an element is the content string of its children list. -/
def tcsItem : Node → Str
  | .text s => ' ' :: s
  | .elem _ _ children => jsTrim (joinSp (tcsParts children))

/-- The mapped content strings of a list (the `.map` of the source). -/
def tcsParts : List Node → List Str
  | [] => []
  | n :: ns => tcsItem n :: tcsParts ns

end

/-- `toContentString` on a list: join the members' content strings with a
single space and trim. -/
def toContentString (l : List Node) : Str :=
  jsTrim (joinSp (tcsParts l))

/-! ## The serializer (`stringify`) -/

/-- Options of `stringify`; the regexes become predicates on tag or
attribute names. -/
structure StringifyOptions where
  skipTags : Option (Str → Bool) := none
  stripParams : Option (Str → Bool) := none
  compactTags : Option (Str → Bool) := none
  indentSpaces : Option Nat := none

/-- `pattern?.test(s)`: an absent pattern is falsy. -/
def testOpt (o : Option (Str → Bool)) (s : Str) : Bool :=
  match o with
  | some f => f s
  | none => false

/-- `indent.repeat(depth)`. -/
def repeatStr (s : Str) (n : Nat) : Str :=
  (List.replicate n s).flatten

/-- Is a child an element (an object in the source)? -/
def isElem : Node → Bool
  | .elem _ _ _ => true
  | .text _ => false

/-- The attribute loop of `write`: strip matching names; a `null` value gives
a bare name; a value containing `"` is single-quoted, else double-quoted; the
emitted value is trimmed. -/
def writeAttrs (stripParams : Option (Str → Bool)) : List (Str × Option Str) → Str
  | [] => []
  | (k, v) :: rest =>
    (if testOpt stripParams k then []
     else
       match v with
       | none => ' ' :: k
       | some v =>
         if v.contains '"' then ' ' :: k ++ lit "='" ++ jsTrim v ++ lit "'"
         else ' ' :: k ++ lit "=\"" ++ jsTrim v ++ lit "\"") ++
    writeAttrs stripParams rest

mutual

/-- The per-node body of the recursive `write` of `stringify`. -/
def writeNodeF (opts : StringifyOptions) (indent : Str) :
    Node → Nat → Bool → Str
  | .text s, depth, compact =>
    let t := jsTrim s
    if t ≠ [] then
      if ¬compact ∧ indent ≠ [] then '\n' :: repeatStr indent depth ++ t else t
    else []
  | .elem tagName attributes children, depth, compact =>
    if testOpt opts.skipTags tagName then []
    else
      let isCompact := compact ∨ testOpt opts.compactTags tagName
      (if ¬compact ∧ indent ≠ [] then '\n' :: repeatStr indent depth else []) ++
      '<' :: tagName ++ writeAttrs opts.stripParams attributes ++
      (if tagName.head? = some '?' then lit "?>"
       else
         let hasEl := children.any isElem
         '>' :: writeF opts indent children (depth + 1) isCompact ++
         (if ¬isCompact ∧ indent ≠ [] ∧ hasEl then '\n' :: repeatStr indent depth else []) ++
         lit "</" ++ tagName ++ ['>'])

/-- The recursive `write` of `stringify`, over a node list. -/
def writeF (opts : StringifyOptions) (indent : Str) :
    List Node → Nat → Bool → Str
  | [], _, _ => []
  | node :: rest, depth, compact =>
    writeNodeF opts indent node depth compact ++ writeF opts indent rest depth compact

end

/-- `stringify(nodes, options)` on a node list; a leading newline (possible
only with indentation enabled) is stripped from the result. -/
def stringifyNodes (nodes : List Node) (options : StringifyOptions := {}) : Str :=
  let indentSpaces := options.indentSpaces.getD 0
  let indent := if indentSpaces > 0 then List.replicate indentSpaces ' ' else []
  let out := writeF options indent nodes 0 false
  if out.head? = some '\n' then out.tail else out

/-! ## The top level of `parse` -/

/-- The options record of `parse`; the `filter` option is the caller's
predicate over node, sibling index, depth and path. -/
structure ParseOptions where
  pos : Option Int := none
  noChildNodes : Option (List Str) := none
  selfClosingTags : Option (List Str) := none
  setPos : Bool := false
  keepComments : Bool := false
  keepWhitespace : Bool := false
  simplify : Bool := false
  parseNode : Bool := false
  attrName : Option Str := none
  attrValue : Option Str := none
  filter : Option (Node → Nat → Nat → Str → Bool) := none

/-- The scanning context extracted from the options
(`selfClosingTags || noChildNodes || DEFAULT_SELF_CLOSING`). -/
def ctxOf (o : ParseOptions) : Ctx :=
  { keepComments := o.keepComments
    keepWhitespace := o.keepWhitespace
    selfClosing := (o.selfClosingTags.orElse (fun _ => o.noChildNodes)).getD defaultSelfClosing }

/-- The shape of a `parse` return value: a node list, a single node
(optionally carrying the stop offset), or a simplified value. -/
inductive ParseOutput where
  | nodes (l : List Node)
  | node (n : Node) (pos : Option Int)
  | simplified (v : JVal)
deriving DecidableEq

/-- `parse(S, options)`: attribute-search mode, single-node mode, or the
children scan, followed by the filter/simplify/setPos post-processing. -/
def parseTopF (fuel : Nat) (options : ParseOptions) (S : Str) : PR ParseOutput :=
  let pos := options.pos.getD 0
  let ctx := ctxOf options
  match options.attrValue with
  | some attrValue =>
    let attrName :=
      match options.attrName with
      | some n => if n = [] then lit "id" else n
      | none => lit "id"
    match attrModeLoopF fuel ctx attrName attrValue S [] with
    | .oof => .oof
    | .err e => .err e
    | .ok out =>
      let out := match options.filter with | some f => filterF f out | none => out
      if options.simplify then .ok (.simplified (simplifyV out)) else .ok (.nodes out)
  | none =>
    if options.parseNode then
      match parseNodeF fuel ctx S pos with
      | .oof => .oof
      | .err e => .err e
      | .ok (n, p) =>
        if options.simplify then .ok (.simplified (simplifyV [n]))
        else .ok (.node n (if options.setPos then some p else none))
    else
      match parseChildrenF fuel ctx [] S pos [] with
      | .oof => .oof
      | .err e => .err e
      | .ok (l, _) =>
        let l := match options.filter with | some f => filterF f l | none => l
        if options.simplify then .ok (.simplified (simplifyV l)) else .ok (.nodes l)

/-- `parse(S)` with no options. -/
def dOpts : ParseOptions := {}

/-! ## The streaming adapters -/

/-- An item pushed by a streaming adapter: a verbatim comment string or a
parsed node. -/
inductive TItem where
  | comment (s : Str)
  | node (n : Node)
deriving DecidableEq

/-- Outcome of processing one chunk: the emitted items together with the
carried-over scan state, or a propagated parse error. -/
inductive TRes where
  | done (emitted : List TItem) (position : Int) (data : Str)
  | err (emitted : List TItem) (e : ParseError)
  | oof
deriving DecidableEq

/-- The per-adapter state carried between chunks. -/
structure TState where
  position : Int
  data : Str
deriving DecidableEq

/-- The shared scan loop of `transformStream` and `transformWebStream`:
find `<`; rewind and wait when there is none; skip close tags; emit or wait
on comments; otherwise parse one node in parse-single-node mode and emit it
only when its reported stop offset lies inside the buffer.  The embedded
parse call models `parse(data, {...parseOptions, pos, parseNode, setPos})`
for forwarded options that select no other parse mode. -/
def transformLoopF : Nat → Ctx → Int → Int → Str → List TItem → TRes
  | 0, _, _, _, _, _ => .oof
  | fuel + 1, ctx, position0, lastPos, data, acc =>
    let position := jsIndexOf data (lit "<") position0 + 1
    if position = 0 then .done acc lastPos data
    else if getC data position = some '/' then
      transformLoopF fuel ctx (position + 1) (position + 1) data acc
    else if getC data position = some '!' ∧ getC data (position + 1) = some '-' ∧
        getC data (position + 2) = some '-' then
      let commentEnd := jsIndexOf data (lit "-->") (position + 3)
      if commentEnd = -1 then .done acc 0 (jsSliceFrom data lastPos)
      else
        let acc' :=
          if ctx.keepComments then
            acc ++ [TItem.comment (jsSubstring data (position - 1) (commentEnd + 3))]
          else acc
        transformLoopF fuel ctx (commentEnd + 1) commentEnd data acc'
    else
      match parseNodeF fuel ctx data (position - 1) with
      | .oof => .oof
      | .err e => .err acc e
      | .ok (res, resPos) =>
        if resPos > (data.length : Int) - 1 ∨ resPos < lastPos then
          .done acc 0 (jsSliceFrom data lastPos)
        else
          transformLoopF fuel ctx resPos resPos data (acc ++ [TItem.node res])

/-- One `transform(chunk, ...)` call of the Node `Transform` adapter:
append the chunk, reset `lastPos`, and run the scan loop. -/
def transformStreamChunkF (fuel : Nat) (ctx : Ctx) (st : TState) (chunk : Str) : TRes :=
  transformLoopF fuel ctx st.position 0 (st.data ++ chunk) []

/-- One `transform(chunk, controller)` call of the Web `TransformStream`
adapter — the identical loop bound to the other host stream. -/
def transformWebStreamChunkF (fuel : Nat) (ctx : Ctx) (st : TState) (chunk : Str) : TRes :=
  transformLoopF fuel ctx st.position 0 (st.data ++ chunk) []


/-! ## Helper definitions and lemmas for the claims -/

/-- Number of newline characters in a string. -/
def countNl : Str → Nat
  | [] => 0
  | c :: cs => (if c = '\n' then 1 else 0) + countNl cs

/-- Character count since the last newline, scanning left to right. -/
def charsSinceNl : Str → Nat → Nat
  | [], k => k
  | c :: cs, k => charsSinceNl cs (if c = '\n' then 0 else k + 1)

/-- Modelled from the spec: the 1-based line number of a position, as the claim
about the error message states it (one more than the number of newlines before
the point). -/
def specOneBasedLine (S : Str) (pos : Int) : Nat :=
  countNl (jsSubstring S 0 pos) + 1

/-- No comment item is emitted beyond the already-accumulated `acc`:
the scan loop's result extends `acc` only with non-comment items (fuel
exhaustion is vacuously fine). -/
def noNewComments (acc : List TItem) : TRes → Prop
  | .done em _ _ => ∃ t, em = acc ++ t ∧ ∀ s, TItem.comment s ∉ t
  | .err em _ => ∃ t, em = acc ++ t ∧ ∀ s, TItem.comment s ∉ t
  | .oof => True

/-- The number of cursor positions from `pos` to one past the end of `S`
(zero when the cursor is already past the end): the fuel measure of the
scanning loops. -/
def posMeasure (S : Str) (pos : Int) : Nat :=
  S.length + 1 - pos.toNat

/-! ## A well-formed document grammar and its serialization
(the image of `stringify` on which the round-trip law holds) -/

/-- The serialized attribute record, as `stringify` emits it for
already-trimmed values: a space then `k`, `k="v"`, or `k='v'` when `v`
holds a `"`. -/
def renderAttrs : List (Str × Option Str) → Str
  | [] => []
  | (k, none) :: rest => ' ' :: k ++ renderAttrs rest
  | (k, some v) :: rest =>
    (if v.contains '"' then ' ' :: k ++ lit "='" ++ v ++ lit "'"
     else ' ' :: k ++ lit "=\"" ++ v ++ lit "\"") ++ renderAttrs rest

mutual

/-- The canonical serialization of a node: explicit close tags, no
indentation. -/
def renderN : Node → Str
  | .text s => s
  | .elem tag attrs children =>
    '<' :: tag ++ renderAttrs attrs ++ '>' :: renderL children ++
      lit "</" ++ tag ++ ['>']

/-- The serialization of a sibling list. -/
def renderL : List Node → Str
  | [] => []
  | n :: rest => renderN n ++ renderL rest

end

/-- Is the node a text node? -/
def isTextN : Node → Bool
  | .text _ => true
  | .elem _ _ _ => false

/-- A well-formed tag name: nonempty, free of name-ending characters, not
starting with `!` or `?`, not in the default self-closing set, and not the
verbatim-capture names `script`/`style`. -/
def wfName (t : Str) : Bool :=
  !t.isEmpty && t.head? != some '!' && t.head? != some '?' &&
  t.all (fun c => !(nameEndChars.contains c)) &&
  !(defaultSelfClosing.contains t) && t != lit "script" && t != lit "style"

/-- A well-formed attribute name: starts with an ASCII letter and holds no
name-ending characters. -/
def wfAttrName (k : Str) : Bool :=
  (match k.head? with
   | some c => isLetterCode c
   | none => false) &&
  k.all (fun c => !(nameEndChars.contains c))

/-- A well-formed attribute: a bare flag, or an already-trimmed value that
is single-quotable (no `'`) whenever it holds a `"`. -/
def wfAttr : Str × Option Str → Bool
  | (k, none) => wfAttrName k
  | (k, some v) =>
    wfAttrName k && (jsTrim v == v) &&
    (if v.contains '"' then !(v.contains '\'') else true)

/-- Pairwise-distinct attribute keys. -/
def nodupKeys : List (Str × Option Str) → Bool
  | [] => true
  | (k, _) :: rest => !(rest.any (fun b => b.1 == k)) && nodupKeys rest

/-- A well-formed text child: nonempty, already trimmed, no `<`. -/
def wfText (s : Str) : Bool :=
  !s.isEmpty && (jsTrim s == s) && !(s.contains '<')

mutual

/-- Well-formedness of one node of the round-trip grammar. -/
def wfN : Node → Bool
  | .text s => wfText s
  | .elem tag attrs children =>
    wfName tag && attrs.all wfAttr && nodupKeys attrs && wfL children

/-- Well-formedness of a sibling list: every node well-formed and no two
adjacent text nodes (they would merge on re-parsing). -/
def wfL : List Node → Bool
  | [] => true
  | [n] => wfN n
  | a :: b :: rest => wfN a && !(isTextN a && isTextN b) && wfL (b :: rest)

end

/-- Fuel consumed by the attribute loop on a rendered attribute record. -/
def needA : List (Str × Option Str) → Nat
  | [] => 1
  | _ :: rest => needA rest + 4

mutual

/-- Fuel sufficient to re-parse one rendered node. -/
def needN : Node → Nat
  | .text _ => 1
  | .elem _ attrs children => needA attrs + needL children + 2

/-- Fuel sufficient to scan one rendered sibling list (and a close tag). -/
def needL : List Node → Nat
  | [] => 1
  | n :: rest => needN n + needL rest + 1

end

/-- The parse tree of the C1 example document. -/
def c1t : Node := Node.elem (lit "test") [(lit "a", some (lit "value"))]
  [Node.elem (lit "child") [(lit "a", some (lit "g\"g"))] [Node.text (lit "text")]]

/-- The parse tree of the C7 example document. -/
def c7t : Node := Node.elem (lit "test") []
  [Node.elem (lit "cc") [] [Node.text (lit "one")],
   Node.text (lit "test"),
   Node.elem (lit "cc") [(lit "f", some (lit "test"))]
     [Node.elem (lit "sub") [] [Node.text (lit "3")], Node.text (lit "two")],
   Node.elem (lit "dd") [] []]

/-- The parse tree of the C8 example document. -/
def c8t : Node := Node.elem (lit "test") []
  [Node.text (lit "f"),
   Node.elem (lit "case") [(lit "number", some (lit "2"))] [Node.text (lit "f")],
   Node.text (lit "f")]

theorem splitNl_ne_nil (s : Str) : splitNl s ≠ [] := by
  cases s with
  | nil => simp [splitNl]
  | cons c cs =>
    simp only [splitNl]
    rcases h : splitNl cs with _ | ⟨t, rest⟩
    · simp
    · by_cases hc : c = '\n' <;> simp [hc]

theorem splitNl_length (s : Str) : (splitNl s).length = countNl s + 1 := by
  induction s with
  | nil => simp [splitNl, countNl]
  | cons c cs ih =>
    rcases h : splitNl cs with _ | ⟨t, rest⟩
    · exact absurd h (splitNl_ne_nil cs)
    · rw [h] at ih
      simp only [splitNl, h, countNl]
      by_cases hc : c = '\n'
      · simp only [if_pos hc, List.length_cons] at ih ⊢
        omega
      · simp only [if_neg hc, List.length_cons] at ih ⊢
        omega

theorem charsSinceNl_acc (s : Str) (k : Nat) :
    charsSinceNl s k = if countNl s = 0 then k + s.length else charsSinceNl s 0 := by
  induction s generalizing k with
  | nil => simp [charsSinceNl, countNl]
  | cons c cs ih =>
    by_cases hc : c = '\n'
    · simp [charsSinceNl, countNl, hc]
    · rw [charsSinceNl, if_neg hc, ih (k + 1)]
      rw [show charsSinceNl (c :: cs) 0 = charsSinceNl cs 1 by rw [charsSinceNl, if_neg hc]]
      rw [ih 1]
      simp only [countNl, if_neg hc, List.length_cons, Nat.zero_add]
      by_cases h0 : countNl cs = 0
      · simp only [if_pos h0]
        omega
      · simp only [if_neg h0]

theorem lastD_cons_cons (a b : Str) (l : List Str) :
    lastD (a :: b :: l) = lastD (b :: l) := by
  simp [lastD, List.getLast?_cons_cons]

theorem lastD_splitNl_length (s : Str) :
    (lastD (splitNl s)).length = charsSinceNl s 0 := by
  induction s with
  | nil => simp [splitNl, lastD, charsSinceNl]
  | cons c cs ih =>
    rcases h : splitNl cs with _ | ⟨t, rest⟩
    · exact absurd h (splitNl_ne_nil cs)
    · rw [h] at ih
      simp only [splitNl, h]
      have hlen := splitNl_length cs
      rw [h] at hlen
      simp only [List.length_cons] at hlen
      by_cases hc : c = '\n'
      · rw [if_pos hc, lastD_cons_cons, ih, hc]
        rw [show charsSinceNl ('\n' :: cs) 0 = charsSinceNl cs 0 by
          rw [charsSinceNl]; simp]
      · rw [if_neg hc]
        rw [show charsSinceNl (c :: cs) 0 = charsSinceNl cs 1 by rw [charsSinceNl, if_neg hc]]
        rw [charsSinceNl_acc cs 1]
        cases rest with
        | nil =>
          simp only [List.length_nil] at hlen
          have hcnt : countNl cs = 0 := by omega
          rw [if_pos hcnt]
          have ht : lastD [t] = t := by simp [lastD]
          rw [ht] at ih
          have h2 : lastD [c :: t] = c :: t := by simp [lastD]
          rw [h2, List.length_cons, ih, charsSinceNl_acc cs 0, if_pos hcnt]
          omega
        | cons u rest2 =>
          simp only [List.length_cons] at hlen
          have hcnt : countNl cs ≠ 0 := by omega
          rw [if_neg hcnt, lastD_cons_cons, ← ih, lastD_cons_cons]

/-! ## Claim C1 (counterexample): the round-trip law fails as stated -/

/-- C1, counterexample: `<a/>` is a well-formed single-root document using
only double-quoted attribute values (it has none) and no redundant
whitespace, yet `stringify(parse("<a/>"))` is `"<a></a>"`, not `"<a/>"`:
the serializer always emits an explicit close tag. -/
theorem c1_counterexample :
    parseTopF 30 dOpts (lit "<a/>") = .ok (.nodes [Node.elem (lit "a") [] []]) ∧
    stringifyNodes [Node.elem (lit "a") [] []] {} = lit "<a></a>" ∧
    lit "<a></a>" ≠ lit "<a/>" := by
  refine ⟨by decide, by decide, by decide⟩

/-! ## Claim C3: content of the close-tag mismatch error -/

/-- C3, counterexample: parsing `<a></b>` raises the mismatch error with
`Line: 0` — the reported line is the newline count before the mismatch
point, i.e. 0-based, not the 1-based line number the claim states. -/
theorem c3_counterexample :
    parseTopF 80 dOpts (lit "<a></b>") = .err (mkCloseError (lit "<a></b>") 6) ∧
    (mkCloseError (lit "<a></b>") 6).line = 0 ∧
    specOneBasedLine (lit "<a></b>") 6 = 1 ∧
    (mkCloseError (lit "<a></b>") 6).line ≠ specOneBasedLine (lit "<a></b>") 6 := by
  refine ⟨by decide, by decide, by decide, by decide⟩

/-- C3, amended: the mismatch error identifies the 0-based line number (the
count of newlines before the mismatch point), the 1-based column (one more
than the character count since the last newline), and the character at that
point; e.g. `<x>\n<a></b></x>` raises with line 1, column 7, char `>`. -/
theorem c3_amended :
    (∀ (S : Str) (pos : Int),
      (mkCloseError S pos).line = countNl (jsSubstring S 0 pos) ∧
      (mkCloseError S pos).column = charsSinceNl (jsSubstring S 0 pos) 0 + 1 ∧
      (mkCloseError S pos).char = getC S pos) ∧
    parseTopF 60 dOpts (lit "<x>\n<a></b></x>") =
      .err { line := 1, column := 7, char := some '>' } := by
  constructor
  · intro S pos
    refine ⟨?_, ?_, rfl⟩
    · have := splitNl_length (jsSubstring S 0 pos)
      simp only [mkCloseError]
      omega
    · simp only [mkCloseError]
      rw [lastD_splitNl_length]
  · decide


/-! ## Claim C6: doctype-like declarations -/

/-- C6: a doctype-like declaration becomes a verbatim string child running
from just after the `<` (so from the `!`, as the claim's own example
`!DOCTYPE html` shows) up to but excluding the matching unbracketed `>`;
`<!DOCTYPE html>` followed by sibling elements parses to that literal string
followed by the unaffected element nodes. -/
theorem c6_doctype :
    (parseTopF 150 dOpts (lit "<!DOCTYPE html><test>x</test><b></b>") =
      .ok (.nodes [Node.text (lit "!DOCTYPE html"),
        Node.elem (lit "test") [] [Node.text (lit "x")],
        Node.elem (lit "b") [] []])) ∧
    (∀ (fuel : Nat) (S : Str) (pos p : Int) (child : Node),
      doctypeResultF fuel S pos = some (child, p) →
      child = Node.text (jsSubstring S (pos + 1) (p - 1)) ∧
      scanDoctypeF fuel S (pos + 2) false = some (p - 1)) := by
  refine ⟨by decide, ?_⟩
  intro fuel S pos p child h
  unfold doctypeResultF at h
  cases he : scanDoctypeF fuel S (pos + 2) false with
  | none => rw [he] at h; cases h
  | some e =>
    rw [he] at h
    injection h with h1
    injection h1 with hc hp
    subst hc
    constructor
    · have he2 : e = p - 1 := by omega
      rw [he2]
    · have he2 : e = p - 1 := by omega
      rw [he2]

/-- C6, witness: the general characterization applied to the concrete
declaration `<!DOCTYPE html>` scanned from position 0. -/
theorem c6_doctype_witness :
    Node.text (lit "!DOCTYPE html") =
      Node.text (jsSubstring (lit "<!DOCTYPE html>x") (0 + 1) (15 - 1)) ∧
    scanDoctypeF 20 (lit "<!DOCTYPE html>x") (0 + 2) false = some (15 - 1) := by
  have h := c6_doctype.2 20 (lit "<!DOCTYPE html>x") 0 15
    (Node.text (lit "!DOCTYPE html")) (by decide)
  exact ⟨h.1, h.2⟩


/-! ## Claim C4: the three attribute states -/

/-- C4: an attribute is a non-empty string value, the empty string (explicit
`required=""`), or the `null` no-value sentinel (bare `disabled`); the
sentinel never equals a string value; in the attribute loop a bare attribute
records the sentinel and a terminated quoted value records exactly the quoted
text, so the states are never conflated. -/
theorem c4_attribute_states :
    (parseTopF 60 dOpts (lit "<input disabled required=\"\" value=\"test\" checked>") =
      .ok (.nodes [Node.elem (lit "input")
        [(lit "disabled", none), (lit "required", some []),
         (lit "value", some (lit "test")), (lit "checked", none)] []])) ∧
    (∀ v : Str, (none : Option Str) ≠ some v) ∧
    (∀ (fuel : Nat) (S : Str) (pos : Int) (attrs : List (Str × Option Str))
       (name : Str) (p1 p2 : Int),
      (¬ codeIs S pos '>' ∧ truthyAt S pos) → letterAt S pos →
      parseName S pos = (name, p1) →
      skipAttrSepF fuel S p1 = some p2 →
      ¬ (codeIs S p2 '\'' ∨ codeIs S p2 '"') →
      attrLoopF (fuel + 1) S pos attrs = attrLoopF fuel S p2 (recSet attrs name none)) ∧
    (∀ (fuel : Nat) (S : Str) (pos : Int) (attrs : List (Str × Option Str))
       (name v : Str) (p1 p2 p3 : Int),
      (¬ codeIs S pos '>' ∧ truthyAt S pos) → letterAt S pos →
      parseName S pos = (name, p1) →
      skipAttrSepF fuel S p1 = some p2 →
      (codeIs S p2 '\'' ∨ codeIs S p2 '"') →
      parseString S p2 = (v, p3) → p3 ≠ -1 →
      attrLoopF (fuel + 1) S pos attrs =
        attrLoopF fuel S (p3 + 1) (recSet attrs name (some v))) := by
  refine ⟨by decide, fun v h => Option.noConfusion h, ?_, ?_⟩
  · intro fuel S pos attrs name p1 p2 hcond hletter hpn hskip hq
    rw [attrLoopF, if_pos hcond, if_pos hletter, hpn]
    simp only [hskip, if_neg hq]
    congr 1
    omega
  · intro fuel S pos attrs name v p1 p2 p3 hcond hletter hpn hskip hq hps hne
    rw [attrLoopF, if_pos hcond, if_pos hletter, hpn]
    simp only [hskip, if_pos hq, hps, if_neg hne]

/-- C4, witness: the general flag and quoted-value cases applied inside
`<a disabled x="v">` at the concrete positions of its two attributes. -/
theorem c4_witness :
    attrLoopF 7 (lit "<a disabled x=\"v\">") 3 [] =
      attrLoopF 6 (lit "<a disabled x=\"v\">") 12 [(lit "disabled", none)] ∧
    attrLoopF 7 (lit "<a disabled x=\"v\">") 12 [(lit "disabled", none)] =
      attrLoopF 6 (lit "<a disabled x=\"v\">") 17
        [(lit "disabled", none), (lit "x", some (lit "v"))] := by
  constructor
  · exact c4_attribute_states.2.2.1 6 (lit "<a disabled x=\"v\">") 3 []
      (lit "disabled") 11 12 (by decide) (by decide) (by decide) (by decide) (by decide)
  · exact c4_attribute_states.2.2.2 6 (lit "<a disabled x=\"v\">") 12
      [(lit "disabled", none)] (lit "x") (lit "v") 13 14 16
      (by decide) (by decide) (by decide) (by decide) (by decide) (by decide) (by decide)

/-! ## Claim C5: verbatim script and style content -/

/-- C5: the content of a `script` or `style` element is captured verbatim as
one text child, up to the first occurrence of the literal closing tag, with
no nested-tag interpretation and no truncation of the final character; the
concrete cases cover a CSS comment containing `<tag>`, a `style` body whose
last character follows a quote, and `$("<div>")` inside `script`. -/
theorem c5_script_style_verbatim :
    (parseTopF 120 dOpts (lit "<style>p \x7b color: \"red\" \x7d</style>") =
      .ok (.nodes [Node.elem (lit "style") []
        [Node.text (lit "p \x7b color: \"red\" \x7d")]])) ∧
    (parseTopF 150 dOpts (lit "<test><script>$(\"<div>\")</script></test>") =
      .ok (.nodes [Node.elem (lit "test") []
        [Node.elem (lit "script") [] [Node.text (lit "$(\"<div>\")")]]])) ∧
    (parseTopF 150 dOpts (lit "<style>/* <tag> comment */</style>") =
      .ok (.nodes [Node.elem (lit "style") []
        [Node.text (lit "/* <tag> comment */")]])) ∧
    (∀ (S : Str) (pos k : Int), jsIndexOf S (lit "</script>") pos = k → 0 ≤ k →
      scriptResult S pos = ([Node.text (jsSlice S (pos + 1) k)], k + 9)) ∧
    (∀ (S : Str) (pos k : Int), jsIndexOf S (lit "</style>") pos = k → 0 ≤ k →
      styleResult S pos = ([Node.text (jsSlice S (pos + 1) k)], k + 8)) ∧
    (∀ (P A R : Str),
      jsSlice (P ++ A ++ R) P.length (P.length + A.length) = A) := by
  refine ⟨by decide, by decide, by decide, ?_, ?_, ?_⟩
  · intro S pos k hk _
    rw [scriptResult, hk]
  · intro S pos k hk _
    rw [styleResult, hk]
  · intro P A R
    simp only [jsSlice]
    have h1 : ¬ ((P.length : Int) < 0) := by omega
    have h2 : ¬ ((P.length : Int) + A.length < 0) := by omega
    have hlen : (P.length : Int) + A.length ≤ ((P ++ A ++ R).length : Int) := by
      simp only [List.length_append, Nat.cast_add]
      omega
    have hlen2 : (P.length : Int) ≤ ((P ++ A ++ R).length : Int) := by
      simp only [List.length_append, Nat.cast_add]
      omega
    rw [if_neg h2, if_neg h1, min_eq_left hlen, min_eq_left hlen2]
    have e1 : ((P.length : Int) + A.length).toNat = P.length + A.length := by omega
    have e2 : ((P.length : Int)).toNat = P.length := by omega
    rw [e1, e2]
    rw [List.take_left' (show (P ++ A).length = P.length + A.length by simp)]
    exact List.drop_left P A

/-- C5, witness: the general capture facts at `<script>a</script>` (closing
tag at index 9) and at a decomposition with content `x<y/`. -/
theorem c5_witness :
    scriptResult (lit "<script>a</script>") 7 =
      ([Node.text (jsSlice (lit "<script>a</script>") (7 + 1) 9)], 9 + 9) ∧
    styleResult (lit "<style>b</style>") 6 =
      ([Node.text (jsSlice (lit "<style>b</style>") (6 + 1) 8)], 8 + 8) ∧
    jsSlice (lit "<script>" ++ lit "x<y/" ++ lit "</script>")
        (lit "<script>").length ((lit "<script>").length + (lit "x<y/").length) =
      lit "x<y/" := by
  refine ⟨c5_script_style_verbatim.2.2.2.1 (lit "<script>a</script>") 7 9
      (by decide) (by decide),
    c5_script_style_verbatim.2.2.2.2.1 (lit "<style>b</style>") 6 8
      (by decide) (by decide),
    c5_script_style_verbatim.2.2.2.2.2 (lit "<script>") (lit "x<y/") (lit "</script>")⟩


/-! ## Search lemmas for `findFrom` and `jsIndexOf` -/

theorem findFromAux_some (S needle : Str) :
    ∀ (fuel start i : Nat), findFromAux S needle fuel start = some i →
      start ≤ i ∧ matchAtB S needle i = true := by
  intro fuel
  induction fuel with
  | zero => intro start i h; cases h
  | succ n ih =>
    intro start i h
    rw [findFromAux] at h
    split at h
    · split at h
      · injection h with h1
        subst h1
        exact ⟨Nat.le_refl _, by assumption⟩
      · have := ih (start + 1) i h
        exact ⟨by omega, this.2⟩
    · cases h

theorem findFrom_some (S needle : Str) (start i : Nat)
    (h : findFrom S needle start = some i) :
    start ≤ i ∧ matchAtB S needle i = true :=
  findFromAux_some S needle _ start i h

theorem matchAtB_le (S needle : Str) (i : Nat) (hne : needle ≠ [])
    (h : matchAtB S needle i = true) :
    i + needle.length ≤ S.length := by
  unfold matchAtB at h
  have hpf : needle <+: S.drop i := by
    exact List.isPrefixOf_iff_prefix.mp h
  have hle := hpf.length_le
  rw [List.length_drop] at hle
  have hpos : 0 < needle.length := List.length_pos.mpr hne
  omega

theorem findFromAux_isSome (S needle : Str) (i : Nat) (hne : needle ≠ [])
    (hm : matchAtB S needle i = true) :
    ∀ (fuel start : Nat), start ≤ i → i < start + fuel →
      (findFromAux S needle fuel start).isSome = true := by
  intro fuel
  induction fuel with
  | zero => intro start h1 h2; omega
  | succ n ih =>
    intro start h1 h2
    rw [findFromAux]
    by_cases hc : start + needle.length ≤ S.length
    · rw [if_pos hc]
      by_cases hp : needle.isPrefixOf (S.drop start) = true
      · rw [if_pos hp]; rfl
      · rw [if_neg hp]
        have hne : start ≠ i := by
          intro he
          subst he
          exact hp hm
        exact ih (start + 1) (by omega) (by omega)
    · exfalso
      have := matchAtB_le S needle i hne hm
      omega

theorem hasInfix_of_matchAtB (S needle : Str) (i : Nat) (hne : needle ≠ [])
    (hm : matchAtB S needle i = true) : hasInfix S needle = true := by
  unfold hasInfix findFrom
  have hi : i ≤ S.length := by
    have := matchAtB_le S needle i hne hm
    omega
  exact findFromAux_isSome S needle i hne hm (S.length + 1 - 0) 0 (by omega) (by omega)

theorem jsIndexOf_ne_neg_one (S needle : Str) (f : Int)
    (h : jsIndexOf S needle f ≠ -1) : 0 ≤ jsIndexOf S needle f := by
  unfold jsIndexOf at h ⊢
  cases hf : findFrom S needle (max f 0).toNat with
  | none => rw [hf] at h; simp at h
  | some i => exact Int.natCast_nonneg i

theorem jsIndexOf_matchAtB (S needle : Str) (f : Int)
    (h : 0 ≤ jsIndexOf S needle f) :
    matchAtB S needle (jsIndexOf S needle f).toNat = true := by
  unfold jsIndexOf at h ⊢
  cases hf : findFrom S needle (max f 0).toNat with
  | none => rw [hf] at h; simp at h
  | some i =>
    show matchAtB S needle ((i : Int)).toNat = true
    simpa using (findFrom_some S needle _ i hf).2

/-! ## Claim C9: an unterminated comment is never emitted -/

theorem noComment_cons_node (x : Node) (t : List TItem)
    (h : ∀ s, TItem.comment s ∉ t) : ∀ s, TItem.comment s ∉ (TItem.node x :: t) := by
  intro s hs
  rw [List.mem_cons] at hs
  rcases hs with hs | hs
  · cases hs
  · exact h s hs

theorem transformLoop_no_comment (fuel : Nat) :
    ∀ (ctx : Ctx) (p lp : Int) (data : Str) (acc : List TItem),
      hasInfix data (lit "-->") = false →
      noNewComments acc (transformLoopF fuel ctx p lp data acc) := by
  induction fuel with
  | zero => intro ctx p lp data acc _; exact trivial
  | succ n ih =>
    intro ctx p lp data acc hno
    rw [transformLoopF]
    by_cases h0 : jsIndexOf data (lit "<") p + 1 = 0
    · rw [if_pos h0]
      exact ⟨[], by simp, by simp⟩
    · rw [if_neg h0]
      by_cases hslash : getC data (jsIndexOf data (lit "<") p + 1) = some '/'
      · rw [if_pos hslash]
        exact ih ctx _ _ data acc hno
      · rw [if_neg hslash]
        by_cases hbang : getC data (jsIndexOf data (lit "<") p + 1) = some '!' ∧
            getC data (jsIndexOf data (lit "<") p + 1 + 1) = some '-' ∧
            getC data (jsIndexOf data (lit "<") p + 1 + 2) = some '-'
        · rw [if_pos hbang]
          by_cases hce : jsIndexOf data (lit "-->") (jsIndexOf data (lit "<") p + 1 + 3) = -1
          · rw [if_pos hce]
            exact ⟨[], by simp, by simp⟩
          · exfalso
            have hk := jsIndexOf_ne_neg_one data (lit "-->")
              (jsIndexOf data (lit "<") p + 1 + 3) hce
            have hm := jsIndexOf_matchAtB data (lit "-->")
              (jsIndexOf data (lit "<") p + 1 + 3) hk
            rw [hasInfix_of_matchAtB data (lit "-->") _ (by decide) hm] at hno
            cases hno
        · rw [if_neg hbang]
          split
          · exact trivial
          · exact ⟨[], by simp, by simp⟩
          · rename_i res resPos hpn
            by_cases hinc : resPos > (data.length : Int) - 1 ∨ resPos < lp
            · rw [if_pos hinc]
              exact ⟨[], by simp, by simp⟩
            · rw [if_neg hinc]
              have hrec := ih ctx resPos resPos data (acc ++ [TItem.node res]) hno
              cases hr : transformLoopF n ctx resPos resPos data (acc ++ [TItem.node res]) with
              | done em pp dd =>
                rw [hr] at hrec
                obtain ⟨t, ht, hnc⟩ := hrec
                exact ⟨TItem.node res :: t, by simp [ht],
                  noComment_cons_node res t hnc⟩
              | err em e =>
                rw [hr] at hrec
                obtain ⟨t, ht, hnc⟩ := hrec
                exact ⟨TItem.node res :: t, by simp [ht],
                  noComment_cons_node res t hnc⟩
              | oof => exact trivial

/-- C9: a comment whose terminator `-->` is never found in the buffered data
is never emitted by either streaming adapter, whatever `keepComments` is:
concretely, a chunk holding only an unterminated comment emits zero items and
waits; in general, when the buffer contains no `-->` at all, the scan loop
adds no comment item to its output. -/
theorem c9_unterminated_comment :
    (∀ kc : Bool,
      transformStreamChunkF 50 { dCtx with keepComments := kc } ⟨0, []⟩
          (lit "<!-- never terminated") =
        .done [] 0 (lit "<!-- never terminated") ∧
      transformWebStreamChunkF 50 { dCtx with keepComments := kc } ⟨0, []⟩
          (lit "<!-- never terminated") =
        .done [] 0 (lit "<!-- never terminated")) ∧
    (∀ (fuel : Nat) (ctx : Ctx) (st : TState) (chunk : Str),
      hasInfix (st.data ++ chunk) (lit "-->") = false →
      noNewComments [] (transformStreamChunkF fuel ctx st chunk)) ∧
    (∀ (fuel : Nat) (ctx : Ctx) (st : TState) (chunk : Str),
      hasInfix (st.data ++ chunk) (lit "-->") = false →
      noNewComments [] (transformWebStreamChunkF fuel ctx st chunk)) := by
  refine ⟨fun kc => ?_, fun fuel ctx st chunk hno => ?_, fun fuel ctx st chunk hno => ?_⟩
  · cases kc
    · exact ⟨by decide, by decide⟩
    · exact ⟨by decide, by decide⟩
  · exact transformLoop_no_comment fuel ctx st.position 0 (st.data ++ chunk) [] hno
  · exact transformLoop_no_comment fuel ctx st.position 0 (st.data ++ chunk) [] hno

/-- C9, witness: the general no-comment-emission facts applied to a buffer
`<!--` continued by a chunk ` x` with no terminator, for both adapters. -/
theorem c9_witness :
    noNewComments []
      (transformStreamChunkF 10 dCtx ⟨0, lit "<!--"⟩ (lit " x")) ∧
    noNewComments []
      (transformWebStreamChunkF 10 dCtx ⟨0, lit "<!--"⟩ (lit " x")) :=
  ⟨c9_unterminated_comment.2.1 10 dCtx ⟨0, lit "<!--"⟩ (lit " x") (by decide),
   c9_unterminated_comment.2.2 10 dCtx ⟨0, lit "<!--"⟩ (lit " x") (by decide)⟩


/-! ## Claim C2: helper lemmas -/

theorem getC_get? (S : Str) (i : Int) (c : Char) (h : getC S i = some c) :
    0 ≤ i ∧ S.get? i.toNat = some c := by
  unfold getC at h
  by_cases hi : 0 ≤ i
  · rw [if_pos hi] at h
    exact ⟨hi, h⟩
  · rw [if_neg hi] at h
    cases h

theorem drop_cons_of_get? (S : Str) (k : Nat) (a : Char) (h : S.get? k = some a) :
    S.drop k = a :: S.drop (k + 1) := by
  have h' : S[k]? = some a := by rw [← List.get?_eq_getElem?]; exact h
  have hlt : k < S.length := by
    by_contra hge
    rw [List.getElem?_eq_none (by omega)] at h'
    cases h'
  have hv : S[k] = a := by
    have hg := List.getElem?_eq_getElem hlt
    rw [hg] at h'
    injection h'
  rw [List.drop_eq_getElem_cons hlt, hv]

theorem matchAtB_three (S : Str) (k : Nat) (a b c : Char)
    (h1 : S.get? k = some a) (h2 : S.get? (k + 1) = some b)
    (h3 : S.get? (k + 2) = some c) : matchAtB S [a, b, c] k = true := by
  unfold matchAtB
  rw [drop_cons_of_get? S k a h1, drop_cons_of_get? S (k + 1) b h2,
    drop_cons_of_get? S (k + 2) c h3]
  simp [List.isPrefixOf]

theorem jsIndexOf_ge (S needle : Str) (f : Int) (h : 0 ≤ jsIndexOf S needle f) :
    max f 0 ≤ jsIndexOf S needle f := by
  unfold jsIndexOf at h ⊢
  cases hf : findFrom S needle (max f 0).toNat with
  | none => rw [hf] at h; simp at h
  | some i =>
    have hle := (findFrom_some S needle _ i hf).1
    show max f 0 ≤ (i : Int)
    omega

theorem jsIndexOf_add_le (S needle : Str) (f : Int) (hne : needle ≠ [])
    (h : 0 ≤ jsIndexOf S needle f) :
    jsIndexOf S needle f + needle.length ≤ (S.length : Int) := by
  have hm := jsIndexOf_matchAtB S needle f h
  have := matchAtB_le S needle _ hne hm
  omega

/-- The comment scan consumes to the end of the input when the buffer holds
no `-->` at all. -/
theorem scanComment_noTerminator (S : Str)
    (hno : hasInfix S (lit "-->") = false) :
    ∀ (fuel : Nat) (pos : Int), 0 ≤ pos →
      (S.length - pos.toNat) + 2 ≤ fuel →
      scanCommentEndF fuel S pos = some (S.length : Int) := by
  intro fuel
  induction fuel with
  | zero => intro pos h1 h2; omega
  | succ n ih =>
    intro pos hpos hfuel
    rw [scanCommentEndF]
    have hterm : ¬ (codeIs S pos '>' ∧ codeIs S (pos - 1) '-' ∧ codeIs S (pos - 2) '-') := by
      rintro ⟨hgt, hm1, hm2⟩
      have g0 := getC_get? S pos '>' (by simpa [codeIs] using hgt)
      have g1 := getC_get? S (pos - 1) '-' (by simpa [codeIs] using hm1)
      have g2 := getC_get? S (pos - 2) '-' (by simpa [codeIs] using hm2)
      have e1 : (pos - 2).toNat + 1 = (pos - 1).toNat := by omega
      have e2 : (pos - 2).toNat + 2 = pos.toNat := by omega
      have hm := matchAtB_three S (pos - 2).toNat '-' '-' '>'
        g2.2 (by rw [e1]; exact g1.2) (by rw [e2]; exact g0.2)
      rw [hasInfix_of_matchAtB S (lit "-->") _ (by decide) hm] at hno
      cases hno
    rw [if_pos ⟨by omega, hterm⟩]
    cases hge : decide (0 ≤ jsIndexOf S (lit ">") (pos + 1)) with
    | false =>
      have hneg : jsIndexOf S (lit ">") (pos + 1) = -1 := by
        by_contra hc
        have := jsIndexOf_ne_neg_one S (lit ">") (pos + 1) hc
        simp [this] at hge
      rw [hneg]
      cases n with
      | zero => omega
      | succ m =>
        rw [scanCommentEndF]
        rw [if_neg (by simp)]
        simp
    | true =>
      have hge' : 0 ≤ jsIndexOf S (lit ">") (pos + 1) := of_decide_eq_true hge
      have hlow := jsIndexOf_ge S (lit ">") (pos + 1) hge'
      have hhigh := jsIndexOf_add_le S (lit ">") (pos + 1) (by decide) hge'
      have : (lit ">").length = 1 := by decide
      rw [this] at hhigh
      exact ih (jsIndexOf S (lit ">") (pos + 1)) hge' (by omega)

/-- The CDATA step consumes to the end of the input when `]]>` is absent. -/
theorem cdata_noTerminator (S : Str) (pos : Int)
    (h : jsIndexOf S (lit "]]>") pos = -1) :
    cdataResult S pos = (Node.text (jsSubstringFrom S (pos + 9)), (S.length : Int)) := by
  unfold cdataResult
  rw [h, if_pos rfl]

/-- The doctype scan consumes to the end of the input when the buffer holds
no `>` at all (and never raises: it returns a position). -/
theorem scanDoctype_no_gt (S : Str) (hno : ∀ c ∈ S, c ≠ '>') :
    ∀ (fuel : Nat) (pos : Int) (enc : Bool), 0 ≤ pos → pos.toNat ≤ S.length →
      (S.length - pos.toNat) + 1 ≤ fuel →
      scanDoctypeF fuel S pos enc = some (S.length : Int) := by
  intro fuel
  induction fuel with
  | zero => intro pos enc h1 h2 h3; omega
  | succ n ih =>
    intro pos enc hpos hle hfuel
    rw [scanDoctypeF]
    by_cases hin : pos.toNat < S.length
    · have htr : truthyAt S pos = true := by
        unfold truthyAt getC
        rw [if_pos hpos]
        have : S.get? pos.toNat = some (S.get ⟨pos.toNat, hin⟩) := List.get?_eq_get hin
        rw [this]
        rfl
      have hgt : ¬ codeIs S pos '>' = true := by
        intro hc
        have := getC_get? S pos '>' (by simpa [codeIs] using hc)
        have hmem : '>' ∈ S := List.get?_mem this.2
        exact hno '>' hmem rfl
      rw [if_pos ⟨Or.inl hgt, htr⟩]
      exact ih (pos + 1) _ (by omega) (by omega) (by omega)
    · have hlen : pos.toNat = S.length := by omega
      have htr : truthyAt S pos = false := by
        unfold truthyAt getC
        rw [if_pos hpos]
        rw [List.get?_eq_none.mpr (by omega)]
        rfl
      rw [if_neg (by rw [htr]; simp)]
      have : pos = (S.length : Int) := by omega
      rw [this]

/-! ## Claim C2: errors originate only at the close-tag check -/

mutual

/-- Any error of the children scan comes from a failed close-tag check. -/
theorem parseChildrenF_err_close :
    ∀ (fuel : Nat) (ctx : Ctx) (t S : Str) (pos : Int) (acc : List Node) (e : ParseError),
      parseChildrenF fuel ctx t S pos acc = .err e →
      ∃ (p : Int) (t' : Str), closeTagResult S p t' = Except.error e
  | 0, ctx, t, S, pos, acc, e => by intro h; cases h
  | fuel + 1, ctx, t, S, pos, acc, e => by
    intro h
    rw [parseChildrenF] at h
    by_cases h1 : truthyAt S pos = true
    swap
    · rw [if_neg h1] at h; cases h
    rw [if_pos h1] at h
    by_cases h2 : codeIs S pos '<' = true
    swap
    · rw [if_neg h2] at h
      cases hpt : parseText S pos with
      | mk text p1 =>
        rw [hpt] at h
        exact parseChildrenF_err_close fuel ctx t S (p1 + 1) _ e h
    rw [if_pos h2] at h
    by_cases h3 : codeIs S (pos + 1) '/' = true
    · rw [if_pos h3] at h
      cases hct : closeTagResult S pos t with
      | error e2 =>
        rw [hct] at h
        injection h with he
        exact ⟨pos, t, by rw [hct, he]⟩
      | ok pos2 => rw [hct] at h; cases h
    rw [if_neg h3] at h
    by_cases h4 : codeIs S (pos + 1) '!' = true
    · rw [if_pos h4] at h
      by_cases h5 : codeIs S (pos + 2) '-' = true
      · rw [if_pos h5] at h
        cases hsc : scanCommentEndF fuel S pos with
        | none => rw [hsc] at h; cases h
        | some p =>
          rw [hsc] at h
          exact parseChildrenF_err_close fuel ctx t S (p + 1) _ e h
      rw [if_neg h5] at h
      by_cases h6 : (codeIs S (pos + 2) '[' = true ∧ codeIs S (pos + 8) '[' = true ∧
          toLowerStr (jsSubstring S (pos + 3) (pos + 8)) = lit "cdata")
      · rw [if_pos h6] at h
        cases hcd : cdataResult S pos with
        | mk child p =>
          rw [hcd] at h
          exact parseChildrenF_err_close fuel ctx t S p _ e h
      · rw [if_neg h6] at h
        cases hdt : doctypeResultF fuel S pos with
        | none => rw [hdt] at h; cases h
        | some pr =>
          cases pr with
          | mk child p =>
            rw [hdt] at h
            exact parseChildrenF_err_close fuel ctx t S p _ e h
    rw [if_neg h4] at h
    cases hpn : parseNodeF fuel ctx S pos with
    | oof => rw [hpn] at h; cases h
    | err e2 =>
      rw [hpn] at h
      injection h with he
      obtain ⟨p, t', hct⟩ := parseNodeF_err_close fuel ctx S pos e2 hpn
      exact ⟨p, t', by rw [hct, he]⟩
    | ok r =>
      cases r with
      | mk node p =>
        rw [hpn] at h
        exact parseChildrenF_err_close fuel ctx t S p _ e h

/-- Any error of a single-node parse comes from a failed close-tag check. -/
theorem parseNodeF_err_close :
    ∀ (fuel : Nat) (ctx : Ctx) (S : Str) (pos : Int) (e : ParseError),
      parseNodeF fuel ctx S pos = .err e →
      ∃ (p : Int) (t' : Str), closeTagResult S p t' = Except.error e
  | 0, ctx, S, pos, e => by intro h; cases h
  | fuel + 1, ctx, S, pos, e => by
    intro h
    rw [parseNodeF] at h
    cases hname : parseName S (pos + 1) with
    | mk tagName p1 =>
      simp only [hname] at h
      cases hal : attrLoopF fuel S p1 [] with
      | oof => rw [hal] at h; cases h
      | ok attributes p2 early =>
        simp only [hal] at h
        by_cases hearly : early = true
        · rw [if_pos hearly] at h; cases h
        rw [if_neg hearly] at h
        by_cases hsl : ¬ codeIs S (p2 - 1) '/' = true
        swap
        · rw [if_neg hsl] at h; cases h
        rw [if_pos hsl] at h
        by_cases hscr : tagName = lit "script"
        · rw [if_pos hscr] at h
          cases hs : scriptResult S p2 with
          | mk children p3 => rw [hs] at h; cases h
        rw [if_neg hscr] at h
        by_cases hsty : tagName = lit "style"
        · rw [if_pos hsty] at h
          cases hs : styleResult S p2 with
          | mk children p3 => rw [hs] at h; cases h
        rw [if_neg hsty] at h
        by_cases hsc : ¬ ctx.selfClosing.contains tagName = true
        swap
        · rw [if_neg hsc] at h; cases h
        rw [if_pos hsc] at h
        cases hch : parseChildrenF fuel ctx tagName S (p2 + 1) [] with
        | oof => rw [hch] at h; cases h
        | err e2 =>
          rw [hch] at h
          injection h with he
          obtain ⟨p, t', hct⟩ := parseChildrenF_err_close fuel ctx tagName S (p2 + 1) [] e2 hch
          exact ⟨p, t', by rw [hct, he]⟩
        | ok r =>
          cases r with
          | mk children p3 => rw [hch] at h; cases h

end

/-- Any error of the attribute-search loop comes from a failed close-tag
check performed against some suffix of the working text. -/
theorem attrModeLoopF_err_close :
    ∀ (fuel : Nat) (ctx : Ctx) (an av S : Str) (out : List Node) (e : ParseError),
      attrModeLoopF fuel ctx an av S out = .err e →
      ∃ (S' : Str) (p : Int) (t' : Str), closeTagResult S' p t' = Except.error e := by
  intro fuel
  induction fuel with
  | zero => intro ctx an av S out e h; cases h
  | succ n ih =>
    intro ctx an av S out e h
    rw [attrModeLoopF] at h
    by_cases h0 : findElements an av S = -1
    · rw [if_pos h0] at h; cases h
    rw [if_neg h0] at h
    by_cases h1 : jsLastIndexOf S (lit "<") (findElements an av S) ≠ -1
    · rw [if_pos h1] at h
      cases hpn : parseNodeF n ctx S (jsLastIndexOf S (lit "<") (findElements an av S)) with
      | oof => rw [hpn] at h; cases h
      | err e2 =>
        rw [hpn] at h
        injection h with he
        obtain ⟨p, t', hct⟩ := parseNodeF_err_close n ctx S _ e2 hpn
        exact ⟨S, p, t', by rw [hct, he]⟩
      | ok r =>
        cases r with
        | mk node p =>
          rw [hpn] at h
          exact ih ctx an av _ _ e h
    · rw [if_neg h1] at h
      exact ih ctx an av _ _ e h

/-- Any error of a top-level `parse` call comes from a failed close-tag
check performed against some working text. -/
theorem parseTopF_err_close (fuel : Nat) (options : ParseOptions) (S : Str)
    (e : ParseError) (h : parseTopF fuel options S = .err e) :
    ∃ (S' : Str) (p : Int) (t' : Str), closeTagResult S' p t' = Except.error e := by
  unfold parseTopF at h
  cases hav : options.attrValue with
  | some av =>
    simp only [hav] at h
    cases hal : attrModeLoopF fuel (ctxOf options)
        (match options.attrName with
         | some n => if n = [] then lit "id" else n
         | none => lit "id") av S [] with
    | oof => rw [hal] at h; cases h
    | err e2 =>
      rw [hal] at h
      injection h with he
      obtain ⟨S', p, t', hct⟩ := attrModeLoopF_err_close fuel _ _ av S [] e2 hal
      exact ⟨S', p, t', by rw [hct, he]⟩
    | ok out =>
      simp only [hal] at h
      by_cases hs : options.simplify = true
      · rw [if_pos hs] at h; cases h
      · rw [if_neg hs] at h; cases h
  | none =>
    simp only [hav] at h
    by_cases hpm : options.parseNode = true
    · rw [if_pos hpm] at h
      cases hpn : parseNodeF fuel (ctxOf options) S (options.pos.getD 0) with
      | oof => rw [hpn] at h; cases h
      | err e2 =>
        rw [hpn] at h
        injection h with he
        obtain ⟨p, t', hct⟩ := parseNodeF_err_close fuel _ S _ e2 hpn
        exact ⟨S, p, t', by rw [hct, he]⟩
      | ok r =>
        cases r with
        | mk node p =>
          simp only [hpn] at h
          by_cases hs : options.simplify = true
          · rw [if_pos hs] at h; cases h
          · rw [if_neg hs] at h; cases h
    · rw [if_neg hpm] at h
      cases hpc : parseChildrenF fuel (ctxOf options) [] S (options.pos.getD 0) [] with
      | oof => rw [hpc] at h; cases h
      | err e2 =>
        rw [hpc] at h
        injection h with he
        obtain ⟨p, t', hct⟩ := parseChildrenF_err_close fuel _ [] S _ [] e2 hpc
        exact ⟨S, p, t', by rw [hct, he]⟩
      | ok r =>
        cases r with
        | mk l p =>
          simp only [hpc] at h
          by_cases hs : options.simplify = true
          · rw [if_pos hs] at h; cases h
          · rw [if_neg hs] at h; cases h

/-- C2: the close-tag step errs exactly when the captured text between `</`
and the next `>` does not contain the tag being closed; every error reached
through `parse` originates there; and unterminated comments, CDATA sections
and doctype-like declarations never raise — they consume to the end of the
input. -/
theorem c2_error_characterization :
    (∀ (S : Str) (pos : Int) (t : Str),
      (∃ e, closeTagResult S pos t = Except.error e) ↔
      includesStr (jsSubstring S (pos + 2) (jsIndexOf S (lit ">") pos)) t = false) ∧
    (∀ (fuel : Nat) (options : ParseOptions) (S : Str) (e : ParseError),
      parseTopF fuel options S = .err e →
      ∃ (S' : Str) (p : Int) (t' : Str), closeTagResult S' p t' = Except.error e) ∧
    (∀ (S : Str) (fuel : Nat) (pos : Int), hasInfix S (lit "-->") = false →
      0 ≤ pos → (S.length - pos.toNat) + 2 ≤ fuel →
      scanCommentEndF fuel S pos = some (S.length : Int)) ∧
    (∀ (S : Str) (pos : Int), jsIndexOf S (lit "]]>") pos = -1 →
      cdataResult S pos = (Node.text (jsSubstringFrom S (pos + 9)), (S.length : Int))) ∧
    (∀ (S : Str) (fuel : Nat) (pos : Int) (enc : Bool), (∀ c ∈ S, c ≠ '>') →
      0 ≤ pos → pos.toNat ≤ S.length → (S.length - pos.toNat) + 1 ≤ fuel →
      scanDoctypeF fuel S pos enc = some (S.length : Int)) := by
  refine ⟨?_, ?_, ?_, ?_, ?_⟩
  · intro S pos t
    constructor
    · rintro ⟨e, he⟩
      unfold closeTagResult at he
      by_cases hc : includesStr (jsSubstring S (pos + 2) (jsIndexOf S (lit ">") pos)) t = true
      · rw [if_pos hc] at he; cases he
      · simpa using hc
    · intro hc
      refine ⟨mkCloseError S (jsIndexOf S (lit ">") pos), ?_⟩
      unfold closeTagResult
      rw [if_neg (by rw [hc]; simp)]
  · exact parseTopF_err_close
  · intro S fuel pos hno hpos hfuel
    exact scanComment_noTerminator S hno fuel pos hpos hfuel
  · exact cdata_noTerminator
  · intro S fuel pos enc hno hpos hle hfuel
    exact scanDoctype_no_gt S hno fuel pos enc hpos hle hfuel

/-- C2, witness: the characterization applied concretely — the mismatching
close `</b>` against tag `a` errs while `</a>` does not; `parse` of
`<a></b>` propagates exactly such an error; and the unterminated-construct
facts at `<!-- x`, `<![CDATA[x` and `<!doctype` inputs. -/
theorem c2_witness :
    (∃ e, closeTagResult (lit "<a></b>") 3 (lit "a") = Except.error e) ∧
    (∃ (S' : Str) (p : Int) (t' : Str),
      closeTagResult S' p t' = Except.error (mkCloseError (lit "<a></b>") 6)) ∧
    scanCommentEndF 12 (lit "<!-- x") 0 = some 6 ∧
    cdataResult (lit "<![CDATA[nothing") 0 =
      (Node.text (jsSubstringFrom (lit "<![CDATA[nothing") 9), 16) ∧
    scanDoctypeF 14 (lit "<!doctype xml") 2 false = some 13 := by
  refine ⟨?_, ?_, ?_, ?_, ?_⟩
  · exact (c2_error_characterization.1 (lit "<a></b>") 3 (lit "a")).mpr (by decide)
  · exact c2_error_characterization.2.1 80 dOpts (lit "<a></b>")
      (mkCloseError (lit "<a></b>") 6) (by decide)
  · exact c2_error_characterization.2.2.1 (lit "<!-- x") 12 0 (by decide) (by decide)
      (by decide)
  · exact c2_error_characterization.2.2.2.1 (lit "<![CDATA[nothing") 0 (by decide)
  · exact c2_error_characterization.2.2.2.2 (lit "<!doctype xml") 14 2 false
      (by decide) (by decide) (by decide) (by decide)


/-! ## Claim C10: termination -/

theorem jsSubstringFrom_neg_one (S : Str) : jsSubstringFrom S (-1) = S := by
  unfold jsSubstringFrom jsSubstring
  simp

/-- The attribute-search loop is stuck on ` id="x"`: the regex matches at
index 0, there is no preceding `<`, and `S.substring(-1)` leaves the working
text unchanged, so every amount of fuel runs out. -/
theorem c10_stuck_attr :
    ∀ (fuel : Nat) (out : List Node),
      attrModeLoopF fuel dCtx (lit "id") (lit "x") (lit " id=\"x\"") out = .oof := by
  intro fuel
  induction fuel with
  | zero => intro out; rfl
  | succ n ih =>
    intro out
    rw [attrModeLoopF]
    rw [if_neg (show ¬ findElements (lit "id") (lit "x") (lit " id=\"x\"") = -1 by decide)]
    rw [if_neg (show ¬ jsLastIndexOf (lit " id=\"x\"") (lit "<")
      (findElements (lit "id") (lit "x") (lit " id=\"x\"")) ≠ -1 by decide)]
    rw [show jsSubstringFrom (lit " id=\"x\"")
      (jsLastIndexOf (lit " id=\"x\"") (lit "<")
        (findElements (lit "id") (lit "x") (lit " id=\"x\""))) = lit " id=\"x\""
      from by decide]
    exact ih out


/-! ## Position bounds and single-step progress facts for the scanners -/

theorem getC_bounds (S : Str) (i : Int) (c : Char) (h : getC S i = some c) :
    0 ≤ i ∧ i.toNat < S.length := by
  obtain ⟨h0, hg⟩ := getC_get? S i c h
  refine ⟨h0, ?_⟩
  by_contra hge
  rw [List.get?_eq_none.mpr (by omega)] at hg
  cases hg

theorem truthyAt_bounds (S : Str) (i : Int) (h : truthyAt S i = true) :
    0 ≤ i ∧ i.toNat < S.length := by
  unfold truthyAt at h
  cases hg : getC S i with
  | none => rw [hg] at h; cases h
  | some c => exact getC_bounds S i c hg

theorem truthyAt_neg (S : Str) (i : Int) (h : i < 0) : truthyAt S i = false := by
  unfold truthyAt getC
  rw [if_neg (by omega)]
  rfl

theorem codeIs_bounds (S : Str) (i : Int) (c : Char) (h : codeIs S i c = true) :
    0 ≤ i ∧ i.toNat < S.length := by
  unfold codeIs at h
  exact getC_bounds S i c (by simpa using h)

theorem codeTruthy_bounds (S : Str) (i : Int) (h : codeTruthy S i = true) :
    0 ≤ i ∧ i.toNat < S.length := by
  unfold codeTruthy at h
  cases hg : getC S i with
  | none => rw [hg] at h; cases h
  | some c => exact getC_bounds S i c hg

theorem matchAtB_single (S : Str) (c : Char) (k : Nat)
    (h : matchAtB S [c] k = true) : S.get? k = some c := by
  unfold matchAtB at h
  cases hd : S.drop k with
  | nil => rw [hd] at h; simp [List.isPrefixOf] at h
  | cons a tail =>
    rw [hd] at h
    simp [List.isPrefixOf] at h
    have hg := List.getElem?_drop S k 0
    rw [hd] at hg
    simp at hg
    rw [List.get?_eq_getElem?, ← hg, h]

theorem parseChildrenF_not_truthy (fuel : Nat) (ctx : Ctx) (t S : Str) (pos : Int)
    (acc : List Node) (h : truthyAt S pos = false) :
    parseChildrenF (fuel + 1) ctx t S pos acc = .ok (acc, pos) := by
  rw [parseChildrenF, if_neg (by simp [h])]

theorem parseName_eq (S : Str) (p : Int) (name : Str) (q : Int)
    (h : parseName S p = (name, q)) :
    name = (if 0 ≤ p then S.drop p.toNat else []).takeWhile
      (fun c => !(nameEndChars.contains c)) ∧ q = p + name.length := by
  simp only [parseName, Prod.mk.injEq] at h
  obtain ⟨h1, h2⟩ := h
  subst h1
  exact ⟨rfl, h2.symm⟩

theorem parseName_le (S : Str) (p : Int) (name : Str) (q : Int)
    (h : parseName S p = (name, q)) : p ≤ q := by
  obtain ⟨-, h2⟩ := parseName_eq S p name q h
  omega

theorem parseName_letter (S : Str) (p : Int) (name : Str) (q : Int)
    (h : parseName S p = (name, q)) (hl : letterAt S p = true) : p + 1 ≤ q := by
  obtain ⟨h1, h2⟩ := parseName_eq S p name q h
  cases hg : getC S p with
  | none => rw [letterAt, hg] at hl; cases hl
  | some c =>
    simp only [letterAt, hg] at hl
    obtain ⟨h0, hget⟩ := getC_get? S p c hg
    rw [if_pos h0, drop_cons_of_get? S p.toNat c hget, List.takeWhile_cons] at h1
    have hcn : (!(nameEndChars.contains c)) = true := by
      rw [Bool.not_eq_true']
      by_contra hcc
      rw [Bool.not_eq_false] at hcc
      have hm : c ∈ nameEndChars := List.mem_of_elem_eq_true hcc
      simp only [nameEndChars, List.mem_cons, List.not_mem_nil, or_false] at hm
      rcases hm with rfl | rfl | rfl | rfl | rfl | rfl | rfl <;>
        exact absurd hl (by decide)
    rw [if_pos hcn] at h1
    rw [h1, List.length_cons] at h2
    omega

theorem parseName_infix (S : Str) (p : Int) (name : Str) (q : Int)
    (h : parseName S p = (name, q)) (h0 : 0 ≤ p) (hne : name ≠ []) :
    hasInfix S name = true := by
  obtain ⟨h1, -⟩ := parseName_eq S p name q h
  rw [if_pos h0] at h1
  apply hasInfix_of_matchAtB S name p.toNat hne
  unfold matchAtB
  rw [h1]
  exact List.isPrefixOf_iff_prefix.mpr (List.takeWhile_prefix _)

theorem parseString_snd_ge (S : Str) (p2 : Int) (v : Str) (p3 : Int)
    (h : parseString S p2 = (v, p3)) (hne : p3 ≠ -1) : p2 + 1 ≤ p3 := by
  simp only [parseString, Prod.mk.injEq] at h
  obtain ⟨-, h2⟩ := h
  rw [← h2] at hne ⊢
  have h0 := jsIndexOf_ne_neg_one _ _ _ hne
  have := jsIndexOf_ge S _ (p2 + 1) h0
  omega

theorem parseText_snd (S : Str) (pos : Int) (t : Str) (p1 : Int)
    (h : parseText S pos = (t, p1)) (h0 : 0 ≤ pos)
    (hne : codeIs S pos '<' = false) :
    p1 = (S.length : Int) ∨ pos ≤ p1 := by
  simp only [parseText, Prod.mk.injEq] at h
  obtain ⟨-, h2⟩ := h
  by_cases hio : jsIndexOf S (lit "<") pos = -1
  · left
    rw [← h2, if_pos (by omega)]
  · right
    have hge0 := jsIndexOf_ne_neg_one _ _ _ hio
    have hge := jsIndexOf_ge S (lit "<") pos hge0
    have hm := jsIndexOf_matchAtB S (lit "<") pos hge0
    have hlit : lit "<" = ['<'] := rfl
    rw [hlit] at hm
    have hgot : S.get? (jsIndexOf S (lit "<") pos).toNat = some '<' :=
      matchAtB_single S '<' _ hm
    have hnep : jsIndexOf S (lit "<") pos ≠ pos := by
      intro he
      unfold codeIs getC at hne
      rw [if_pos h0] at hne
      rw [he] at hgot
      rw [hgot] at hne
      simp at hne
    rw [← h2, if_neg (by omega)]
    omega

theorem closeTagResult_ok (S : Str) (pos : Int) (t : Str) (p2 : Int)
    (h : closeTagResult S pos t = .ok p2) : p2 = -1 ∨ max pos 0 + 1 ≤ p2 := by
  simp only [closeTagResult] at h
  split at h
  · injection h with h
    by_cases h1 : jsIndexOf S (lit ">") pos = -1
    · left
      rw [← h, h1]
      norm_num
    · right
      have h0 := jsIndexOf_ne_neg_one _ _ _ h1
      have hge := jsIndexOf_ge S (lit ">") pos h0
      rw [← h, if_pos (by omega)]
      omega
  · cases h

theorem cdataResult_snd (S : Str) (pos : Int) (c : Node) (p : Int)
    (h : cdataResult S pos = (c, p)) (h0 : 0 ≤ pos) :
    p = (S.length : Int) ∨ pos + 3 ≤ p := by
  simp only [cdataResult] at h
  split at h
  · rw [Prod.mk.injEq] at h
    left
    exact h.2.symm
  · rename_i hne
    rw [Prod.mk.injEq] at h
    right
    have hge0 := jsIndexOf_ne_neg_one _ _ _ hne
    have := jsIndexOf_ge S (lit "]]>") pos hge0
    have h2 := h.2
    omega

theorem skipAttrSepF_le (S : Str) :
    ∀ (fuel : Nat) (p q : Int), skipAttrSepF fuel S p = some q → p ≤ q := by
  intro fuel
  induction fuel with
  | zero => intro p q h; cases h
  | succ n ih =>
    intro p q h
    rw [skipAttrSepF] at h
    split at h
    · have := ih (p + 1) q h
      omega
    · injection h with h
      omega

theorem skipAttrSepF_suff (S : Str) :
    ∀ (fuel : Nat) (p : Int), posMeasure S p + 1 ≤ fuel →
      skipAttrSepF fuel S p ≠ none := by
  intro fuel
  induction fuel with
  | zero => intro p hf; unfold posMeasure at hf; omega
  | succ n ih =>
    intro p hf
    rw [skipAttrSepF]
    split
    · rename_i hc
      obtain ⟨hb0, hb1⟩ := codeTruthy_bounds S p hc.1
      apply ih
      unfold posMeasure at hf ⊢
      omega
    · simp


theorem attrLoopF_ok (S : Str) :
    ∀ (fuel : Nat) (p : Int) (attrs a : List (Str × Option Str)) (q : Int) (e : Bool),
      attrLoopF fuel S p attrs = .ok a q e →
      (e = true ∧ q = -1) ∨ (e = false ∧ p ≤ q) := by
  intro fuel
  induction fuel with
  | zero => intro p attrs a q e h; cases h
  | succ n ih =>
    intro p attrs a q e h
    rw [attrLoopF] at h
    split at h
    · rename_i hcond
      split at h
      · rename_i hlet
        rcases hpn : parseName S p with ⟨name, p1⟩
        simp only [hpn] at h
        have hp1 : p + 1 ≤ p1 := parseName_letter S p name p1 hpn hlet
        cases hs : skipAttrSepF n S p1 with
        | none => rw [hs] at h; cases h
        | some p2 =>
          simp only [hs] at h
          have hp2 : p1 ≤ p2 := skipAttrSepF_le S n p1 p2 hs
          split at h
          · rcases hps : parseString S p2 with ⟨value, p3⟩
            simp only [hps] at h
            split at h
            · rename_i hm1
              injection h with h1 h2 h3
              left
              exact ⟨h3.symm, by omega⟩
            · rename_i hm1
              have hp3 : p2 + 1 ≤ p3 := parseString_snd_ge S p2 value p3 hps hm1
              rcases ih (p3 + 1) _ a q e h with ⟨he, hq⟩ | ⟨he, hq⟩
              · exact Or.inl ⟨he, hq⟩
              · exact Or.inr ⟨he, by omega⟩
          · rcases ih ((p2 - 1) + 1) _ a q e h with ⟨he, hq⟩ | ⟨he, hq⟩
            · exact Or.inl ⟨he, hq⟩
            · exact Or.inr ⟨he, by omega⟩
      · rcases ih (p + 1) _ a q e h with ⟨he, hq⟩ | ⟨he, hq⟩
        · exact Or.inl ⟨he, hq⟩
        · exact Or.inr ⟨he, by omega⟩
    · injection h with h1 h2 h3
      right
      exact ⟨h3.symm, by omega⟩

theorem attrLoopF_suff (S : Str) :
    ∀ (fuel : Nat) (p : Int) (attrs : List (Str × Option Str)),
      posMeasure S p + 2 ≤ fuel → attrLoopF fuel S p attrs ≠ .oof := by
  intro fuel
  induction fuel with
  | zero => intro p attrs hf; unfold posMeasure at hf; omega
  | succ n ih =>
    intro p attrs hf
    rw [attrLoopF]
    split
    · rename_i hcond
      obtain ⟨hgt, htr⟩ := hcond
      obtain ⟨hp0, hplt⟩ := truthyAt_bounds S p htr
      split
      · rename_i hlet
        rcases hpn : parseName S p with ⟨name, p1⟩
        simp only [hpn]
        have hp1 : p + 1 ≤ p1 := parseName_letter S p name p1 hpn hlet
        cases hs : skipAttrSepF n S p1 with
        | none =>
          exfalso
          apply skipAttrSepF_suff S n p1 _ hs
          unfold posMeasure at hf ⊢
          omega
        | some p2 =>
          simp only [hs]
          have hp2 : p1 ≤ p2 := skipAttrSepF_le S n p1 p2 hs
          split
          · rcases hps : parseString S p2 with ⟨value, p3⟩
            simp only [hps]
            split
            · simp
            · rename_i hm1
              have hp3 : p2 + 1 ≤ p3 := parseString_snd_ge S p2 value p3 hps hm1
              apply ih
              unfold posMeasure at hf ⊢
              omega
          · apply ih
            unfold posMeasure at hf ⊢
            omega
      · apply ih
        unfold posMeasure at hf ⊢
        omega
    · simp

theorem scanCommentEndF_cases (S : Str) :
    ∀ (fuel : Nat) (p q lb : Int), scanCommentEndF fuel S p = some q →
      (p = -1 ∨ lb ≤ p) →
      q = (S.length : Int) ∨ (lb ≤ q ∧ 0 ≤ q ∧ q.toNat < S.length) := by
  intro fuel
  induction fuel with
  | zero => intro p q lb h hp; cases h
  | succ n ih =>
    intro p q lb h hp
    rw [scanCommentEndF] at h
    split at h
    · rename_i hcond
      apply ih _ q lb h
      by_cases hio : jsIndexOf S (lit ">") (p + 1) = -1
      · exact Or.inl hio
      · right
        have h0 := jsIndexOf_ne_neg_one _ _ _ hio
        have hge := jsIndexOf_ge S (lit ">") (p + 1) h0
        rcases hp with hp | hp
        · exact absurd hp hcond.1
        · omega
    · rename_i hcond
      injection h with h
      by_cases hpe : p = -1
      · left
        rw [← h, if_pos hpe]
      · right
        have hT : codeIs S p '>' = true ∧ codeIs S (p - 1) '-' = true ∧
            codeIs S (p - 2) '-' = true := by
          by_contra hT
          exact hcond ⟨hpe, hT⟩
        obtain ⟨hb0, hb1⟩ := codeIs_bounds S p '>' hT.1
        rcases hp with hp | hp
        · exact absurd hp hpe
        · rw [← h, if_neg hpe]
          exact ⟨hp, hb0, hb1⟩

theorem scanCommentEndF_suff (S : Str) :
    ∀ (fuel : Nat) (p : Int), (p = -1 ∨ 0 ≤ p) → posMeasure S p + 2 ≤ fuel →
      scanCommentEndF fuel S p ≠ none := by
  intro fuel
  induction fuel with
  | zero => intro p hp hf; unfold posMeasure at hf; omega
  | succ n ih =>
    intro p hp hf
    rw [scanCommentEndF]
    split
    · rename_i hcond
      obtain ⟨hne, hnt⟩ := hcond
      have hp0 : 0 ≤ p := by
        rcases hp with hp | hp
        · exact absurd hp hne
        · exact hp
      by_cases hio : jsIndexOf S (lit ">") (p + 1) = -1
      · rw [hio]
        cases n with
        | zero => exfalso; unfold posMeasure at hf; omega
        | succ m =>
          rw [scanCommentEndF]
          rw [if_neg (by simp)]
          simp
      · apply ih
        · exact Or.inr (jsIndexOf_ne_neg_one _ _ _ hio)
        · have h0 := jsIndexOf_ne_neg_one _ _ _ hio
          have hge := jsIndexOf_ge S (lit ">") (p + 1) h0
          have hlen := jsIndexOf_add_le S (lit ">") (p + 1) (by decide) h0
          have hl1 : ((lit ">").length : Int) = 1 := rfl
          rw [hl1] at hlen
          unfold posMeasure at hf ⊢
          omega
    · simp

theorem scanDoctypeF_ge (S : Str) :
    ∀ (fuel : Nat) (p : Int) (enc : Bool) (d : Int),
      scanDoctypeF fuel S p enc = some d → p ≤ d := by
  intro fuel
  induction fuel with
  | zero => intro p enc d h; cases h
  | succ n ih =>
    intro p enc d h
    rw [scanDoctypeF] at h
    split at h
    · have := ih (p + 1) _ d h
      omega
    · injection h with h
      omega

theorem scanDoctypeF_suff (S : Str) :
    ∀ (fuel : Nat) (p : Int) (enc : Bool), posMeasure S p + 1 ≤ fuel →
      scanDoctypeF fuel S p enc ≠ none := by
  intro fuel
  induction fuel with
  | zero => intro p enc hf; unfold posMeasure at hf; omega
  | succ n ih =>
    intro p enc hf
    rw [scanDoctypeF]
    split
    · rename_i hcond
      obtain ⟨hb0, hb1⟩ := truthyAt_bounds S p hcond.2
      apply ih
      unfold posMeasure at hf ⊢
      omega
    · simp

theorem doctypeResultF_suff (fuel : Nat) (S : Str) (pos : Int)
    (hf : posMeasure S (pos + 2) + 1 ≤ fuel) : doctypeResultF fuel S pos ≠ none := by
  unfold doctypeResultF
  cases hs : scanDoctypeF fuel S (pos + 2) false with
  | none => exact absurd hs (scanDoctypeF_suff S fuel (pos + 2) false hf)
  | some e => simp

theorem doctypeResultF_snd (fuel : Nat) (S : Str) (pos : Int) (c : Node) (p : Int)
    (h : doctypeResultF fuel S pos = some (c, p)) : pos + 3 ≤ p := by
  unfold doctypeResultF at h
  cases hs : scanDoctypeF fuel S (pos + 2) false with
  | none => rw [hs] at h; cases h
  | some e =>
    rw [hs] at h
    injection h with h
    rw [Prod.mk.injEq] at h
    have := scanDoctypeF_ge S fuel (pos + 2) false e hs
    omega


/-! Cursor progress of the children scan and of a single-node parse, for
inputs free of `script`/`style` (where the special-case cursor jump could go
backwards): the resulting cursor is `-1` or at least the entry cursor. -/

mutual

theorem parseChildrenF_progress :
    ∀ (fuel : Nat) (ctx : Ctx) (t S : Str) (pos : Int) (acc l : List Node) (q : Int),
      hasInfix S (lit "script") = false → hasInfix S (lit "style") = false →
      parseChildrenF fuel ctx t S pos acc = .ok (l, q) → q = -1 ∨ pos ≤ q
  | 0, ctx, t, S, pos, acc, l, q => by intro _ _ h; cases h
  | fuel + 1, ctx, t, S, pos, acc, l, q => by
    intro hsc hst h
    rw [parseChildrenF] at h
    by_cases h1 : truthyAt S pos = true
    swap
    · rw [if_neg h1] at h
      injection h with h
      rw [Prod.mk.injEq] at h
      right
      omega
    obtain ⟨hp0, hplt⟩ := truthyAt_bounds S pos h1
    rw [if_pos h1] at h
    by_cases h2 : codeIs S pos '<' = true
    swap
    · rw [if_neg h2] at h
      cases hpt : parseText S pos with
      | mk text p1 =>
        rw [hpt] at h
        have h2f : codeIs S pos '<' = false := Bool.eq_false_iff.mpr h2
        have hsnd := parseText_snd S pos text p1 hpt hp0 h2f
        rcases parseChildrenF_progress fuel ctx t S (p1 + 1) _ l q hsc hst h with hq | hq
        · exact Or.inl hq
        · right
          rcases hsnd with hs | hs <;> omega
    rw [if_pos h2] at h
    by_cases h3 : codeIs S (pos + 1) '/' = true
    · rw [if_pos h3] at h
      cases hct : closeTagResult S pos t with
      | error e2 => rw [hct] at h; cases h
      | ok pos2 =>
        rw [hct] at h
        injection h with h
        rw [Prod.mk.injEq] at h
        rcases closeTagResult_ok S pos t pos2 hct with hc | hc
        · left; omega
        · right; omega
    rw [if_neg h3] at h
    by_cases h4 : codeIs S (pos + 1) '!' = true
    · rw [if_pos h4] at h
      by_cases h5 : codeIs S (pos + 2) '-' = true
      · rw [if_pos h5] at h
        cases hscan : scanCommentEndF fuel S pos with
        | none => rw [hscan] at h; cases h
        | some p =>
          rw [hscan] at h
          have hcs := scanCommentEndF_cases S fuel pos p pos hscan (Or.inr le_rfl)
          rcases parseChildrenF_progress fuel ctx t S (p + 1) _ l q hsc hst h with hq | hq
          · exact Or.inl hq
          · right
            rcases hcs with hc | hc <;> omega
      rw [if_neg h5] at h
      by_cases h6 : (codeIs S (pos + 2) '[' = true ∧ codeIs S (pos + 8) '[' = true ∧
          toLowerStr (jsSubstring S (pos + 3) (pos + 8)) = lit "cdata")
      · rw [if_pos h6] at h
        cases hcd : cdataResult S pos with
        | mk child p =>
          rw [hcd] at h
          have hsnd := cdataResult_snd S pos child p hcd hp0
          rcases parseChildrenF_progress fuel ctx t S p _ l q hsc hst h with hq | hq
          · exact Or.inl hq
          · right
            rcases hsnd with hs | hs <;> omega
      · rw [if_neg h6] at h
        cases hdt : doctypeResultF fuel S pos with
        | none => rw [hdt] at h; cases h
        | some pr =>
          cases pr with
          | mk child p =>
            rw [hdt] at h
            have hsnd := doctypeResultF_snd fuel S pos child p hdt
            rcases parseChildrenF_progress fuel ctx t S p _ l q hsc hst h with hq | hq
            · exact Or.inl hq
            · right; omega
    rw [if_neg h4] at h
    cases hpn : parseNodeF fuel ctx S pos with
    | oof => rw [hpn] at h; cases h
    | err e2 => rw [hpn] at h; cases h
    | ok r =>
      cases r with
      | mk node p =>
        simp only [hpn] at h
        rcases parseNodeF_progress fuel ctx S pos node p hsc hst hp0 hpn with hpneg | hpge
        · subst hpneg
          cases fuel with
          | zero => cases h
          | succ m =>
            rw [parseChildrenF_not_truthy m ctx t S (-1) _
              (truthyAt_neg S (-1) (by omega))] at h
            injection h with h
            rw [Prod.mk.injEq] at h
            left
            omega
        · rcases parseChildrenF_progress fuel ctx t S p _ l q hsc hst h with hq | hq
          · exact Or.inl hq
          · right; omega

theorem parseNodeF_progress :
    ∀ (fuel : Nat) (ctx : Ctx) (S : Str) (pos : Int) (node : Node) (q : Int),
      hasInfix S (lit "script") = false → hasInfix S (lit "style") = false →
      0 ≤ pos →
      parseNodeF fuel ctx S pos = .ok (node, q) → q = -1 ∨ pos + 2 ≤ q
  | 0, ctx, S, pos, node, q => by intro _ _ _ h; cases h
  | fuel + 1, ctx, S, pos, node, q => by
    intro hsc hst hp0 h
    rw [parseNodeF] at h
    cases hname : parseName S (pos + 1) with
    | mk tagName p1 =>
      simp only [hname] at h
      have hp1 : pos + 1 ≤ p1 := parseName_le S (pos + 1) tagName p1 hname
      cases hal : attrLoopF fuel S p1 [] with
      | oof => rw [hal] at h; cases h
      | ok attributes p2 early =>
        simp only [hal] at h
        rcases attrLoopF_ok S fuel p1 [] attributes p2 early hal with ⟨he, hq2⟩ | ⟨he, hq2⟩
        · rw [if_pos he] at h
          injection h with h
          rw [Prod.mk.injEq] at h
          left
          omega
        · rw [if_neg (by rw [he]; exact Bool.false_ne_true)] at h
          by_cases hsl : ¬ codeIs S (p2 - 1) '/' = true
          swap
          · rw [if_neg hsl] at h
            injection h with h
            rw [Prod.mk.injEq] at h
            right
            omega
          rw [if_pos hsl] at h
          by_cases hscr : tagName = lit "script"
          · exfalso
            have hinf : hasInfix S tagName = true :=
              parseName_infix S (pos + 1) tagName p1 hname (by omega)
                (by rw [hscr]; exact (by decide))
            rw [hscr, hsc] at hinf
            cases hinf
          rw [if_neg hscr] at h
          by_cases hsty : tagName = lit "style"
          · exfalso
            have hinf : hasInfix S tagName = true :=
              parseName_infix S (pos + 1) tagName p1 hname (by omega)
                (by rw [hsty]; exact (by decide))
            rw [hsty, hst] at hinf
            cases hinf
          rw [if_neg hsty] at h
          by_cases hcont : ¬ ctx.selfClosing.contains tagName = true
          swap
          · rw [if_neg hcont] at h
            injection h with h
            rw [Prod.mk.injEq] at h
            right
            omega
          rw [if_pos hcont] at h
          cases hch : parseChildrenF fuel ctx tagName S (p2 + 1) [] with
          | oof => rw [hch] at h; cases h
          | err e2 => rw [hch] at h; cases h
          | ok r =>
            cases r with
            | mk children p3 =>
              rw [hch] at h
              injection h with h
              rw [Prod.mk.injEq] at h
              rcases parseChildrenF_progress fuel ctx tagName S (p2 + 1) [] children p3
                  hsc hst hch with hq | hq
              · left; omega
              · right; omega

end


/-! Fuel sufficiency: for inputs free of `script`/`style`, fuel linear in the
distance from the cursor to the end of the input rules out fuel exhaustion,
i.e. the scanning loops of `parse` terminate. -/

mutual

theorem parseChildrenF_suff :
    ∀ (fuel : Nat) (ctx : Ctx) (t S : Str) (pos : Int) (acc : List Node),
      hasInfix S (lit "script") = false → hasInfix S (lit "style") = false →
      2 * posMeasure S pos + 4 ≤ fuel →
      parseChildrenF fuel ctx t S pos acc ≠ .oof
  | 0, ctx, t, S, pos, acc => by
    intro _ _ hf
    exfalso
    omega
  | fuel + 1, ctx, t, S, pos, acc => by
    intro hsc hst hf
    rw [parseChildrenF]
    by_cases h1 : truthyAt S pos = true
    swap
    · rw [if_neg h1]
      simp
    obtain ⟨hp0, hplt⟩ := truthyAt_bounds S pos h1
    rw [if_pos h1]
    by_cases h2 : codeIs S pos '<' = true
    swap
    · rw [if_neg h2]
      cases hpt : parseText S pos with
      | mk text p1 =>
        have h2f : codeIs S pos '<' = false := Bool.eq_false_iff.mpr h2
        have hsnd := parseText_snd S pos text p1 hpt hp0 h2f
        apply parseChildrenF_suff fuel ctx t S (p1 + 1) _ hsc hst
        unfold posMeasure at hf ⊢
        rcases hsnd with hs | hs <;> omega
    rw [if_pos h2]
    by_cases h3 : codeIs S (pos + 1) '/' = true
    · rw [if_pos h3]
      cases hct : closeTagResult S pos t with
      | error e2 => simp [hct]
      | ok pos2 => simp [hct]
    rw [if_neg h3]
    by_cases h4 : codeIs S (pos + 1) '!' = true
    · rw [if_pos h4]
      by_cases h5 : codeIs S (pos + 2) '-' = true
      · rw [if_pos h5]
        cases hscan : scanCommentEndF fuel S pos with
        | none =>
          exact absurd hscan (scanCommentEndF_suff S fuel pos (Or.inr hp0)
            (by unfold posMeasure at hf ⊢; omega))
        | some p =>
          simp only [hscan]
          have hcs := scanCommentEndF_cases S fuel pos p pos hscan (Or.inr le_rfl)
          apply parseChildrenF_suff fuel ctx t S (p + 1) _ hsc hst
          unfold posMeasure at hf ⊢
          rcases hcs with hc | ⟨hc1, hc2, hc3⟩ <;> omega
      rw [if_neg h5]
      by_cases h6 : (codeIs S (pos + 2) '[' = true ∧ codeIs S (pos + 8) '[' = true ∧
          toLowerStr (jsSubstring S (pos + 3) (pos + 8)) = lit "cdata")
      · rw [if_pos h6]
        cases hcd : cdataResult S pos with
        | mk child p =>
          have hsnd := cdataResult_snd S pos child p hcd hp0
          apply parseChildrenF_suff fuel ctx t S p _ hsc hst
          unfold posMeasure at hf ⊢
          rcases hsnd with hs | hs <;> omega
      · rw [if_neg h6]
        cases hdt : doctypeResultF fuel S pos with
        | none =>
          exact absurd hdt (doctypeResultF_suff fuel S pos
            (by unfold posMeasure at hf ⊢; omega))
        | some pr =>
          cases pr with
          | mk child p =>
            simp only [hdt]
            have hsnd := doctypeResultF_snd fuel S pos child p hdt
            apply parseChildrenF_suff fuel ctx t S p _ hsc hst
            unfold posMeasure at hf ⊢
            omega
    rw [if_neg h4]
    cases hpn : parseNodeF fuel ctx S pos with
    | oof =>
      exact absurd hpn (parseNodeF_suff fuel ctx S pos hsc hst hp0
        (by unfold posMeasure at hf ⊢; omega))
    | err e2 => simp [hpn]
    | ok r =>
      cases r with
      | mk node p =>
        simp only [hpn]
        rcases parseNodeF_progress fuel ctx S pos node p hsc hst hp0 hpn with hpneg | hpge
        · subst hpneg
          cases fuel with
          | zero => exfalso; unfold posMeasure at hf; omega
          | succ m =>
            rw [parseChildrenF_not_truthy m ctx t S (-1) _
              (truthyAt_neg S (-1) (by omega))]
            simp
        · apply parseChildrenF_suff fuel ctx t S p _ hsc hst
          unfold posMeasure at hf ⊢
          omega

theorem parseNodeF_suff :
    ∀ (fuel : Nat) (ctx : Ctx) (S : Str) (pos : Int),
      hasInfix S (lit "script") = false → hasInfix S (lit "style") = false →
      0 ≤ pos →
      2 * posMeasure S pos + 3 ≤ fuel →
      parseNodeF fuel ctx S pos ≠ .oof
  | 0, ctx, S, pos => by
    intro _ _ _ hf
    exfalso
    omega
  | fuel + 1, ctx, S, pos => by
    intro hsc hst hp0 hf
    rw [parseNodeF]
    cases hname : parseName S (pos + 1) with
    | mk tagName p1 =>
      simp only [hname]
      have hp1 : pos + 1 ≤ p1 := parseName_le S (pos + 1) tagName p1 hname
      cases hal : attrLoopF fuel S p1 [] with
      | oof =>
        exact absurd hal (attrLoopF_suff S fuel p1 []
          (by unfold posMeasure at hf ⊢; omega))
      | ok attributes p2 early =>
        simp only [hal]
        rcases attrLoopF_ok S fuel p1 [] attributes p2 early hal with ⟨he, hq2⟩ | ⟨he, hq2⟩
        · rw [if_pos he]
          simp
        · rw [if_neg (by rw [he]; exact Bool.false_ne_true)]
          by_cases hsl : ¬ codeIs S (p2 - 1) '/' = true
          swap
          · rw [if_neg hsl]; simp
          rw [if_pos hsl]
          by_cases hscr : tagName = lit "script"
          · rw [if_pos hscr]
            cases hs : scriptResult S p2 with
            | mk children p3 => simp [hs]
          rw [if_neg hscr]
          by_cases hsty : tagName = lit "style"
          · rw [if_pos hsty]
            cases hs : styleResult S p2 with
            | mk children p3 => simp [hs]
          rw [if_neg hsty]
          by_cases hcont : ¬ ctx.selfClosing.contains tagName = true
          swap
          · rw [if_neg hcont]; simp
          rw [if_pos hcont]
          cases hch : parseChildrenF fuel ctx tagName S (p2 + 1) [] with
          | oof =>
            exfalso
            by_cases htr : truthyAt S (p2 + 1) = true
            · obtain ⟨hb0, hb1⟩ := truthyAt_bounds S (p2 + 1) htr
              exact absurd hch (parseChildrenF_suff fuel ctx tagName S (p2 + 1) [] hsc hst
                (by unfold posMeasure at hf ⊢; omega))
            · have hfalse : truthyAt S (p2 + 1) = false := Bool.eq_false_iff.mpr htr
              cases fuel with
              | zero => unfold posMeasure at hf; omega
              | succ m =>
                rw [parseChildrenF_not_truthy m ctx tagName S (p2 + 1) [] hfalse] at hch
                cases hch
          | err e2 => simp [hch]
          | ok r =>
            cases r with
            | mk children p3 => simp [hch]

end


/-! The `<script>ab<script>cd` divergence: the unterminated-script cursor
fix-up `indexOf("</script>") + 9` jumps the cursor backwards to 8, and the
scan revisits the same two states forever. -/

theorem scriptCycle_attr17 (g : Nat) :
    attrLoopF (g + 1) (lit "<script>ab<script>cd") 17 [] = .ok [] 17 false := by
  rw [attrLoopF]
  rw [if_neg (by decide)]

theorem scriptCycle_attr7 (g : Nat) :
    attrLoopF (g + 1) (lit "<script>ab<script>cd") 7 [] = .ok [] 7 false := by
  rw [attrLoopF]
  rw [if_neg (by decide)]

theorem scriptCycle_node10 (g : Nat) :
    parseNodeF (g + 2) dCtx (lit "<script>ab<script>cd") 10
      = .ok (Node.elem (lit "script") [] [Node.text (lit "c")], 8) := by
  rw [parseNodeF]
  simp [scriptCycle_attr17,
    show parseName (lit "<script>ab<script>cd") (10 + 1) = (lit "script", 17) from by decide,
    show parseName (lit "<script>ab<script>cd") 11 = (lit "script", 17) from by decide,
    show scriptResult (lit "<script>ab<script>cd") 17 = ([Node.text (lit "c")], 8)
      from by decide,
    show codeIs (lit "<script>ab<script>cd") (17 - 1) '/' = false from by decide,
    show codeIs (lit "<script>ab<script>cd") 16 '/' = false from by decide]

theorem scriptCycle_node0 (g : Nat) :
    parseNodeF (g + 2) dCtx (lit "<script>ab<script>cd") 0
      = .ok (Node.elem (lit "script") [] [Node.text (lit "ab<script>c")], 8) := by
  rw [parseNodeF]
  simp [scriptCycle_attr7,
    show parseName (lit "<script>ab<script>cd") (0 + 1) = (lit "script", 7) from by decide,
    show parseName (lit "<script>ab<script>cd") 1 = (lit "script", 7) from by decide,
    show scriptResult (lit "<script>ab<script>cd") 7
        = ([Node.text (lit "ab<script>c")], 8) from by decide,
    show codeIs (lit "<script>ab<script>cd") (7 - 1) '/' = false from by decide,
    show codeIs (lit "<script>ab<script>cd") 6 '/' = false from by decide]

theorem scriptCycle_step1 (f : Nat) (acc : List Node) :
    parseChildrenF (f + 1) dCtx [] (lit "<script>ab<script>cd") 8 acc
      = parseChildrenF f dCtx [] (lit "<script>ab<script>cd") 10
          (acc ++ [Node.text (lit "ab")]) := by
  rw [parseChildrenF]
  rw [if_pos (show truthyAt (lit "<script>ab<script>cd") 8 = true from by decide)]
  rw [if_neg (show ¬ codeIs (lit "<script>ab<script>cd") 8 '<' = true from by decide)]
  simp only [show parseText (lit "<script>ab<script>cd") 8 = (lit "ab", 9) from by decide]
  rw [if_neg (show ¬ dCtx.keepWhitespace = true from by decide)]
  rw [show jsTrim (lit "ab") = lit "ab" from by decide]
  rw [if_pos (show (lit "ab").length > 0 from by decide)]
  rw [show (9 : Int) + 1 = 10 from by decide]

theorem scriptCycle_low10 (acc : List Node) :
    parseChildrenF 1 dCtx [] (lit "<script>ab<script>cd") 10 acc = .oof ∧
    parseChildrenF 2 dCtx [] (lit "<script>ab<script>cd") 10 acc = .oof := by
  constructor
  · rw [parseChildrenF]
    rw [if_pos (by decide), if_pos (by decide), if_neg (by decide), if_neg (by decide)]
    rfl
  · rw [parseChildrenF]
    rw [if_pos (by decide), if_pos (by decide), if_neg (by decide), if_neg (by decide)]
    rfl

theorem scriptCycle_step2 (g : Nat) (acc : List Node) :
    parseChildrenF (g + 3) dCtx [] (lit "<script>ab<script>cd") 10 acc
      = parseChildrenF (g + 2) dCtx [] (lit "<script>ab<script>cd") 8
          (acc ++ [Node.elem (lit "script") [] [Node.text (lit "c")]]) := by
  rw [parseChildrenF]
  rw [if_pos (by decide), if_pos (by decide), if_neg (by decide), if_neg (by decide)]
  rw [scriptCycle_node10 g]
  simp [show (lit "script").head? = some 's' from rfl]

theorem scriptCycle (f : Nat) :
    ∀ (acc : List Node),
      parseChildrenF f dCtx [] (lit "<script>ab<script>cd") 8 acc = .oof := by
  induction f using Nat.strong_induction_on with
  | _ f ih =>
    intro acc
    rcases Nat.lt_or_ge f 4 with h4 | h4
    · interval_cases f
      · rfl
      · rw [scriptCycle_step1]; rfl
      · rw [scriptCycle_step1]; exact (scriptCycle_low10 _).1
      · rw [scriptCycle_step1]; exact (scriptCycle_low10 _).2
    · obtain ⟨g, rfl⟩ : ∃ g, f = g + 4 := ⟨f - 4, by omega⟩
      rw [scriptCycle_step1]
      rw [scriptCycle_step2]
      exact ih (g + 2) (by omega) _

theorem scriptCycle_top (f : Nat) :
    parseChildrenF f dCtx [] (lit "<script>ab<script>cd") 0 [] = .oof := by
  match f with
  | 0 => rfl
  | 1 => decide
  | 2 => decide
  | (g + 3) =>
    rw [parseChildrenF]
    rw [if_pos (by decide), if_pos (by decide), if_neg (by decide), if_neg (by decide)]
    rw [scriptCycle_node0 g]
    exact scriptCycle (g + 2) _

/-- Fuel exhaustion of the attribute-search branch surfaces as fuel
exhaustion of the whole `parse` call. -/
theorem parseTopF_attr_oof (fuel : Nat) (options : ParseOptions) (S av : Str)
    (hav : options.attrValue = some av)
    (h : attrModeLoopF fuel (ctxOf options)
      (match options.attrName with
       | some n => if n = [] then lit "id" else n
       | none => lit "id") av S [] = .oof) :
    parseTopF fuel options S = .oof := by
  unfold parseTopF
  simp only [hav]
  rw [h]

/-- Fuel exhaustion of the children scan surfaces as fuel exhaustion of the
whole `parse` call. -/
theorem parseTopF_children_oof (fuel : Nat) (options : ParseOptions) (S : Str)
    (hav : options.attrValue = none) (hpn : options.parseNode = false)
    (h : parseChildrenF fuel (ctxOf options) [] S (options.pos.getD 0) [] = .oof) :
    parseTopF fuel options S = .oof := by
  unfold parseTopF
  simp only [hav]
  rw [if_neg (by rw [hpn]; exact Bool.false_ne_true)]
  rw [h]

/-- C10, counterexample: `parse` does not terminate on every input and
option combination, and the attribute-search loop does not make progress on
every iteration.  With `attrValue` set, on the working text ` id="x"` the
search matches at index 0, there is no preceding `<`, and
`S = S.substring(-1)` leaves the state unchanged, so the loop spins: the
parse exhausts any amount of fuel.  Even with no options, the input
`<script>ab<script>cd` diverges: the unterminated-script fix-up
`indexOf("</script>") + 9` sends the cursor back from 10 to 8 forever. -/
theorem c10_counterexample :
    (∀ (fuel : Nat),
      parseTopF fuel { dOpts with attrValue := some (lit "x") } (lit " id=\"x\"") = .oof) ∧
    (∀ (fuel : Nat), parseTopF fuel dOpts (lit "<script>ab<script>cd") = .oof) := by
  constructor
  · intro fuel
    exact parseTopF_attr_oof fuel _ _ (lit "x") rfl (c10_stuck_attr fuel [])
  · intro fuel
    exact parseTopF_children_oof fuel dOpts _ rfl rfl (scriptCycle_top fuel)


theorem firstAttrMatchAux_some (an av S : Str) :
    ∀ (fuel start i : Nat), firstAttrMatchAux an av S fuel start = some i →
      matchAttrAt an av S i = true := by
  intro fuel
  induction fuel with
  | zero => intro start i h; cases h
  | succ n ih =>
    intro start i h
    rw [firstAttrMatchAux] at h
    split at h
    · split at h
      · rename_i hm
        injection h with h
        subst h
        exact hm
      · exact ih (start + 1) i h
    · cases h

theorem matchAttrAt_lt (an av S : Str) (i : Nat) (h : matchAttrAt an av S i = true) :
    i < S.length := by
  unfold matchAttrAt at h
  cases hg : S.get? i with
  | none => rw [hg] at h; cases h
  | some c =>
    by_contra hge
    rw [List.get?_eq_none.mpr (by omega)] at hg
    cases hg

theorem findElements_ranges (an av S : Str) (h : findElements an av S ≠ -1) :
    0 ≤ findElements an av S ∧ (findElements an av S).toNat < S.length ∧
      1 ≤ S.length := by
  unfold findElements at h ⊢
  by_cases hemp : (an = [] ∨ av = [])
  · rw [if_pos hemp] at h
    exact absurd rfl h
  · rw [if_neg hemp] at h ⊢
    cases hm : firstAttrMatch an av S 0 with
    | none => rw [hm] at h; exact absurd rfl h
    | some i =>
      have hmm := firstAttrMatchAux_some an av S _ 0 i hm
      have hlt := matchAttrAt_lt an av S i hmm
      show 0 ≤ (i : Int) ∧ ((i : Int)).toNat < S.length ∧ 1 ≤ S.length
      refine ⟨by omega, by omega, by omega⟩

theorem jsSubstringFrom_length_lt (S : Str) (p : Int) (hp : 1 ≤ p)
    (hS : 1 ≤ S.length) : (jsSubstringFrom S p).length < S.length := by
  unfold jsSubstringFrom jsSubstring
  simp only [List.length_drop, List.length_take]
  omega

/-- C10, amended: `parse` terminates — with fuel linear in the input length —
whenever `attrValue` is unset, the start position is non-negative, and the
input contains neither `script` nor `style` (the verbatim-capture fix-up can
move the cursor backwards); in the attribute-search loop (entered whenever
`attrValue` is set), an iteration whose regex match has a preceding `<` and
whose single-node parse ends at a positive cursor strictly shrinks the
working text, but an iteration whose match has no preceding `<` leaves the
loop state completely unchanged (because `S.substring(-1)` is `S`), so the
loop does not make progress on every iteration. -/
theorem c10_amended :
    (∀ (S : Str) (options : ParseOptions) (fuel : Nat),
      options.attrValue = none →
      0 ≤ options.pos.getD 0 →
      hasInfix S (lit "script") = false →
      hasInfix S (lit "style") = false →
      2 * S.length + 7 ≤ fuel →
      parseTopF fuel options S ≠ .oof) ∧
    (∀ (fuel : Nat) (ctx : Ctx) (an av S : Str) (out : List Node) (node : Node)
        (p : Int),
      findElements an av S ≠ -1 →
      jsLastIndexOf S (lit "<") (findElements an av S) ≠ -1 →
      parseNodeF fuel ctx S (jsLastIndexOf S (lit "<") (findElements an av S))
        = .ok (node, p) →
      attrModeLoopF (fuel + 1) ctx an av S out
        = attrModeLoopF fuel ctx an av (jsSubstringFrom S p) (out ++ [node]) ∧
      (1 ≤ p → (jsSubstringFrom S p).length < S.length)) ∧
    (∀ (fuel : Nat) (ctx : Ctx) (an av S : Str) (out : List Node),
      findElements an av S ≠ -1 →
      jsLastIndexOf S (lit "<") (findElements an av S) = -1 →
      attrModeLoopF (fuel + 1) ctx an av S out
        = attrModeLoopF fuel ctx an av S out) := by
  refine ⟨?_, ?_, ?_⟩
  · intro S options fuel hav hpos hsc hst hfuel
    unfold parseTopF
    simp only [hav]
    split
    · cases hpn : parseNodeF fuel (ctxOf options) S (options.pos.getD 0) with
      | oof =>
        exact absurd hpn (parseNodeF_suff fuel (ctxOf options) S _ hsc hst hpos
          (by unfold posMeasure; omega))
      | err e => simp [hpn]
      | ok r =>
        rcases r with ⟨n, p⟩
        simp only [hpn]
        split <;> simp
    · cases hpc : parseChildrenF fuel (ctxOf options) [] S (options.pos.getD 0) [] with
      | oof =>
        exact absurd hpc (parseChildrenF_suff fuel (ctxOf options) [] S _ [] hsc hst
          (by unfold posMeasure; omega))
      | err e => simp [hpc]
      | ok r =>
        rcases r with ⟨l, p⟩
        simp only [hpc]
        split <;> simp
  · intro fuel ctx an av S out node p hfind hlast hpn
    constructor
    · rw [attrModeLoopF]
      rw [if_neg hfind]
      rw [if_pos hlast]
      rw [hpn]
    · intro hp1
      obtain ⟨-, -, hS1⟩ := findElements_ranges an av S hfind
      exact jsSubstringFrom_length_lt S p hp1 hS1
  · intro fuel ctx an av S out hfind hlast
    rw [attrModeLoopF]
    rw [if_neg hfind]
    rw [if_neg (by simp [hlast])]
    rw [hlast, jsSubstringFrom_neg_one]

/-- C10 witness: the amended statement at concrete inputs — `<a>hi</a>`
parses with linear fuel; one attribute-search iteration on
`<a id="x"></a>` (match at 2, preceding `<` at 0, node ends at 14) shrinks
the working text; one iteration on ` id="x"` (match at 0, no preceding `<`)
leaves the state unchanged. -/
theorem c10_amended_witness :
    parseTopF 25 dOpts (lit "<a>hi</a>") ≠ .oof ∧
    (attrModeLoopF 6 dCtx (lit "id") (lit "x") (lit "<a id=\"x\"></a>") []
        = attrModeLoopF 5 dCtx (lit "id") (lit "x")
            (jsSubstringFrom (lit "<a id=\"x\"></a>") 14)
            [Node.elem (lit "a") [(lit "id", some (lit "x"))] []] ∧
      (jsSubstringFrom (lit "<a id=\"x\"></a>") 14).length
        < (lit "<a id=\"x\"></a>").length) ∧
    attrModeLoopF 1 dCtx (lit "id") (lit "x") (lit " id=\"x\"") []
      = attrModeLoopF 0 dCtx (lit "id") (lit "x") (lit " id=\"x\"") [] := by
  refine ⟨?_, ?_, ?_⟩
  · exact c10_amended.1 (lit "<a>hi</a>") dOpts 25 rfl (by decide) (by decide)
      (by decide) (by decide)
  · have h := c10_amended.2.1 5 dCtx (lit "id") (lit "x") (lit "<a id=\"x\"></a>") []
      (Node.elem (lit "a") [(lit "id", some (lit "x"))] []) 14 (by decide) (by decide)
      (by decide)
    exact ⟨h.1, h.2 (by decide)⟩
  · exact c10_amended.2.2 0 dCtx (lit "id") (lit "x") (lit " id=\"x\"") [] (by decide)
      (by decide)


/-! ## Drop-form scanning toolkit: each step lemma consumes a description
`S.drop a = segment ++ rest` of the text at the cursor. -/

theorem get?_lt (S : Str) (n : Nat) (c : Char) (h : S.get? n = some c) :
    n < S.length := by
  by_contra hge
  rw [List.get?_eq_none.mpr (by omega)] at h
  cases h

theorem mem_of_get? (l : Str) (i : Nat) (c : Char) (h : l.get? i = some c) :
    c ∈ l := by
  rw [List.get?_eq_getElem?] at h
  exact List.getElem?_mem h

theorem drop_of_drop_cons (S : Str) (a : Nat) (c : Char) (X : Str)
    (h : S.drop a = c :: X) : S.drop (a + 1) = X := by
  have h2 := congrArg (List.drop 1) h
  rw [List.drop_drop] at h2
  simpa using h2

theorem drop_of_drop_append (S : Str) (a : Nat) (X R : Str)
    (h : S.drop a = X ++ R) : S.drop (a + X.length) = R := by
  have h2 := congrArg (List.drop X.length) h
  rw [List.drop_drop] at h2
  rw [List.drop_left] at h2
  exact h2

theorem get?_of_drop (S : Str) (a : Nat) (c : Char) (X : Str)
    (h : S.drop a = c :: X) : S.get? a = some c := by
  have h2 := List.getElem?_drop S a 0
  rw [h] at h2
  simp at h2
  rw [List.get?_eq_getElem?, ← h2]

theorem getC_at (S : Str) (n : Nat) : getC S (n : Int) = S.get? n := by
  unfold getC
  rw [if_pos (Int.natCast_nonneg n)]
  norm_num

theorem get?_in_seg (S : Str) (a : Nat) (X R : Str) (i : Nat) (hi : i < X.length)
    (h : S.drop a = X ++ R) : S.get? (a + i) = X.get? i := by
  have h2 := List.getElem?_drop S a i
  rw [h] at h2
  rw [List.getElem?_append_left hi] at h2
  rw [List.get?_eq_getElem?, List.get?_eq_getElem?]
  exact h2.symm

theorem matchAtB_single_of (S : Str) (c : Char) (k : Nat) (h : S.get? k = some c) :
    matchAtB S [c] k = true := by
  unfold matchAtB
  rw [drop_cons_of_get? S k c h]
  simp [List.isPrefixOf]

theorem ne_of_nameEnd (t : Str)
    (ht : t.all (fun c => !(nameEndChars.contains c)) = true)
    (c : Char) (hc : c ∈ t) (x : Char) (hx : nameEndChars.contains x = true) :
    c ≠ x := by
  intro he
  subst he
  have hcc := List.all_eq_true.mp ht c hc
  simp only [Bool.not_eq_true'] at hcc
  rw [hcc] at hx
  cases hx

theorem takeWhile_all_append (p : Char → Bool) (l r : Str) (h : l.all p = true) :
    (l ++ r).takeWhile p = l ++ r.takeWhile p := by
  induction l with
  | nil => rfl
  | cons c cs ih =>
    simp only [List.all_cons, Bool.and_eq_true] at h
    rw [List.cons_append, List.takeWhile_cons, if_pos h.1, ih h.2]
    rfl

theorem findFromAux_first (S : Str) (c : Char) (m : Nat) (hm : S.get? m = some c) :
    ∀ (fuel start : Nat), start ≤ m → m < start + fuel →
      (∀ j, start ≤ j → j < m → S.get? j ≠ some c) →
      findFromAux S [c] fuel start = some m := by
  have hmlt : m < S.length := get?_lt S m c hm
  intro fuel
  induction fuel with
  | zero => intro start h1 h2 _; omega
  | succ n ih =>
    intro start h1 h2 hno
    rw [findFromAux]
    rw [if_pos (by simp only [List.length_cons, List.length_nil]; omega)]
    by_cases he : start = m
    · subst he
      rw [if_pos (show ([c].isPrefixOf (S.drop start)) = true from
        matchAtB_single_of S c start hm)]
    · rw [if_neg (fun hp : ([c].isPrefixOf (S.drop start)) = true =>
        hno start le_rfl (by omega) (matchAtB_single S c start hp))]
      exact ih (start + 1) (by omega) (by omega) (fun j hj1 hj2 => hno j (by omega) hj2)

theorem jsIndexOf_first (S : Str) (c : Char) (n m : Nat) (hnm : n ≤ m)
    (hm : S.get? m = some c)
    (hno : ∀ j, n ≤ j → j < m → S.get? j ≠ some c) :
    jsIndexOf S [c] (n : Int) = (m : Int) := by
  have hmlt : m < S.length := get?_lt S m c hm
  unfold jsIndexOf findFrom
  rw [show (max (n : Int) 0).toNat = n from by omega]
  rw [findFromAux_first S c m hm (S.length + 1 - n) n hnm (by omega) hno]

theorem findFromAux_none (S : Str) (c : Char) (a : Nat)
    (h : ∀ j, a ≤ j → S.get? j ≠ some c) :
    ∀ (fuel start : Nat), a ≤ start → findFromAux S [c] fuel start = none := by
  intro fuel
  induction fuel with
  | zero => intro start _; rfl
  | succ n ih =>
    intro start hs
    rw [findFromAux]
    split
    · rw [if_neg (fun hp : ([c].isPrefixOf (S.drop start)) = true =>
        h start hs (matchAtB_single S c start hp))]
      exact ih (start + 1) (by omega)
    · rfl

theorem jsIndexOf_none_seg (S : Str) (a : Nat) (c : Char)
    (h : ∀ j, a ≤ j → S.get? j ≠ some c) :
    jsIndexOf S [c] (a : Int) = -1 := by
  unfold jsIndexOf findFrom
  rw [show (max (a : Int) 0).toNat = a from by omega]
  rw [findFromAux_none S c a h (S.length + 1 - a) a le_rfl]

theorem jsIndexOf_seg (S : Str) (a : Nat) (X : Str) (c : Char) (R : Str)
    (h : S.drop a = X ++ c :: R) (hX : ∀ ch ∈ X, ch ≠ c) :
    jsIndexOf S [c] (a : Int) = ((a + X.length : Nat) : Int) := by
  apply jsIndexOf_first S c a (a + X.length) (by omega)
  · exact get?_of_drop S _ c R (drop_of_drop_append S a X (c :: R) h)
  · intro j hj1 hj2
    have hi : j - a < X.length := by omega
    have hjs := get?_in_seg S a X (c :: R) (j - a) hi h
    rw [show a + (j - a) = j from by omega] at hjs
    rw [hjs]
    intro hsome
    exact hX c (mem_of_get? X _ _ hsome) rfl

theorem includesStr_self (t : Str) : includesStr t t = true := by
  unfold includesStr findFrom
  simp only [Nat.sub_zero]
  cases t with
  | nil => decide
  | cons c cs =>
    rw [findFromAux]
    rw [if_pos (by simp)]
    rw [if_pos (show ((c :: cs).isPrefixOf (List.drop 0 (c :: cs))) = true from
      List.isPrefixOf_iff_prefix.mpr (by simp))]
    rfl

theorem recSet_fresh (m : List (Str × Option Str)) (k : Str) (v : Option Str)
    (h : ∀ b ∈ m, b.1 ≠ k) : recSet m k v = m ++ [(k, v)] := by
  induction m with
  | nil => rfl
  | cons a rest ih =>
    rcases a with ⟨k', v'⟩
    rw [recSet]
    rw [if_neg (h (k', v') (by simp))]
    rw [ih (fun b hb => h b (by simp [hb]))]
    rfl


theorem jsSlice_seg_app (P X R : Str) :
    jsSlice (P ++ X ++ R) (P.length : Int) ((P.length : Int) + X.length) = X := by
  simp only [jsSlice]
  have h1 : ¬ ((P.length : Int) < 0) := by omega
  have h2 : ¬ ((P.length : Int) + X.length < 0) := by omega
  have hlen : (P.length : Int) + X.length ≤ (((P ++ X ++ R).length : Nat) : Int) := by
    simp only [List.length_append, Nat.cast_add]
    omega
  have hlen2 : (P.length : Int) ≤ (((P ++ X ++ R).length : Nat) : Int) := by
    simp only [List.length_append, Nat.cast_add]
    omega
  rw [if_neg h2, if_neg h1, min_eq_left hlen, min_eq_left hlen2]
  have e1 : ((P.length : Int) + X.length).toNat = P.length + X.length := by omega
  have e2 : (((P.length : Int))).toNat = P.length := by omega
  rw [e1, e2]
  rw [List.take_left' (show (P ++ X).length = P.length + X.length by simp)]
  exact List.drop_left P X

theorem jsSubstring_seg_app (P X R : Str) :
    jsSubstring (P ++ X ++ R) (P.length : Int) ((P.length : Int) + X.length) = X := by
  simp only [jsSubstring]
  have hlen : (P.length : Int) + X.length ≤ (((P ++ X ++ R).length : Nat) : Int) := by
    simp only [List.length_append, Nat.cast_add]
    omega
  have hlen2 : (P.length : Int) ≤ (((P ++ X ++ R).length : Nat) : Int) := by
    simp only [List.length_append, Nat.cast_add]
    omega
  rw [max_eq_left (by omega : (0 : Int) ≤ (P.length : Int))]
  rw [max_eq_left (by omega : (0 : Int) ≤ (P.length : Int) + X.length)]
  rw [min_eq_left hlen2, min_eq_left hlen]
  rw [max_eq_right (by omega : (P.length : Int) ≤ (P.length : Int) + X.length)]
  rw [min_eq_left (by omega : (P.length : Int) ≤ (P.length : Int) + X.length)]
  have e1 : ((P.length : Int) + X.length).toNat = P.length + X.length := by omega
  have e2 : (((P.length : Int))).toNat = P.length := by omega
  rw [e1, e2]
  rw [List.take_left' (show (P ++ X).length = P.length + X.length by simp)]
  exact List.drop_left P X

theorem take_drop_of_drop (S : Str) (a : Nat) (X R : Str) (h : S.drop a = X ++ R)
    (ha : a ≤ S.length) : S = S.take a ++ X ++ R ∧ (S.take a).length = a := by
  constructor
  · conv_lhs => rw [← List.take_append_drop a S]
    rw [h, List.append_assoc]
  · rw [List.length_take]
    omega

theorem jsSlice_seg (S : Str) (a : Nat) (X R : Str) (h : S.drop a = X ++ R)
    (ha : a ≤ S.length) :
    jsSlice S (a : Int) ((a : Int) + X.length) = X := by
  obtain ⟨hS, hlen⟩ := take_drop_of_drop S a X R h ha
  have key := jsSlice_seg_app (S.take a) X R
  rw [hlen] at key
  rw [hS]
  exact key

theorem jsSubstring_seg (S : Str) (a : Nat) (X R : Str) (h : S.drop a = X ++ R)
    (ha : a ≤ S.length) :
    jsSubstring S (a : Int) ((a : Int) + X.length) = X := by
  obtain ⟨hS, hlen⟩ := take_drop_of_drop S a X R h ha
  have key := jsSubstring_seg_app (S.take a) X R
  rw [hlen] at key
  rw [hS]
  exact key

theorem jsSlice_end (S : Str) (a : Nat) (X : Str) (h : S.drop a = X) :
    jsSlice S (a : Int) ((S.length : Int) + 1) = X := by
  simp only [jsSlice]
  rw [if_neg (by omega : ¬ ((S.length : Int) + 1 < 0))]
  rw [if_neg (by omega : ¬ ((a : Int) < 0))]
  rw [min_eq_right (by omega : (S.length : Int) ≤ (S.length : Int) + 1)]
  by_cases ha : a ≤ S.length
  · rw [min_eq_left (by omega : (a : Int) ≤ (S.length : Int))]
    have e1 : ((S.length : Int)).toNat = S.length := by omega
    have e2 : (((a : Int))).toNat = a := by omega
    rw [e1, e2, List.take_length]
    exact h
  · rw [min_eq_right (by omega : (S.length : Int) ≤ (a : Int))]
    have e1 : ((S.length : Int)).toNat = S.length := by omega
    rw [e1, List.take_length, List.drop_length]
    rw [List.drop_eq_nil_of_le (by omega)] at h
    exact h

theorem parseName_render (S : Str) (a : Nat) (k R : Str)
    (h : S.drop a = k ++ R)
    (hk : k.all (fun c => !(nameEndChars.contains c)) = true)
    (hR : ∀ c, R.head? = some c → nameEndChars.contains c = true) :
    parseName S (a : Int) = (k, (a : Int) + k.length) := by
  simp only [parseName]
  rw [if_pos (Int.natCast_nonneg a)]
  rw [show (((a : Int))).toNat = a from by omega]
  rw [h]
  rw [takeWhile_all_append _ k R hk]
  have hRt : R.takeWhile (fun c => !(nameEndChars.contains c)) = [] := by
    cases R with
    | nil => rfl
    | cons c cs =>
      rw [List.takeWhile_cons]
      rw [if_neg (by rw [hR c rfl]; simp)]
  rw [hRt, List.append_nil]

theorem parseText_render (S : Str) (a : Nat) (s R : Str)
    (h : S.drop a = s ++ '<' :: R)
    (hs : ∀ ch ∈ s, ch ≠ '<') :
    parseText S (a : Int) = (s, (a : Int) + s.length - 1) := by
  have ha : a ≤ S.length := by
    have := get?_of_drop S (a + s.length) '<' R (drop_of_drop_append S a s _ h)
    have := get?_lt S _ _ this
    omega
  simp only [parseText]
  rw [show lit "<" = ['<'] from rfl]
  rw [jsIndexOf_seg S a s '<' R h hs]
  rw [if_neg (by omega : ¬ (((a + s.length : Nat) : Int) - 1 = -2))]
  have e3 : ((a + s.length : Nat) : Int) - 1 + 1 = (a : Int) + s.length := by
    push_cast
    ring
  rw [e3]
  rw [jsSlice_seg S a s ('<' :: R) h ha]
  refine congrArg (Prod.mk s) ?_
  push_cast
  ring

theorem parseText_end (S : Str) (a : Nat) (s : Str)
    (h : S.drop a = s)
    (hs : ∀ ch ∈ s, ch ≠ '<') :
    parseText S (a : Int) = (s, (S.length : Int)) := by
  simp only [parseText]
  have hio : jsIndexOf S ['<'] (a : Int) = -1 := by
    apply jsIndexOf_none_seg
    intro j hj hsome
    have h2 := List.getElem?_drop S a (j - a)
    rw [h] at h2
    rw [show a + (j - a) = j from by omega] at h2
    rw [List.get?_eq_getElem?, ← h2] at hsome
    exact hs '<' (List.getElem?_mem hsome) rfl
  rw [show lit "<" = ['<'] from rfl]
  rw [hio]
  rw [if_pos (by decide : (-1 : Int) - 1 = -2)]
  rw [jsSlice_end S a s h]

theorem closeTagResult_render (S : Str) (a : Nat) (t R : Str)
    (h : S.drop a = lit "</" ++ t ++ '>' :: R)
    (ht : t.all (fun c => !(nameEndChars.contains c)) = true) :
    closeTagResult S (a : Int) t = Except.ok ((a : Int) + t.length + 3) := by
  have hseg : S.drop a = (lit "</" ++ t) ++ '>' :: R := by
    rw [h, List.append_assoc]
  have hd2 : S.drop (a + 2) = t ++ '>' :: R := by
    have h2 := drop_of_drop_append S a (lit "</") (t ++ '>' :: R) h
    rw [show (lit "</").length = 2 from rfl] at h2
    exact h2
  have hgt := get?_of_drop S (a + 2 + t.length) '>' R
    (drop_of_drop_append S (a + 2) t _ hd2)
  have hrange : a + 2 ≤ S.length := by
    have := get?_lt S _ _ hgt
    omega
  have hio : jsIndexOf S ['>'] (a : Int) = ((a + (2 + t.length) : Nat) : Int) := by
    have key := jsIndexOf_seg S a (lit "</" ++ t) '>' R hseg ?_
    · rw [show (lit "</" ++ t).length = 2 + t.length from by simp [lit]; omega] at key
      exact key
    · intro ch hch
      rcases List.mem_append.mp hch with hch | hch
      · simp only [lit, List.mem_cons, List.not_mem_nil, or_false] at hch
        rcases hch with rfl | rfl <;> decide
      · exact ne_of_nameEnd t ht ch hch '>' (by decide)
  have hsub : jsSubstring S ((a : Int) + 2) (((a + (2 + t.length) : Nat)) : Int)
      = t := by
    have key := jsSubstring_seg S (a + 2) t ('>' :: R) hd2 hrange
    have e2 : (((a + 2 : Nat)) : Int) + (t.length : Int)
        = ((a + (2 + t.length) : Nat) : Int) := by
      push_cast
      ring
    rw [e2] at key
    have e1 : (((a + 2 : Nat)) : Int) = (a : Int) + 2 := by
      push_cast
      ring
    rw [e1] at key
    exact key
  simp only [closeTagResult]
  rw [show lit ">" = ['>'] from rfl]
  rw [hio, hsub]
  rw [if_pos (includesStr_self t)]
  rw [if_pos (by omega : ¬ (((a + (2 + t.length) : Nat) : Int) + 1 = 0))]
  refine congrArg Except.ok ?_
  push_cast
  ring


theorem isLetter_facts (c : Char) (h : isLetterCode c = true) :
    c ≠ '\x00' ∧ c ≠ '\'' ∧ c ≠ '"' ∧ c ≠ '>' ∧ c ≠ '=' ∧ c ≠ ' ' := by
  refine ⟨?_, ?_, ?_, ?_, ?_, ?_⟩ <;>
    (intro he; subst he; exact absurd h (by decide))

theorem head_facts (S : Str) (a : Nat) (c : Char) (X : Str)
    (h : S.drop a = c :: X) :
    getC S (a : Int) = some c ∧ truthyAt S (a : Int) = true ∧
    (∀ d, codeIs S (a : Int) d = (c == d)) ∧
    letterAt S (a : Int) = isLetterCode c ∧
    codeTruthy S (a : Int) = (c != '\x00') := by
  have hg : getC S (a : Int) = some c := by
    rw [getC_at]
    exact get?_of_drop S a c X h
  refine ⟨hg, ?_, ?_, ?_, ?_⟩
  · unfold truthyAt
    rw [hg]
    rfl
  · intro d
    unfold codeIs
    rw [hg]
    rfl
  · unfold letterAt
    rw [hg]
  · unfold codeTruthy
    rw [hg]

theorem wfName_props (t : Str) (h : wfName t = true) :
    t ≠ [] ∧ t.head? ≠ some '!' ∧ t.head? ≠ some '?' ∧
    t.all (fun c => !(nameEndChars.contains c)) = true ∧
    defaultSelfClosing.contains t = false ∧ t ≠ lit "script" ∧ t ≠ lit "style" := by
  simp only [wfName, Bool.and_eq_true] at h
  obtain ⟨⟨⟨⟨⟨⟨h1, h2⟩, h3⟩, h4⟩, h5⟩, h6⟩, h7⟩ := h
  refine ⟨?_, bne_iff_ne.mp h2, bne_iff_ne.mp h3, h4,
    by rw [Bool.not_eq_true'] at h5; exact h5, bne_iff_ne.mp h6, bne_iff_ne.mp h7⟩
  intro he
  rw [he] at h1
  simp at h1

theorem wfAttrName_props (k : Str) (h : wfAttrName k = true) :
    k ≠ [] ∧ (∀ c X, k = c :: X → isLetterCode c = true) ∧
    k.all (fun c => !(nameEndChars.contains c)) = true := by
  simp only [wfAttrName, Bool.and_eq_true] at h
  obtain ⟨h1, h2⟩ := h
  refine ⟨?_, ?_, h2⟩
  · intro he
    rw [he] at h1
    simp at h1
  · intro c X he
    rw [he] at h1
    simpa using h1

theorem wfText_props (s : Str) (h : wfText s = true) :
    s ≠ [] ∧ jsTrim s = s ∧ (∀ ch ∈ s, ch ≠ '<') := by
  simp only [wfText, Bool.and_eq_true] at h
  obtain ⟨⟨h1, h2⟩, h3⟩ := h
  refine ⟨?_, ?_, ?_⟩
  · intro he
    rw [he] at h1
    simp at h1
  · exact eq_of_beq h2
  · intro ch hch he
    subst he
    rw [Bool.not_eq_true'] at h3
    unfold List.contains at h3
    rw [List.elem_eq_true_of_mem hch] at h3
    cases h3

theorem nodupKeys_cons (k : Str) (v : Option Str) (rest : List (Str × Option Str))
    (h : nodupKeys ((k, v) :: rest) = true) :
    (∀ b ∈ rest, b.1 ≠ k) ∧ nodupKeys rest = true := by
  simp only [nodupKeys, Bool.and_eq_true, Bool.not_eq_true'] at h
  refine ⟨?_, h.2⟩
  intro b hb he
  have hbk := (List.any_eq_false.mp h.1) b hb
  rw [he] at hbk
  simp at hbk

theorem wfL_parts (a : Node) (rest : List Node) (h : wfL (a :: rest) = true) :
    wfN a = true ∧ wfL rest = true ∧
    (∀ b rest2, rest = b :: rest2 → (isTextN a && isTextN b) = false) := by
  cases rest with
  | nil =>
    refine ⟨h, rfl, ?_⟩
    intro b rest2 he
    cases he
  | cons b r2 =>
    rw [show wfL (a :: b :: r2) = (wfN a && !(isTextN a && isTextN b) && wfL (b :: r2))
      from rfl] at h
    simp only [Bool.and_eq_true, Bool.not_eq_true'] at h
    refine ⟨h.1.1, h.2, ?_⟩
    intro b' rest2' he
    injection he with he1 he2
    subst he1
    exact h.1.2

theorem renderAttrs_cons_sp (x : Str × Option Str) (rest : List (Str × Option Str)) :
    ∃ u, renderAttrs (x :: rest) = ' ' :: u := by
  rcases x with ⟨k, v⟩
  cases v with
  | none => exact ⟨k ++ renderAttrs rest, rfl⟩
  | some v =>
    by_cases hv : v.contains '"' = true
    · refine ⟨k ++ lit "='" ++ v ++ lit "'" ++ renderAttrs rest, ?_⟩
      simp only [renderAttrs, if_pos hv]
      simp
    · refine ⟨k ++ lit "=\"" ++ v ++ lit "\"" ++ renderAttrs rest, ?_⟩
      simp only [renderAttrs, if_neg hv]
      simp

theorem renderAttrs_last (attrs : List (Str × Option Str))
    (hwf : attrs.all wfAttr = true) (hne : attrs ≠ []) :
    ∃ u c, renderAttrs attrs = u ++ [c] ∧ c ≠ '/' := by
  induction attrs with
  | nil => exact absurd rfl hne
  | cons x rest ih =>
    simp only [List.all_cons, Bool.and_eq_true] at hwf
    cases rest with
    | cons y r2 =>
      obtain ⟨u, c, hu, hc⟩ := ih hwf.2 (by simp)
      rcases x with ⟨k, v⟩
      cases v with
      | none =>
        refine ⟨' ' :: (k ++ u), c, ?_, hc⟩
        rw [show renderAttrs ((k, none) :: y :: r2)
          = ' ' :: k ++ renderAttrs (y :: r2) from rfl]
        rw [hu]
        simp
      | some v =>
        by_cases hv : v.contains '"' = true
        · refine ⟨(' ' :: k ++ lit "='" ++ v ++ lit "'") ++ u, c, ?_, hc⟩
          rw [show renderAttrs ((k, some v) :: y :: r2)
            = (if v.contains '"' then ' ' :: k ++ lit "='" ++ v ++ lit "'"
               else ' ' :: k ++ lit "=\"" ++ v ++ lit "\"") ++ renderAttrs (y :: r2)
            from rfl]
          rw [if_pos hv, hu]
          simp
        · refine ⟨(' ' :: k ++ lit "=\"" ++ v ++ lit "\"") ++ u, c, ?_, hc⟩
          rw [show renderAttrs ((k, some v) :: y :: r2)
            = (if v.contains '"' then ' ' :: k ++ lit "='" ++ v ++ lit "'"
               else ' ' :: k ++ lit "=\"" ++ v ++ lit "\"") ++ renderAttrs (y :: r2)
            from rfl]
          rw [if_neg hv, hu]
          simp
    | nil =>
      rcases x with ⟨k, v⟩
      cases v with
      | none =>
        have hk := wfAttrName_props k (by simpa [wfAttr] using hwf.1)
        obtain ⟨u', c', huc⟩ := (List.eq_nil_or_concat k).resolve_left hk.1
        refine ⟨' ' :: u', c', ?_, ?_⟩
        · rw [show renderAttrs [(k, none)] = ' ' :: k ++ [] from rfl, huc]
          simp
        · exact ne_of_nameEnd k hk.2.2 c' (by rw [huc]; simp) '/' (by decide)
      | some v =>
        by_cases hv : v.contains '"' = true
        · refine ⟨' ' :: k ++ lit "='" ++ v, '\'', ?_, by decide⟩
          rw [show renderAttrs [(k, some v)]
            = (if v.contains '"' then ' ' :: k ++ lit "='" ++ v ++ lit "'"
               else ' ' :: k ++ lit "=\"" ++ v ++ lit "\"") ++ [] from rfl]
          rw [if_pos hv]
          simp [lit]
        · refine ⟨' ' :: k ++ lit "=\"" ++ v, '"', ?_, by decide⟩
          rw [show renderAttrs [(k, some v)]
            = (if v.contains '"' then ' ' :: k ++ lit "='" ++ v ++ lit "'"
               else ' ' :: k ++ lit "=\"" ++ v ++ lit "\"") ++ [] from rfl]
          rw [if_neg hv]
          simp [lit]


theorem wfAttr_some (k : Str) (v : Str) (h : wfAttr (k, some v) = true) :
    wfAttrName k = true ∧ jsTrim v = v ∧
    (v.contains '"' = true → ∀ ch ∈ v, ch ≠ '\'') ∧
    (v.contains '"' = false → ∀ ch ∈ v, ch ≠ '"') := by
  simp only [wfAttr, Bool.and_eq_true] at h
  obtain ⟨⟨h1, h2⟩, h3⟩ := h
  refine ⟨h1, eq_of_beq h2, ?_, ?_⟩
  · intro hv ch hch he
    rw [if_pos hv, Bool.not_eq_true'] at h3
    subst he
    unfold List.contains at h3
    rw [List.elem_eq_true_of_mem hch] at h3
    cases h3
  · intro hv ch hch he
    subst he
    unfold List.contains at hv
    rw [List.elem_eq_true_of_mem hch] at hv
    cases hv

theorem parseString_render (S : Str) (b2 : Nat) (q : Char) (v R : Str)
    (h : S.drop b2 = q :: (v ++ q :: R)) (hv : ∀ ch ∈ v, ch ≠ q) :
    parseString S (b2 : Int) = (v, ((b2 + 1 + v.length : Nat) : Int)) := by
  simp only [parseString]
  rw [getC_at, get?_of_drop S b2 q _ h]
  have hd1 : S.drop (b2 + 1) = v ++ q :: R := drop_of_drop_cons S b2 q _ h
  have hio := jsIndexOf_seg S (b2 + 1) v q R hd1 hv
  have ha : b2 + 1 ≤ S.length := by
    have := get?_of_drop S (b2 + 1 + v.length) q R
      (drop_of_drop_append S (b2 + 1) v _ hd1)
    have := get?_lt S _ _ this
    omega
  rw [show ((b2 : Int)) + 1 = ((b2 + 1 : Nat) : Int) from by push_cast; ring]
  rw [hio]
  rw [show ((b2 + 1 + v.length : Nat) : Int) = ((b2 + 1 : Nat) : Int) + (v.length : Int)
    from by push_cast; ring]
  rw [jsSlice_seg S (b2 + 1) v (q :: R) hd1 ha]


theorem skipAttrSepF_stop (S : Str) (f : Nat) (p : Int)
    (h : ¬(codeTruthy S p = true ∧ ¬codeIs S p '\'' = true ∧ ¬codeIs S p '"' = true ∧
      ¬letterAt S p = true ∧ ¬codeIs S p '>' = true)) :
    skipAttrSepF (f + 1) S p = some p := by
  rw [skipAttrSepF, if_neg h]

theorem skipAttrSepF_go (S : Str) (f : Nat) (p : Int)
    (h : codeTruthy S p = true ∧ ¬codeIs S p '\'' = true ∧ ¬codeIs S p '"' = true ∧
      ¬letterAt S p = true ∧ ¬codeIs S p '>' = true) :
    skipAttrSepF (f + 1) S p = skipAttrSepF f S (p + 1) := by
  rw [skipAttrSepF, if_pos h]

/-- The attribute loop re-reads a rendered attribute record exactly: started
at the record (or one past its leading space), with fresh keys, it rebuilds
the record and stops at the closing `>`. -/
theorem attrLoopF_render :
    ∀ (attrs : List (Str × Option Str)), attrs.all wfAttr = true →
      nodupKeys attrs = true →
      ∀ (S : Str) (a : Nat) (acc : List (Str × Option Str)) (R : Str) (fuel : Nat),
        S.drop a = renderAttrs attrs ++ '>' :: R →
        (∀ x ∈ attrs, ∀ b ∈ acc, b.1 ≠ x.1) →
        (needA attrs ≤ fuel →
          attrLoopF fuel S (a : Int) acc
            = .ok (acc ++ attrs) ((a + (renderAttrs attrs).length : Nat) : Int) false) ∧
        (attrs ≠ [] → needA attrs ≤ fuel + 1 →
          attrLoopF fuel S ((a + 1 : Nat) : Int) acc
            = .ok (acc ++ attrs) ((a + (renderAttrs attrs).length : Nat) : Int) false) := by
  intro attrs
  induction attrs with
  | nil =>
    intro _ _ S a acc R fuel hdrop _
    simp only [renderAttrs, List.nil_append] at hdrop
    obtain ⟨-, htr, hcs, -, -⟩ := head_facts S a '>' R hdrop
    constructor
    · intro hfuel
      cases fuel with
      | zero => exact absurd hfuel (by rw [needA]; omega)
      | succ f =>
        rw [attrLoopF]
        rw [if_neg (fun hcon => hcon.1 (by rw [hcs '>']; rfl))]
        simp [renderAttrs]
    · intro hne
      exact absurd rfl hne
  | cons x rest ih =>
    rcases x with ⟨k, v⟩
    intro hwf hnodup S a acc R fuel hdrop hfresh
    have hwf' := hwf
    simp only [List.all_cons, Bool.and_eq_true] at hwf'
    obtain ⟨hwfx, hwfrest⟩ := hwf'
    obtain ⟨hkeyfresh, hnoduprest⟩ := nodupKeys_cons k v rest hnodup
    have hfreshacc : ∀ b ∈ acc, b.1 ≠ k :=
      fun b hb => hfresh (k, v) (List.mem_cons_self _ _) b hb
    have hfresh' : ∀ x ∈ rest, ∀ b ∈ acc ++ [(k, v)], b.1 ≠ x.1 := by
      intro x hx b hb
      rcases List.mem_append.mp hb with hb | hb
      · exact hfresh x (List.mem_cons_of_mem _ hx) b hb
      · rcases List.mem_singleton.mp hb with rfl
        exact fun he => hkeyfresh x hx (he.symm ▸ rfl)
    -- the from-letter step, proved once and used by both conjuncts
    have main2 : ∀ (fuel' : Nat), needA ((k, v) :: rest) ≤ fuel' + 1 →
        attrLoopF fuel' S ((a + 1 : Nat) : Int) acc
          = .ok (acc ++ (k, v) :: rest)
              ((a + (renderAttrs ((k, v) :: rest)).length : Nat) : Int) false := by
      intro fuel' hfuel
      rw [needA] at hfuel
      have hA1 : 1 ≤ needA rest := by
        cases rest with
        | nil => rw [needA]
        | cons z r => rw [needA]; omega
      cases v with
      | none =>
        -- flag attribute: render is ' ' :: k ++ renderAttrs rest
        have hkprops := wfAttrName_props k hwfx
        obtain ⟨hkne, hkhead, hkall⟩ := hkprops
        rw [show renderAttrs ((k, none) :: rest) = ' ' :: k ++ renderAttrs rest
          from rfl] at hdrop ⊢
        simp only [List.cons_append, List.append_assoc] at hdrop
        have hdropK : S.drop (a + 1) = k ++ (renderAttrs rest ++ '>' :: R) :=
          drop_of_drop_cons S a ' ' _ hdrop
        cases hk : k with
        | nil => exact absurd hk hkne
        | cons kc ktail =>
        rw [← hk]
        have hkc := hkhead kc ktail hk
        obtain ⟨hkc0, hkcq1, hkcq2, hkcgt, hkceq, hkcsp⟩ := isLetter_facts kc hkc
        have hdropKc : S.drop (a + 1) = kc :: (ktail ++ (renderAttrs rest ++ '>' :: R)) := by
          rw [hdropK, hk]
          rfl
        obtain ⟨-, htr1, hcs1, hl1, -⟩ := head_facts S (a + 1) kc _ hdropKc
        cases fuel' with
        | zero => omega
        | succ f =>
        rw [attrLoopF]
        rw [if_pos ⟨fun hcon => by rw [hcs1 '>'] at hcon; exact hkcgt (eq_of_beq hcon),
          htr1⟩]
        rw [if_pos (by rw [hl1]; exact hkc)]
        have hRhead : ∀ c, (renderAttrs rest ++ '>' :: R).head? = some c →
            nameEndChars.contains c = true := by
          cases rest with
          | nil =>
            intro c hc
            simp only [renderAttrs, List.nil_append, List.head?_cons] at hc
            rw [← Option.some_inj.mp hc]
            decide
          | cons y r2 =>
            obtain ⟨u2, hu2⟩ := renderAttrs_cons_sp y r2
            rw [hu2]
            intro c hc
            simp only [List.cons_append, List.head?_cons] at hc
            rw [← Option.some_inj.mp hc]
            decide
        simp only [parseName_render S (a + 1) k _ hdropK hkall hRhead]
        have hb : S.drop (a + 1 + k.length) = renderAttrs rest ++ '>' :: R :=
          drop_of_drop_append S (a + 1) k _ hdropK
        rw [show ((a + 1 : Nat) : Int) + (k.length : Int)
          = ((a + 1 + k.length : Nat) : Int) from by push_cast; ring]
        cases rest with
        | nil =>
          simp only [renderAttrs, List.nil_append] at hb
          obtain ⟨-, -, hcsb, -, -⟩ := head_facts S (a + 1 + k.length) '>' R hb
          cases f with
          | zero => omega
          | succ f2 =>
          simp only [skipAttrSepF_stop S f2 _ (fun hcon => by
            rw [hcsb '>'] at hcon
            exact hcon.2.2.2.2 rfl)]
          rw [if_neg (by
            rw [hcsb '\'', hcsb '"']
            rintro (hq | hq) <;> cases hq)]
          rw [recSet_fresh acc k none hfreshacc]
          rw [show (((a + 1 + k.length : Nat) : Int) - 1) + 1
            = ((a + 1 + k.length : Nat) : Int) from by ring]
          have hrec := ((ih hwfrest hnoduprest S (a + 1 + k.length)
            (acc ++ [(k, none)]) R (f2 + 1) hb hfresh').1 (by rw [needA]; omega))
          rw [hrec]
          simp only [List.append_assoc, List.singleton_append, List.append_nil,
            renderAttrs]
          refine congrArg (fun z => AttrRes.ok (acc ++ (k, none) :: ([] : List (Str × Option Str))) z false) ?_
          simp only [List.length_append, List.length_cons, List.length_nil]
          congr 1
          omega
        | cons y r2 =>
          obtain ⟨u2, hu2⟩ := renderAttrs_cons_sp y r2
          have hbsp : S.drop (a + 1 + k.length) = ' ' :: (u2 ++ '>' :: R) := by
            rw [hb, hu2]
            rfl
          obtain ⟨-, -, hcsb, hlb, hctb⟩ := head_facts S (a + 1 + k.length) ' ' _ hbsp
          cases f with
          | zero => omega
          | succ f2 =>
          rw [skipAttrSepF_go S f2 _ ⟨by rw [hctb]; rfl,
            by rw [hcsb '\'']; decide, by rw [hcsb '"']; decide,
            by rw [hlb]; decide, by rw [hcsb '>']; decide⟩]
          -- the skip lands on the first letter of the next attribute
          rcases y with ⟨k2, v2⟩
          have hk2props := wfAttrName_props k2 (by
            simp only [List.all_cons, Bool.and_eq_true] at hwfrest
            rcases hv2 : v2 with - | w
            · have := hwfrest.1
              rw [hv2] at this
              simpa [wfAttr] using this
            · have := hwfrest.1
              rw [hv2] at this
              exact ((wfAttr_some k2 w this).1))
          obtain ⟨hk2ne, hk2head, -⟩ := hk2props
          cases hk2 : k2 with
          | nil => exact absurd hk2 hk2ne
          | cons kc2 ktail2 =>
          rw [← hk2]
          have hkc2 := hk2head kc2 ktail2 hk2
          have hu2head : ∃ w, u2 ++ '>' :: R = kc2 :: w := by
            have h1 : renderAttrs ((k2, v2) :: r2) = ' ' :: u2 := hu2
            cases v2 with
            | none =>
              rw [show renderAttrs ((k2, none) :: r2) = ' ' :: k2 ++ renderAttrs r2
                from rfl, hk2] at h1
              injection h1 with h1x h2
              exact ⟨ktail2 ++ renderAttrs r2 ++ '>' :: R, by
                rw [← h2]
                simp⟩
            | some w =>
              by_cases hw : w.contains '"' = true
              · rw [show renderAttrs ((k2, some w) :: r2)
                  = (if w.contains '"' then ' ' :: k2 ++ lit "='" ++ w ++ lit "'"
                     else ' ' :: k2 ++ lit "=\"" ++ w ++ lit "\"") ++ renderAttrs r2
                  from rfl, if_pos hw, hk2] at h1
                simp only [List.cons_append] at h1
                injection h1 with h1x h2
                exact ⟨ktail2 ++ (lit "='" ++ w ++ lit "'" ++ renderAttrs r2) ++ '>' :: R, by
                  rw [← h2]
                  simp⟩
              · rw [show renderAttrs ((k2, some w) :: r2)
                  = (if w.contains '"' then ' ' :: k2 ++ lit "='" ++ w ++ lit "'"
                     else ' ' :: k2 ++ lit "=\"" ++ w ++ lit "\"") ++ renderAttrs r2
                  from rfl, if_neg hw, hk2] at h1
                simp only [List.cons_append] at h1
                injection h1 with h1x h2
                exact ⟨ktail2 ++ (lit "=\"" ++ w ++ lit "\"" ++ renderAttrs r2) ++ '>' :: R, by
                  rw [← h2]
                  simp⟩
          obtain ⟨w2, hw2⟩ := hu2head
          have hdropL : S.drop (a + 1 + k.length + 1) = kc2 :: w2 := by
            have := drop_of_drop_cons S (a + 1 + k.length) ' ' _ hbsp
            rw [this, hw2]
          obtain ⟨-, -, hcsL, hlL, -⟩ := head_facts S (a + 1 + k.length + 1) kc2 _ hdropL
          obtain ⟨-, hq1, hq2, hgt2, -, -⟩ := isLetter_facts kc2 hkc2
          cases f2 with
          | zero => omega
          | succ f3 =>
          rw [show ((a + 1 + k.length : Nat) : Int) + 1
            = ((a + 1 + k.length + 1 : Nat) : Int) from by push_cast; ring]
          simp only [skipAttrSepF_stop S f3 _ (fun hcon => by
            rw [hlL] at hcon
            exact hcon.2.2.2.1 hkc2)]
          rw [if_neg (by
            rw [hcsL '\'', hcsL '"']
            rintro (hq | hq)
            · exact hq1 (eq_of_beq hq)
            · exact hq2 (eq_of_beq hq))]
          rw [recSet_fresh acc k none hfreshacc]
          rw [show (((a + 1 + k.length + 1 : Nat) : Int) - 1) + 1
            = ((a + 1 + k.length + 1 : Nat) : Int) from by ring]
          have hrec := ((ih hwfrest hnoduprest S (a + 1 + k.length)
            (acc ++ [(k, none)]) R (f3 + 1 + 1) hb hfresh').2 (by simp) (by omega))
          rw [hrec]
          simp only [List.append_assoc, List.singleton_append]
          refine congrArg (fun z => AttrRes.ok (acc ++ (k, none) :: (k2, v2) :: r2) z false) ?_
          simp only [List.length_cons, List.length_append, List.length_nil]
          congr 1
          omega
      | some v =>
        -- valued attribute
        obtain ⟨hkwf, -, hsq, hdq⟩ := wfAttr_some k v hwfx
        obtain ⟨hkne, hkhead, hkall⟩ := wfAttrName_props k hkwf
        by_cases hv : v.contains '"' = true
        · -- single-quoted
          rw [show renderAttrs ((k, some v) :: rest)
            = (if v.contains '"' then ' ' :: k ++ lit "='" ++ v ++ lit "'"
               else ' ' :: k ++ lit "=\"" ++ v ++ lit "\"") ++ renderAttrs rest
            from rfl, if_pos hv] at hdrop ⊢
          simp only [List.cons_append, List.append_assoc, lit] at hdrop ⊢
          have hdropK : S.drop (a + 1)
              = k ++ ('=' :: '\'' :: (v ++ '\'' :: (renderAttrs rest ++ '>' :: R))) := by
            have := drop_of_drop_cons S a ' ' _ hdrop
            rw [this]
            simp
          cases hk : k with
          | nil => exact absurd hk hkne
          | cons kc ktail =>
          rw [← hk]
          have hkc := hkhead kc ktail hk
          obtain ⟨hkc0, hkcq1, hkcq2, hkcgt, hkceq, hkcsp⟩ := isLetter_facts kc hkc
          have hdropKc : S.drop (a + 1) = kc :: (ktail ++ ('=' :: '\'' :: (v ++ '\'' :: (renderAttrs rest ++ '>' :: R)))) := by
            rw [hdropK, hk]
            rfl
          obtain ⟨-, htr1, hcs1, hl1, -⟩ := head_facts S (a + 1) kc _ hdropKc
          cases fuel' with
          | zero => omega
          | succ f =>
          rw [attrLoopF]
          rw [if_pos ⟨fun hcon => by rw [hcs1 '>'] at hcon; exact hkcgt (eq_of_beq hcon),
            htr1⟩]
          rw [if_pos (by rw [hl1]; exact hkc)]
          simp only [parseName_render S (a + 1) k _ hdropK hkall
            (by intro c hc; rw [← Option.some_inj.mp hc]; decide)]
          have hbq : S.drop (a + 1 + k.length)
              = '=' :: '\'' :: (v ++ '\'' :: (renderAttrs rest ++ '>' :: R)) :=
            drop_of_drop_append S (a + 1) k _ hdropK
          obtain ⟨-, -, hcsE, hlE, hctE⟩ := head_facts S (a + 1 + k.length) '=' _ hbq
          have hbq2 : S.drop (a + 1 + k.length + 1)
              = '\'' :: (v ++ '\'' :: (renderAttrs rest ++ '>' :: R)) :=
            drop_of_drop_cons S (a + 1 + k.length) '=' _ hbq
          obtain ⟨-, -, hcsQ, hlQ, -⟩ := head_facts S (a + 1 + k.length + 1) '\'' _ hbq2
          rw [show ((a + 1 : Nat) : Int) + (k.length : Int)
            = ((a + 1 + k.length : Nat) : Int) from by push_cast; ring]
          cases f with
          | zero => omega
          | succ f2 =>
          cases f2 with
          | zero => omega
          | succ f3 =>
          rw [skipAttrSepF_go S (f3 + 1) _ ⟨by rw [hctE]; rfl,
            by rw [hcsE '\'']; decide, by rw [hcsE '"']; decide,
            by rw [hlE]; decide, by rw [hcsE '>']; decide⟩]
          rw [show ((a + 1 + k.length : Nat) : Int) + 1
            = ((a + 1 + k.length + 1 : Nat) : Int) from by push_cast; ring]
          simp only [skipAttrSepF_stop S f3 _ (fun hcon => by
            rw [hcsQ '\''] at hcon
            exact hcon.2.1 rfl)]
          rw [if_pos (Or.inl (by rw [hcsQ '\'']; rfl))]
          simp only [parseString_render S (a + 1 + k.length + 1) '\'' v _ hbq2
            (hsq hv)]
          rw [if_neg (by omega : ¬ ((a + 1 + k.length + 1 + 1 + v.length : Nat) : Int) = -1)]
          rw [recSet_fresh acc k (some v) hfreshacc]
          have hbrest : S.drop (a + 1 + k.length + 1 + 1 + v.length + 1)
              = renderAttrs rest ++ '>' :: R := by
            have h1 : S.drop (a + 1 + k.length + 1 + 1) = v ++ '\'' :: (renderAttrs rest ++ '>' :: R) :=
              drop_of_drop_cons S (a + 1 + k.length + 1) '\'' _ hbq2
            have h2 := drop_of_drop_append S (a + 1 + k.length + 1 + 1) v _ h1
            have h3 := drop_of_drop_cons S (a + 1 + k.length + 1 + 1 + v.length) '\'' _ h2
            exact h3
          rw [show ((a + 1 + k.length + 1 + 1 + v.length : Nat) : Int) + 1
            = ((a + 1 + k.length + 1 + 1 + v.length + 1 : Nat) : Int) from by push_cast; ring]
          have hrec := ((ih hwfrest hnoduprest S (a + 1 + k.length + 1 + 1 + v.length + 1)
            (acc ++ [(k, some v)]) R (f3 + 2) hbrest hfresh').1 (by omega))
          rw [hrec]
          simp only [List.append_assoc, List.singleton_append]
          refine congrArg (fun z => AttrRes.ok (acc ++ (k, some v) :: rest) z false) ?_
          simp only [List.length_append, List.length_cons, List.length_nil]
          congr 1
          omega
        · -- double-quoted
          rw [show renderAttrs ((k, some v) :: rest)
            = (if v.contains '"' then ' ' :: k ++ lit "='" ++ v ++ lit "'"
               else ' ' :: k ++ lit "=\"" ++ v ++ lit "\"") ++ renderAttrs rest
            from rfl, if_neg hv] at hdrop ⊢
          simp only [List.cons_append, List.append_assoc, lit] at hdrop ⊢
          have hdropK : S.drop (a + 1)
              = k ++ ('=' :: '"' :: (v ++ '"' :: (renderAttrs rest ++ '>' :: R))) := by
            have := drop_of_drop_cons S a ' ' _ hdrop
            rw [this]
            simp
          cases hk : k with
          | nil => exact absurd hk hkne
          | cons kc ktail =>
          rw [← hk]
          have hkc := hkhead kc ktail hk
          obtain ⟨hkc0, hkcq1, hkcq2, hkcgt, hkceq, hkcsp⟩ := isLetter_facts kc hkc
          have hdropKc : S.drop (a + 1) = kc :: (ktail ++ ('=' :: '"' :: (v ++ '"' :: (renderAttrs rest ++ '>' :: R)))) := by
            rw [hdropK, hk]
            rfl
          obtain ⟨-, htr1, hcs1, hl1, -⟩ := head_facts S (a + 1) kc _ hdropKc
          cases fuel' with
          | zero => omega
          | succ f =>
          rw [attrLoopF]
          rw [if_pos ⟨fun hcon => by rw [hcs1 '>'] at hcon; exact hkcgt (eq_of_beq hcon),
            htr1⟩]
          rw [if_pos (by rw [hl1]; exact hkc)]
          simp only [parseName_render S (a + 1) k _ hdropK hkall
            (by intro c hc; rw [← Option.some_inj.mp hc]; decide)]
          have hbq : S.drop (a + 1 + k.length)
              = '=' :: '"' :: (v ++ '"' :: (renderAttrs rest ++ '>' :: R)) :=
            drop_of_drop_append S (a + 1) k _ hdropK
          obtain ⟨-, -, hcsE, hlE, hctE⟩ := head_facts S (a + 1 + k.length) '=' _ hbq
          have hbq2 : S.drop (a + 1 + k.length + 1)
              = '"' :: (v ++ '"' :: (renderAttrs rest ++ '>' :: R)) :=
            drop_of_drop_cons S (a + 1 + k.length) '=' _ hbq
          obtain ⟨-, -, hcsQ, hlQ, -⟩ := head_facts S (a + 1 + k.length + 1) '"' _ hbq2
          rw [show ((a + 1 : Nat) : Int) + (k.length : Int)
            = ((a + 1 + k.length : Nat) : Int) from by push_cast; ring]
          cases f with
          | zero => omega
          | succ f2 =>
          cases f2 with
          | zero => omega
          | succ f3 =>
          rw [skipAttrSepF_go S (f3 + 1) _ ⟨by rw [hctE]; rfl,
            by rw [hcsE '\'']; decide, by rw [hcsE '"']; decide,
            by rw [hlE]; decide, by rw [hcsE '>']; decide⟩]
          rw [show ((a + 1 + k.length : Nat) : Int) + 1
            = ((a + 1 + k.length + 1 : Nat) : Int) from by push_cast; ring]
          simp only [skipAttrSepF_stop S f3 _ (fun hcon => by
            rw [hcsQ '"'] at hcon
            exact hcon.2.2.1 rfl)]
          rw [if_pos (Or.inr (by rw [hcsQ '"']; rfl))]
          simp only [parseString_render S (a + 1 + k.length + 1) '"' v _ hbq2
            (hdq (Bool.eq_false_iff.mpr hv))]
          rw [if_neg (by omega : ¬ ((a + 1 + k.length + 1 + 1 + v.length : Nat) : Int) = -1)]
          rw [recSet_fresh acc k (some v) hfreshacc]
          have hbrest : S.drop (a + 1 + k.length + 1 + 1 + v.length + 1)
              = renderAttrs rest ++ '>' :: R := by
            have h1 : S.drop (a + 1 + k.length + 1 + 1) = v ++ '"' :: (renderAttrs rest ++ '>' :: R) :=
              drop_of_drop_cons S (a + 1 + k.length + 1) '"' _ hbq2
            have h2 := drop_of_drop_append S (a + 1 + k.length + 1 + 1) v _ h1
            have h3 := drop_of_drop_cons S (a + 1 + k.length + 1 + 1 + v.length) '"' _ h2
            exact h3
          rw [show ((a + 1 + k.length + 1 + 1 + v.length : Nat) : Int) + 1
            = ((a + 1 + k.length + 1 + 1 + v.length + 1 : Nat) : Int) from by push_cast; ring]
          have hrec := ((ih hwfrest hnoduprest S (a + 1 + k.length + 1 + 1 + v.length + 1)
            (acc ++ [(k, some v)]) R (f3 + 2) hbrest hfresh').1 (by omega))
          rw [hrec]
          simp only [List.append_assoc, List.singleton_append]
          refine congrArg (fun z => AttrRes.ok (acc ++ (k, some v) :: rest) z false) ?_
          simp only [List.length_append, List.length_cons, List.length_nil]
          congr 1
          omega
    constructor
    · intro hfuel
      rw [needA] at hfuel
      cases fuel with
      | zero => omega
      | succ f =>
      obtain ⟨u, hu⟩ := renderAttrs_cons_sp (k, v) rest
      have hdropSp : S.drop a = ' ' :: (u ++ '>' :: R) := by
        rw [hdrop, hu]
        rfl
      obtain ⟨-, htr0, hcs0, hl0, -⟩ := head_facts S a ' ' _ hdropSp
      rw [attrLoopF]
      rw [if_pos ⟨by rw [hcs0 '>']; decide, htr0⟩]
      rw [if_neg (by rw [hl0]; decide)]
      rw [show ((a : Nat) : Int) + 1 = ((a + 1 : Nat) : Int) from by push_cast; ring]
      exact main2 f (by rw [needA]; omega)
    · intro _ hfuel
      exact main2 fuel hfuel


theorem renderAttrs_head_stop (attrs : List (Str × Option Str)) (R : Str) :
    ∀ c, (renderAttrs attrs ++ '>' :: R).head? = some c →
      nameEndChars.contains c = true := by
  cases attrs with
  | nil =>
    intro c hc
    simp only [renderAttrs, List.nil_append, List.head?_cons] at hc
    rw [← Option.some_inj.mp hc]
    decide
  | cons y r2 =>
    obtain ⟨u2, hu2⟩ := renderAttrs_cons_sp y r2
    rw [hu2]
    intro c hc
    simp only [List.cons_append, List.head?_cons] at hc
    rw [← Option.some_inj.mp hc]
    decide

theorem codeIs_eq_of_get? (S : Str) (p : Nat) (c : Char) (hget : S.get? p = some c) :
    codeIs S (p : Int) c = true := by
  unfold codeIs
  rw [getC_at, hget]
  simp

theorem codeIs_ne_of_get? (S : Str) (p : Nat) (c d : Char) (hget : S.get? p = some c)
    (hne : c ≠ d) : codeIs S (p : Int) d = false := by
  unfold codeIs
  rw [getC_at, hget]
  simp [hne]

theorem get?_concat_last (u : Str) (c : Char) : (u ++ [c]).get? u.length = some c := by
  rw [List.get?_eq_getElem?, List.getElem?_append_right (le_refl u.length)]
  simp

theorem needA_pos (attrs : List (Str × Option Str)) : 1 ≤ needA attrs := by
  cases attrs with
  | nil => rw [needA]
  | cons x rest => rw [needA]; omega

theorem needL_pos (l : List Node) : 1 ≤ needL l := by
  cases l with
  | nil => rw [needL]
  | cons n rest => rw [needL]; omega


/-! The re-parse of a rendered well-formed node or sibling list: the scan
reconstructs exactly the original tree and stops just past what it read. -/

mutual

theorem parseNodeF_render :
    ∀ (n : Node), wfN n = true → isTextN n = false →
      ∀ (S : Str) (a : Nat) (R : Str) (fuel : Nat),
        S.drop a = renderN n ++ R → needN n ≤ fuel →
        parseNodeF fuel dCtx S (a : Int)
          = .ok (n, ((a + (renderN n).length : Nat) : Int))
  | .text s => by
    intro _ hfalse
    cases hfalse
  | .elem tag attrs children => by
    intro hwf _ S a R fuel hdrop hfuel
    rw [needN] at hfuel
    simp only [wfN, Bool.and_eq_true] at hwf
    obtain ⟨⟨⟨htag, hattrs⟩, hnodup⟩, hch⟩ := hwf
    obtain ⟨htne, hth1, hth2, htall, htsc, htscr, htsty⟩ := wfName_props tag htag
    have hdropN := hdrop
    simp only [renderN, List.cons_append, List.append_assoc, List.singleton_append]
      at hdrop
    have hdropT : S.drop (a + 1)
        = tag ++ (renderAttrs attrs ++ '>' :: (renderL children
            ++ (lit "</" ++ (tag ++ '>' :: R)))) :=
      drop_of_drop_cons S a '<' _ hdrop
    have hdropA : S.drop (a + 1 + tag.length)
        = renderAttrs attrs ++ '>' :: (renderL children
            ++ (lit "</" ++ (tag ++ '>' :: R))) :=
      drop_of_drop_append S (a + 1) tag _ hdropT
    cases fuel with
    | zero => omega
    | succ f =>
    rw [parseNodeF]
    rw [show ((a : Nat) : Int) + 1 = ((a + 1 : Nat) : Int) from by push_cast; ring]
    simp only [parseName_render S (a + 1) tag _ hdropT htall
      (renderAttrs_head_stop attrs _)]
    rw [show ((a + 1 : Nat) : Int) + (tag.length : Int)
      = ((a + 1 + tag.length : Nat) : Int) from by push_cast; ring]
    have hal := (attrLoopF_render attrs hattrs hnodup S (a + 1 + tag.length) [] _ f
      hdropA (by simp)).1 (by
        have := needL_pos children
        omega)
    simp only [hal, List.nil_append]
    rw [if_neg (by decide : ¬ (false = true))]
    -- the character before the closing `>` is never a slash
    have hb1 : 1 ≤ a + 1 + tag.length + (renderAttrs attrs).length := by omega
    have hslash : codeIs S
        (((a + 1 + tag.length + (renderAttrs attrs).length : Nat) : Int) - 1) '/'
        = false := by
      rw [show ((a + 1 + tag.length + (renderAttrs attrs).length : Nat) : Int) - 1
        = ((a + 1 + tag.length + (renderAttrs attrs).length - 1 : Nat) : Int)
        from by omega]
      cases hattrsnil : attrs with
      | nil =>
        rw [← hattrsnil]
        obtain ⟨u, c, huc⟩ := (List.eq_nil_or_concat tag).resolve_left htne
        rw [List.concat_eq_append] at huc
        have hgetc : S.get? (a + 1 + u.length) = some c := by
          have := get?_in_seg S (a + 1) tag _ u.length
            (by rw [huc]; simp) hdropT
          rw [this, huc, get?_concat_last]
        have hlen : a + 1 + tag.length + (renderAttrs attrs).length - 1
            = a + 1 + u.length := by
          rw [hattrsnil, huc]
          simp only [renderAttrs, List.length_nil, List.length_append,
            List.length_cons]
          omega
        rw [hlen]
        exact codeIs_ne_of_get? S _ c '/' hgetc
          (ne_of_nameEnd tag htall c (by rw [huc]; simp) '/' (by decide))
      | cons x r2 =>
        rw [← hattrsnil]
        obtain ⟨u, c, huc, hcslash⟩ := renderAttrs_last attrs hattrs
          (by rw [hattrsnil]; simp)
        have hgetc : S.get? (a + 1 + tag.length + u.length) = some c := by
          have := get?_in_seg S (a + 1 + tag.length) (renderAttrs attrs) _ u.length
            (by rw [huc]; simp) hdropA
          rw [this, huc, get?_concat_last]
        have hlen : a + 1 + tag.length + (renderAttrs attrs).length - 1
            = a + 1 + tag.length + u.length := by
          rw [huc]
          simp only [List.length_append, List.length_cons, List.length_nil]
          omega
        rw [hlen]
        exact codeIs_ne_of_get? S _ c '/' hgetc hcslash
    rw [if_pos (show ¬ codeIs S
        (((a + 1 + tag.length + (renderAttrs attrs).length : Nat) : Int) - 1) '/'
        = true from by rw [hslash]; exact Bool.false_ne_true)]
    rw [if_neg htscr, if_neg htsty]
    rw [if_pos (show ¬ dCtx.selfClosing.contains tag = true from by
      rw [show dCtx.selfClosing = defaultSelfClosing from rfl, htsc]
      exact Bool.false_ne_true)]
    have hdropG : S.drop (a + 1 + tag.length + (renderAttrs attrs).length)
        = '>' :: (renderL children ++ (lit "</" ++ (tag ++ '>' :: R))) :=
      drop_of_drop_append S (a + 1 + tag.length) (renderAttrs attrs) _ hdropA
    have hdropCh : S.drop (a + 1 + tag.length + (renderAttrs attrs).length + 1)
        = renderL children ++ lit "</" ++ tag ++ '>' :: R := by
      have := drop_of_drop_cons S (a + 1 + tag.length + (renderAttrs attrs).length)
        '>' _ hdropG
      rw [this]
      simp [List.append_assoc]
    rw [show ((a + 1 + tag.length + (renderAttrs attrs).length : Nat) : Int) + 1
      = ((a + 1 + tag.length + (renderAttrs attrs).length + 1 : Nat) : Int)
      from by push_cast; ring]
    have hchrec := parseChildrenF_render children hch tag S
      (a + 1 + tag.length + (renderAttrs attrs).length + 1) [] R f htall hdropCh
      (by omega)
    simp only [hchrec, List.nil_append]
    refine congrArg (fun z => PR.ok ((Node.elem tag attrs children : Node), z)) ?_
    simp only [renderN, List.length_append, List.length_cons, List.length_nil, lit]
    congr 1
    omega

theorem parseChildrenF_render :
    ∀ (l : List Node), wfL l = true →
      ∀ (t S : Str) (a : Nat) (acc : List Node) (R : Str) (fuel : Nat),
        t.all (fun c => !(nameEndChars.contains c)) = true →
        S.drop a = renderL l ++ lit "</" ++ t ++ '>' :: R →
        needL l ≤ fuel →
        parseChildrenF fuel dCtx t S (a : Int) acc
          = .ok (acc ++ l, ((a + (renderL l).length + t.length + 3 : Nat) : Int))
  | [] => by
    intro _ t S a acc R fuel htall hdrop hfuel
    have hdropC := hdrop
    simp only [renderL, List.nil_append] at hdrop hdropC
    have hdropH : S.drop a = '<' :: ('/' :: (t ++ '>' :: R)) := by
      rw [hdrop]
      rfl
    obtain ⟨-, htr0, hcs0, -, -⟩ := head_facts S a '<' _ hdropH
    obtain ⟨-, -, hcs1, -, -⟩ := head_facts S (a + 1) '/' _
      (drop_of_drop_cons S a '<' _ hdropH)
    cases fuel with
    | zero => rw [needL] at hfuel; omega
    | succ f =>
    rw [parseChildrenF]
    rw [if_pos htr0]
    rw [if_pos (by rw [hcs0 '<']; rfl)]
    rw [show ((a : Nat) : Int) + 1 = ((a + 1 : Nat) : Int) from by push_cast; ring]
    rw [if_pos (by rw [hcs1 '/']; rfl)]
    simp only [closeTagResult_render S a t R hdropC htall]
    simp only [List.append_nil, renderL, List.length_nil]
    refine congrArg (fun z => PR.ok ((acc, z) : List Node × Int)) ?_
    push_cast
    ring
  | .text s :: rest => by
    intro hwl t S a acc R fuel htall hdrop hfuel
    rw [needL] at hfuel
    obtain ⟨hwfs, hrest, hadj⟩ := wfL_parts (.text s) rest hwl
    obtain ⟨hsne, htrim, hslt⟩ := wfText_props s (by simpa [wfN] using hwfs)
    simp only [renderL, renderN, List.append_assoc] at hdrop
    have hnext : ∃ Q, renderL rest ++ (lit "</" ++ (t ++ '>' :: R)) = '<' :: Q := by
      cases rest with
      | nil => exact ⟨'/' :: (t ++ '>' :: R), by simp [renderL, lit]⟩
      | cons n2 r2 =>
        cases n2 with
        | text s2 =>
          exfalso
          have := hadj (.text s2) r2 rfl
          simp [isTextN] at this
        | elem t2 a2 c2 =>
          refine ⟨t2 ++ (renderAttrs a2 ++ '>' :: (renderL c2
            ++ (lit "</" ++ (t2 ++ '>' :: (renderL r2
              ++ (lit "</" ++ (t ++ '>' :: R))))))), ?_⟩
          simp [renderL, renderN, List.cons_append, List.append_assoc]
    obtain ⟨Q, hQ⟩ := hnext
    have hdropQ : S.drop a = s ++ '<' :: Q := by
      rw [hdrop, hQ]
    cases hs : s with
    | nil => exact absurd hs hsne
    | cons sc stail =>
    rw [← hs]
    have hdropSc : S.drop a = sc :: (stail ++ '<' :: Q) := by
      rw [hdropQ, hs]
      rfl
    obtain ⟨-, htr0, hcs0, -, -⟩ := head_facts S a sc _ hdropSc
    cases fuel with
    | zero => omega
    | succ f =>
    rw [parseChildrenF]
    rw [if_pos htr0]
    rw [if_neg (by
      rw [hcs0 '<']
      intro hcon
      exact hslt sc (by rw [hs]; simp) (eq_of_beq hcon))]
    simp only [parseText_render S a s Q hdropQ hslt]
    rw [if_neg (by decide : ¬ dCtx.keepWhitespace = true)]
    rw [htrim]
    rw [if_pos (show s.length > 0 from List.length_pos.mpr hsne)]
    rw [show ((a : Nat) : Int) + (s.length : Int) - 1 + 1
      = ((a + s.length : Nat) : Int) from by push_cast; ring]
    have hdropRest : S.drop (a + s.length)
        = renderL rest ++ lit "</" ++ t ++ '>' :: R := by
      have h2 : S.drop a = s ++ (renderL rest ++ lit "</" ++ t ++ '>' :: R) := by
        rw [hdrop]
        simp only [List.append_assoc]
      exact drop_of_drop_append S a s _ h2
    have hrec := parseChildrenF_render rest hrest t S (a + s.length)
      (acc ++ [Node.text s]) R f htall hdropRest (by omega)
    rw [hrec]
    simp only [List.append_assoc, List.singleton_append]
    refine congrArg (fun z => PR.ok (acc ++ Node.text s :: rest, z)) ?_
    simp only [renderL, renderN, List.length_append]
    congr 1
    omega
  | .elem tag2 attrs2 ch2 :: rest => by
    intro hwl t S a acc R fuel htall hdrop hfuel
    rw [needL] at hfuel
    obtain ⟨hwfe, hrest, -⟩ := wfL_parts (.elem tag2 attrs2 ch2) rest hwl
    have htag2 : wfName tag2 = true := by
      have := hwfe
      simp only [wfN, Bool.and_eq_true] at this
      exact this.1.1.1
    obtain ⟨ht2ne, ht2h1, ht2h2, ht2all, -, -, -⟩ := wfName_props tag2 htag2
    have hdropN : S.drop a = renderN (.elem tag2 attrs2 ch2)
        ++ (renderL rest ++ (lit "</" ++ (t ++ '>' :: R))) := by
      rw [hdrop]
      simp [renderL, List.append_assoc]
    have hdropH : S.drop a = '<' :: (tag2 ++ (renderAttrs attrs2
        ++ '>' :: (renderL ch2 ++ (lit "</" ++ (tag2 ++ '>' :: (renderL rest
          ++ (lit "</" ++ (t ++ '>' :: R)))))))) := by
      rw [hdropN]
      simp [renderN, List.cons_append, List.append_assoc]
    obtain ⟨-, htr0, hcs0, -, -⟩ := head_facts S a '<' _ hdropH
    cases htag2s : tag2 with
    | nil => exact absurd htag2s ht2ne
    | cons tc ttail =>
    rw [← htag2s]
    have hdropT2 : S.drop (a + 1) = tc :: (ttail ++ (renderAttrs attrs2
        ++ '>' :: (renderL ch2 ++ (lit "</" ++ (tag2 ++ '>' :: (renderL rest
          ++ (lit "</" ++ (t ++ '>' :: R)))))))) := by
      have := drop_of_drop_cons S a '<' _ hdropH
      rw [this, htag2s]
      rfl
    obtain ⟨-, -, hcs1, -, -⟩ := head_facts S (a + 1) tc _ hdropT2
    have htcslash : tc ≠ '/' :=
      ne_of_nameEnd tag2 ht2all tc (by rw [htag2s]; simp) '/' (by decide)
    have htcbang : tc ≠ '!' := by
      intro he
      rw [htag2s, he] at ht2h1
      exact ht2h1 rfl
    cases fuel with
    | zero => omega
    | succ f =>
    rw [parseChildrenF]
    rw [if_pos htr0]
    rw [if_pos (by rw [hcs0 '<']; rfl)]
    rw [show ((a : Nat) : Int) + 1 = ((a + 1 : Nat) : Int) from by push_cast; ring]
    rw [if_neg (by
      rw [hcs1 '/']
      intro hcon
      exact htcslash (eq_of_beq hcon))]
    rw [if_neg (by
      rw [hcs1 '!']
      intro hcon
      exact htcbang (eq_of_beq hcon))]
    have hnrec := parseNodeF_render (.elem tag2 attrs2 ch2) hwfe rfl S a _ f hdropN
      (by omega)
    simp only [hnrec]
    rw [if_neg (show ¬ (tag2.head? = some '?') from ht2h2)]
    have hdropRest : S.drop (a + (renderN (.elem tag2 attrs2 ch2)).length)
        = renderL rest ++ lit "</" ++ t ++ '>' :: R := by
      have h2 : S.drop a = renderN (.elem tag2 attrs2 ch2)
          ++ (renderL rest ++ lit "</" ++ t ++ '>' :: R) := by
        rw [hdropN]
        simp only [List.append_assoc]
      exact drop_of_drop_append S a (renderN (.elem tag2 attrs2 ch2)) _ h2
    have hrec := parseChildrenF_render rest hrest t S
      (a + (renderN (.elem tag2 attrs2 ch2)).length)
      (acc ++ [Node.elem tag2 attrs2 ch2]) R f htall hdropRest (by omega)
    rw [hrec]
    simp only [List.append_assoc, List.singleton_append]
    refine congrArg (fun z => PR.ok (acc ++ Node.elem tag2 attrs2 ch2 :: rest, z)) ?_
    simp only [renderL, List.length_append]
    congr 1
    omega

end

theorem truthyAt_end (S : Str) (a : Nat) (h : S.drop a = []) :
    truthyAt S (a : Int) = false := by
  have hlen : S.length ≤ a := by
    by_contra hc
    have : S.drop a ≠ [] := by
      intro he
      have := List.length_drop a S ▸ congrArg List.length he
      simp at this
      omega
    exact this h
  unfold truthyAt getC
  rw [if_pos (by positivity : (0 : Int) ≤ (a : Nat))]
  rw [Int.toNat_natCast]
  rw [List.get?_eq_none.mpr hlen]
  rfl

/-- At the top level (empty stop tag, the whole remaining input is the
render), the children loop returns exactly the rendered list. -/
theorem parseChildrenF_renderTop :
    ∀ (l : List Node), wfL l = true →
      ∀ (S : Str) (a : Nat) (acc : List Node) (fuel : Nat),
        S.drop a = renderL l →
        needL l ≤ fuel →
        ∃ p : Int, parseChildrenF fuel dCtx [] S (a : Int) acc = .ok (acc ++ l, p)
  | [] => by
    intro _ S a acc fuel hdrop hfuel
    simp only [renderL] at hdrop
    cases fuel with
    | zero => rw [needL] at hfuel; omega
    | succ f =>
    refine ⟨(a : Int), ?_⟩
    rw [parseChildrenF]
    rw [if_neg (by simp [truthyAt_end S a hdrop])]
    simp
  | .text s :: rest => by
    intro hwl S a acc fuel hdrop hfuel
    rw [needL] at hfuel
    obtain ⟨hwfs, hrest, hadj⟩ := wfL_parts (.text s) rest hwl
    obtain ⟨hsne, htrim, hslt⟩ := wfText_props s (by simpa [wfN] using hwfs)
    simp only [renderL, renderN, List.append_assoc] at hdrop
    have hsplit : rest = [] ∨ ∃ Q, renderL rest = '<' :: Q := by
      cases rest with
      | nil => exact Or.inl rfl
      | cons n2 r2 =>
        cases n2 with
        | text s2 =>
          exfalso
          have := hadj (.text s2) r2 rfl
          simp [isTextN] at this
        | elem t2 a2 c2 =>
          refine Or.inr ⟨t2 ++ (renderAttrs a2 ++ '>' :: (renderL c2
            ++ (lit "</" ++ (t2 ++ '>' :: renderL r2)))), ?_⟩
          simp [renderL, renderN, List.cons_append, List.append_assoc]
    rcases hsplit with hrs | ⟨Q, hQ⟩
    · subst hrs
      simp only [renderL, List.append_nil] at hdrop
      rw [needN, needL] at hfuel
      cases hs : s with
      | nil => exact absurd hs hsne
      | cons sc stail =>
      rw [← hs]
      have hdropSc : S.drop a = sc :: stail := by
        rw [hdrop, hs]
      obtain ⟨-, htr0, hcs0, -, -⟩ := head_facts S a sc _ hdropSc
      cases fuel with
      | zero => omega
      | succ f =>
      obtain ⟨p, hp⟩ := parseChildrenF_renderTop [] (by decide) S (S.length + 1)
        (acc ++ [Node.text s]) f
        (List.drop_eq_nil_of_le (by omega)) (by rw [needL]; omega)
      refine ⟨p, ?_⟩
      rw [parseChildrenF]
      rw [if_pos htr0]
      rw [if_neg (by
        rw [hcs0 '<']
        intro hcon
        exact hslt sc (by rw [hs]; simp) (eq_of_beq hcon))]
      simp only [parseText_end S a s hdrop hslt]
      rw [if_neg (by decide : ¬ dCtx.keepWhitespace = true)]
      rw [htrim]
      rw [if_pos (show s.length > 0 from List.length_pos.mpr hsne)]
      rw [show (S.length : Int) + 1 = ((S.length + 1 : Nat) : Int) from by
        push_cast; ring]
      rw [hp]
      simp
    · have hdropQ : S.drop a = s ++ '<' :: Q := by
        rw [hdrop, hQ]
      cases hs : s with
      | nil => exact absurd hs hsne
      | cons sc stail =>
      rw [← hs]
      have hdropSc : S.drop a = sc :: (stail ++ '<' :: Q) := by
        rw [hdropQ, hs]
        rfl
      obtain ⟨-, htr0, hcs0, -, -⟩ := head_facts S a sc _ hdropSc
      cases fuel with
      | zero => omega
      | succ f =>
      have hdropRest : S.drop (a + s.length) = renderL rest :=
        drop_of_drop_append S a s _ hdrop
      obtain ⟨p, hp⟩ := parseChildrenF_renderTop rest hrest S (a + s.length)
        (acc ++ [Node.text s]) f hdropRest (by omega)
      refine ⟨p, ?_⟩
      rw [parseChildrenF]
      rw [if_pos htr0]
      rw [if_neg (by
        rw [hcs0 '<']
        intro hcon
        exact hslt sc (by rw [hs]; simp) (eq_of_beq hcon))]
      simp only [parseText_render S a s Q hdropQ hslt]
      rw [if_neg (by decide : ¬ dCtx.keepWhitespace = true)]
      rw [htrim]
      rw [if_pos (show s.length > 0 from List.length_pos.mpr hsne)]
      rw [show ((a : Nat) : Int) + (s.length : Int) - 1 + 1
        = ((a + s.length : Nat) : Int) from by push_cast; ring]
      rw [hp]
      simp [List.append_assoc]
  | .elem tag2 attrs2 ch2 :: rest => by
    intro hwl S a acc fuel hdrop hfuel
    rw [needL] at hfuel
    obtain ⟨hwfe, hrest, -⟩ := wfL_parts (.elem tag2 attrs2 ch2) rest hwl
    have htag2 : wfName tag2 = true := by
      have := hwfe
      simp only [wfN, Bool.and_eq_true] at this
      exact this.1.1.1
    obtain ⟨ht2ne, ht2h1, ht2h2, ht2all, -, -, -⟩ := wfName_props tag2 htag2
    have hdropN : S.drop a = renderN (.elem tag2 attrs2 ch2) ++ renderL rest := by
      rw [hdrop]
      simp [renderL]
    have hdropH : S.drop a = '<' :: (tag2 ++ (renderAttrs attrs2
        ++ '>' :: (renderL ch2 ++ (lit "</" ++ (tag2 ++ '>' :: renderL rest))))) := by
      rw [hdropN]
      simp [renderN, List.cons_append, List.append_assoc]
    obtain ⟨-, htr0, hcs0, -, -⟩ := head_facts S a '<' _ hdropH
    cases htag2s : tag2 with
    | nil => exact absurd htag2s ht2ne
    | cons tc ttail =>
    rw [← htag2s]
    have hdropT2 : S.drop (a + 1) = tc :: (ttail ++ (renderAttrs attrs2
        ++ '>' :: (renderL ch2 ++ (lit "</" ++ (tag2 ++ '>' :: renderL rest))))) := by
      have := drop_of_drop_cons S a '<' _ hdropH
      rw [this, htag2s]
      rfl
    obtain ⟨-, -, hcs1, -, -⟩ := head_facts S (a + 1) tc _ hdropT2
    have htcslash : tc ≠ '/' :=
      ne_of_nameEnd tag2 ht2all tc (by rw [htag2s]; simp) '/' (by decide)
    have htcbang : tc ≠ '!' := by
      intro he
      rw [htag2s, he] at ht2h1
      exact ht2h1 rfl
    cases fuel with
    | zero => omega
    | succ f =>
    have hdropRest : S.drop (a + (renderN (.elem tag2 attrs2 ch2)).length)
        = renderL rest :=
      drop_of_drop_append S a (renderN (.elem tag2 attrs2 ch2)) _ hdropN
    obtain ⟨p, hp⟩ := parseChildrenF_renderTop rest hrest S
      (a + (renderN (.elem tag2 attrs2 ch2)).length)
      (acc ++ [Node.elem tag2 attrs2 ch2]) f hdropRest (by omega)
    refine ⟨p, ?_⟩
    rw [parseChildrenF]
    rw [if_pos htr0]
    rw [if_pos (by rw [hcs0 '<']; rfl)]
    rw [show ((a : Nat) : Int) + 1 = ((a + 1 : Nat) : Int) from by push_cast; ring]
    rw [if_neg (by
      rw [hcs1 '/']
      intro hcon
      exact htcslash (eq_of_beq hcon))]
    rw [if_neg (by
      rw [hcs1 '!']
      intro hcon
      exact htcbang (eq_of_beq hcon))]
    have hnrec := parseNodeF_render (.elem tag2 attrs2 ch2) hwfe rfl S a _ f hdropN
      (by omega)
    simp only [hnrec]
    rw [if_neg (show ¬ (tag2.head? = some '?') from ht2h2)]
    rw [hp]
    simp [List.append_assoc]

theorem parseTopF_children_ok (fuel : Nat) (S : Str) (l : List Node) (p : Int)
    (h : parseChildrenF fuel dCtx [] S 0 [] = .ok (l, p)) :
    parseTopF fuel dOpts S = .ok (.nodes l) := by
  unfold parseTopF
  simp only [show dOpts.attrValue = none from rfl]
  rw [if_neg (by rw [show dOpts.parseNode = false from rfl]; exact Bool.false_ne_true)]
  rw [show ctxOf dOpts = dCtx from rfl]
  rw [show (dOpts.pos.getD 0) = (0 : Int) from rfl]
  rw [h]
  rfl

/-- `parse` with no options recovers exactly the node list whose canonical
render it is given, with fuel at least the structural budget `needL`. -/
theorem parseTopF_render (l : List Node) (fuel : Nat)
    (hwf : wfL l = true) (hfuel : needL l ≤ fuel) :
    parseTopF fuel dOpts (renderL l) = .ok (.nodes l) := by
  obtain ⟨p, hp⟩ := parseChildrenF_renderTop l hwf (renderL l) 0 [] fuel rfl hfuel
  exact parseTopF_children_ok fuel (renderL l) l p (by simpa using hp)

theorem writeAttrs_render : ∀ (attrs : List (Str × Option Str)),
    attrs.all wfAttr = true → writeAttrs none attrs = renderAttrs attrs
  | [] => fun _ => rfl
  | (k, v) :: rest => fun h => by
    simp only [List.all_cons, Bool.and_eq_true] at h
    obtain ⟨hkv, hrest⟩ := h
    cases v with
    | none =>
      simp only [writeAttrs, renderAttrs, testOpt]
      rw [writeAttrs_render rest hrest]
      simp
    | some v =>
      have htrim : jsTrim v = v := by
        simp only [wfAttr, Bool.and_eq_true, beq_iff_eq] at hkv
        exact hkv.1.2
      simp only [writeAttrs, renderAttrs, testOpt]
      rw [writeAttrs_render rest hrest, htrim]
      simp

mutual

theorem writeNodeF_render :
    ∀ (n : Node), wfN n = true → ∀ (depth : Nat) (compact : Bool),
      writeNodeF {} [] n depth compact = renderN n
  | .text s => by
    intro hwf depth compact
    obtain ⟨hsne, htrim, -⟩ := wfText_props s (by simpa [wfN] using hwf)
    simp only [writeNodeF, renderN]
    rw [htrim]
    rw [if_pos hsne]
    rw [if_neg (by simp)]
  | .elem tag attrs children => by
    intro hwf depth compact
    simp only [wfN, Bool.and_eq_true] at hwf
    obtain ⟨⟨⟨htag, hattrs⟩, hnodup⟩, hch⟩ := hwf
    obtain ⟨-, -, hq, -, -, -, -⟩ := wfName_props tag htag
    simp only [writeNodeF, renderN]
    rw [if_neg (by simp [testOpt] : ¬ testOpt ({} : StringifyOptions).skipTags tag = true)]
    rw [if_neg (by simp : ¬ (¬compact = true ∧ ([] : Str) ≠ []))]
    rw [writeAttrs_render attrs hattrs]
    rw [if_neg (show ¬ (tag.head? = some '?') from by
      intro hcon
      exact absurd hcon (by simpa using hq))]
    rw [writeF_render children hch (depth + 1) _]
    rw [if_neg (by simp)]
    simp

theorem writeF_render :
    ∀ (l : List Node), wfL l = true → ∀ (depth : Nat) (compact : Bool),
      writeF {} [] l depth compact = renderL l
  | [] => by
    intro _ depth compact
    rfl
  | n :: rest => by
    intro hwf depth compact
    obtain ⟨hn, hrest, -⟩ := wfL_parts n rest hwf
    simp only [writeF, renderL]
    rw [writeNodeF_render n hn depth compact, writeF_render rest hrest depth compact]

end

theorem jsTrim_head_not_ws (s : Str) (c : Char) (rest : Str)
    (h : jsTrim s = s) (hs : s = c :: rest) : isJsWs c = false := by
  by_contra hcon
  rw [Bool.not_eq_false] at hcon
  have hlen : (jsTrim s).length < s.length := by
    unfold jsTrim
    calc (((s.dropWhile isJsWs).reverse.dropWhile isJsWs).reverse).length
        = ((s.dropWhile isJsWs).reverse.dropWhile isJsWs).length :=
          List.length_reverse _
      _ ≤ (s.dropWhile isJsWs).reverse.length :=
          (List.dropWhile_suffix isJsWs).sublist.length_le
      _ = (s.dropWhile isJsWs).length := List.length_reverse _
      _ = (rest.dropWhile isJsWs).length := by
          rw [hs, List.dropWhile_cons, if_pos hcon]
      _ ≤ rest.length := (List.dropWhile_suffix isJsWs).sublist.length_le
      _ < s.length := by rw [hs]; simp
  rw [h] at hlen
  omega

theorem renderL_head_not_nl (l : List Node) (hwf : wfL l = true) :
    ¬ ((renderL l).head? = some '\n') := by
  cases l with
  | nil => simp [renderL]
  | cons n rest =>
    obtain ⟨hn, -, -⟩ := wfL_parts n rest hwf
    cases n with
    | text s =>
      obtain ⟨hsne, htrim, -⟩ := wfText_props s (by simpa [wfN] using hn)
      cases hs : s with
      | nil => exact absurd hs hsne
      | cons c cs =>
        have hc := jsTrim_head_not_ws s c cs htrim hs
        simp only [renderL, renderN, hs, List.cons_append, List.head?_cons]
        intro hcon
        rw [Option.some_inj.mp hcon] at hc
        exact absurd hc (by decide)
    | elem tag attrs ch =>
      simp [renderL, renderN]

/-- `stringify` with default options produces exactly the canonical render of
a well-formed node list. -/
theorem stringifyNodes_render (l : List Node) (hwf : wfL l = true) :
    stringifyNodes l {} = renderL l := by
  rw [show stringifyNodes l {}
      = (if (writeF {} [] l 0 false).head? = some '\n'
         then (writeF {} [] l 0 false).tail else writeF {} [] l 0 false) from rfl]
  rw [writeF_render l hwf 0 false]
  rw [if_neg (renderL_head_not_nl l hwf)]

/-! ## Claim C1 (amended): the round-trip law on canonical documents -/

/-- C1, amended: for every well-formed node list `l` — nonempty tag names
free of name-ending characters, not starting with `!` or `?`, outside the
self-closing and `script`/`style` sets; attribute keys starting with a
letter, values already trimmed and quoted the way `stringify` quotes them;
text children nonempty, trimmed, `<`-free and not adjacent — the canonical
serialization `renderL l` parses back to exactly `l` (with fuel at least
`needL l`), and `stringify` returns that serialization unchanged: so
`stringify(parse(x)) = x` for every such document `x`.  In particular the
documented literal `<test a="value"><child a='g"g'>text</child></test>`
round-trips to itself.  (The law fails for well-formed documents outside
this canonical form, e.g. `<a/>`.) -/
theorem c1_amended :
    (∀ (l : List Node) (fuel : Nat), wfL l = true → needL l ≤ fuel →
      parseTopF fuel dOpts (renderL l) = .ok (.nodes l) ∧
      stringifyNodes l {} = renderL l) ∧
    (parseTopF 60 dOpts (lit "<test a=\"value\"><child a='g\"g'>text</child></test>")
        = .ok (.nodes [c1t]) ∧
      stringifyNodes [c1t] {}
        = lit "<test a=\"value\"><child a='g\"g'>text</child></test>") := by
  refine ⟨fun l fuel hwf hfuel =>
    ⟨parseTopF_render l fuel hwf hfuel, stringifyNodes_render l hwf⟩, ?_, by decide⟩
  rw [show lit "<test a=\"value\"><child a='g\"g'>text</child></test>"
      = renderL [c1t] from by decide]
  exact parseTopF_render [c1t] 60 (by decide) (by decide)

/-- Closed instance of the C1 round-trip law at a small document. -/
theorem c1_amended_witness :
    parseTopF 10 dOpts (renderL [Node.elem (lit "q") [] [Node.text (lit "hi")]])
      = .ok (.nodes [Node.elem (lit "q") [] [Node.text (lit "hi")]]) ∧
    stringifyNodes [Node.elem (lit "q") [] [Node.text (lit "hi")]] {}
      = renderL [Node.elem (lit "q") [] [Node.text (lit "hi")]] :=
  c1_amended.1 [Node.elem (lit "q") [] [Node.text (lit "hi")]] 10
    (by decide) (by decide)

/-! ## Claim C7: the `simplify` transform -/

set_option maxHeartbeats 2000000 in
/-- C7: `simplify` maps the empty list to the empty string and a single text
child to that string; on the documented example it groups the two `cc`
children into a list, collapses the single `dd` to its empty-string result,
and attaches the `_attributes` record, giving exactly
`\x7b test: \x7b cc: ["one", \x7b sub: "3", _attributes: \x7b f: "test" \x7d \x7d], dd: "" \x7d \x7d`. -/
theorem c7_simplify :
    (parseTopF 300 dOpts
        (lit "<test><cc>one</cc>test<cc f=\"test\"><sub>3</sub>two</cc><dd></dd></test>") =
      .ok (.nodes [Node.elem (lit "test") []
        [Node.elem (lit "cc") [] [Node.text (lit "one")],
         Node.text (lit "test"),
         Node.elem (lit "cc") [(lit "f", some (lit "test"))]
           [Node.elem (lit "sub") [] [Node.text (lit "3")], Node.text (lit "two")],
         Node.elem (lit "dd") [] []]])) ∧
    (simplifyV [Node.elem (lit "test") []
        [Node.elem (lit "cc") [] [Node.text (lit "one")],
         Node.text (lit "test"),
         Node.elem (lit "cc") [(lit "f", some (lit "test"))]
           [Node.elem (lit "sub") [] [Node.text (lit "3")], Node.text (lit "two")],
         Node.elem (lit "dd") [] []]] =
      .obj [(lit "test",
        .obj [(lit "cc", .arr [.str (lit "one"),
                .obj [(lit "sub", .str (lit "3")),
                      (lit "_attributes", .obj [(lit "f", .str (lit "test"))])]]),
              (lit "dd", .str [])])]) ∧
    simplifyV [] = .str [] ∧
    (∀ s : Str, simplifyV [Node.text s] = .str s) := by
  refine ⟨?_, by decide, by decide, fun s => rfl⟩
  rw [show lit "<test><cc>one</cc>test<cc f=\"test\"><sub>3</sub>two</cc><dd></dd></test>"
      = renderL [c7t] from by decide]
  exact parseTopF_render [c7t] 300 (by decide) (by decide)

/-! ## Claim C8: the content extractor -/

set_option maxHeartbeats 1000000 in
/-- C8: `toContentString` prefixes a text leaf with one space, joins a list
with single spaces and trims, and recurses through an element's children;
on `<test>f<case number="2">f</case>f</test>` it yields exactly `"f f  f"`
with the doubled internal space. -/
theorem c8_toContentString :
    (parseTopF 150 dOpts (lit "<test>f<case number=\"2\">f</case>f</test>") =
      .ok (.nodes [Node.elem (lit "test") []
        [Node.text (lit "f"),
         Node.elem (lit "case") [(lit "number", some (lit "2"))] [Node.text (lit "f")],
         Node.text (lit "f")]])) ∧
    (toContentString [Node.elem (lit "test") []
        [Node.text (lit "f"),
         Node.elem (lit "case") [(lit "number", some (lit "2"))] [Node.text (lit "f")],
         Node.text (lit "f")]] = lit "f f  f") ∧
    (∀ s : Str, tcsItem (Node.text s) = ' ' :: s) ∧
    (∀ l : List Node, toContentString l = jsTrim (joinSp (tcsParts l))) ∧
    (∀ (t : Str) (a : List (Str × Option Str)) (c : List Node),
      tcsItem (Node.elem t a c) = toContentString c) := by
  refine ⟨?_, by decide, fun s => rfl, fun l => rfl, fun t a c => rfl⟩
  rw [show lit "<test>f<case number=\"2\">f</case>f</test>"
      = renderL [c8t] from by decide]
  exact parseTopF_render [c8t] 150 (by decide) (by decide)

end TXml
